import Mathlib

/-!
# SoftWire_CH32: a bit-banged I2C bus master

A shallow embedding of `src/SoftWire_CH32.cpp` / `src/SoftWire_CH32.h`.

* The object `SoftWire_CH32` is a record of its private members.
* The Arduino primitives `pinMode`, `digitalWrite`, `digitalRead` and
  `delayMicroseconds` are external; every call is logged as one event of a
  trace (most recent event first).
* The electrical environment (pull-ups and the slave) is a function `Bus`
  that, given everything the master has done so far and a pin, says which level
  `digitalRead` samples on that pin.
* Machine integers are `Nat` with an explicit `% 256` wherever a `uint8_t` is
  assigned a value that may not fit; `int` results are `Int`.
-/

namespace SoftWire

/-! ## Data model -/

/-- The macro `SOFTWIRE_CH32_BUFFER_LENGTH` of the header. -/
def SOFTWIRE_CH32_BUFFER_LENGTH : Nat := 32

/-- The three pin modes of the Arduino core that the library uses. -/
inductive PinMode where
  | INPUT
  | OUTPUT
  | INPUT_PULLUP
  deriving DecidableEq

/-- Logic level `LOW` of the Arduino core. -/
abbrev LOW : Bool := false

/-- Logic level `HIGH` of the Arduino core. -/
abbrev HIGH : Bool := true

/-- One call of an external primitive. For `digitalRead` the event records the
level that was sampled. -/
inductive Ev where
  | pinMode (pin : Nat) (mode : PinMode)
  | digitalWrite (pin : Nat) (level : Bool)
  | digitalRead (pin : Nat) (level : Bool)
  | delayMicroseconds (us : Nat)
  deriving DecidableEq

/-- The log of external calls, most recent call first. -/
abbrev Trace := List Ev

/-- The environment: the level a `digitalRead` of a pin samples, as a function
of the calls made so far. It covers the pull-ups and every deterministic slave
behaviour. -/
abbrev Bus := Trace → Nat → Bool

/-- The private members of class `SoftWire_CH32`. The two buffers are the
32-element arrays of the header, held as lists. -/
structure SoftWire_CH32 where
  _sda_pin : Nat
  _scl_pin : Nat
  _delay_us : Nat
  _tx_address : Nat
  _tx_buffer : List Nat
  _tx_buffer_index : Nat
  _tx_buffer_length : Nat
  _rx_buffer : List Nat
  _rx_buffer_index : Nat
  _rx_buffer_length : Nat
  deriving DecidableEq

/-! ## External primitives -/

/-- External `pinMode(pin, mode)`. -/
def pinMode (pin : Nat) (mode : PinMode) (t : Trace) : Trace :=
  Ev.pinMode pin mode :: t

/-- External `digitalWrite(pin, level)`. -/
def digitalWrite (pin : Nat) (level : Bool) (t : Trace) : Trace :=
  Ev.digitalWrite pin level :: t

/-- External `digitalRead(pin)`: the bus decides the level. -/
def digitalRead (bus : Bus) (pin : Nat) (t : Trace) : Bool × Trace :=
  (bus t pin, Ev.digitalRead pin (bus t pin) :: t)

/-- External `delayMicroseconds(us)`. -/
def delayMicroseconds (us : Nat) (t : Trace) : Trace :=
  Ev.delayMicroseconds us :: t

/-! ## Construction, configuration and lifecycle -/

/-- The constructor. `_tx_address` and the two arrays are not assigned by the
constructor, so their initial contents are arguments. -/
def SoftWire_CH32.new (tx_address : Nat) (tx_buffer rx_buffer : List Nat) : SoftWire_CH32 :=
  { _sda_pin := 0xFF
    _scl_pin := 0xFF
    _delay_us := 5
    _tx_address := tx_address
    _tx_buffer := tx_buffer
    _tx_buffer_index := 0
    _tx_buffer_length := 0
    _rx_buffer := rx_buffer
    _rx_buffer_index := 0
    _rx_buffer_length := 0 }

/-- Method `i2c_delay`. -/
def i2c_delay (s : SoftWire_CH32) (t : Trace) : Trace :=
  delayMicroseconds s._delay_us t

/-- Method `begin(sda_pin, scl_pin)`. -/
def begin (s : SoftWire_CH32) (sda_pin scl_pin : Nat) (t : Trace) : SoftWire_CH32 × Trace :=
  let s := { s with _sda_pin := sda_pin, _scl_pin := scl_pin }
  let t := pinMode s._sda_pin PinMode.INPUT_PULLUP t
  let t := pinMode s._scl_pin PinMode.INPUT_PULLUP t
  (s, i2c_delay s t)

/-- Method `end()`. -/
def «end» (s : SoftWire_CH32) (t : Trace) : Trace :=
  let t := pinMode s._sda_pin PinMode.INPUT t
  pinMode s._scl_pin PinMode.INPUT t

/-- Method `setClock(frequency)`; `frequency` is a `uint32_t`. -/
def setClock (s : SoftWire_CH32) (frequency : Nat) : SoftWire_CH32 :=
  if frequency ≤ 0 then s
  else
    let s := { s with _delay_us := 500000 / frequency }
    if s._delay_us < 1 then { s with _delay_us := 1 } else s

/-! ## Line control -/

/-- Method `i2c_sda_high`: release SDA. -/
def i2c_sda_high (s : SoftWire_CH32) (t : Trace) : Trace :=
  pinMode s._sda_pin PinMode.INPUT_PULLUP t

/-- Method `i2c_sda_low`. -/
def i2c_sda_low (s : SoftWire_CH32) (t : Trace) : Trace :=
  let t := pinMode s._sda_pin PinMode.OUTPUT t
  digitalWrite s._sda_pin LOW t

/-- The `while` loop of `i2c_scl_high`, with the current value of the local
`timeout`. The condition samples SCL first; only when it reads `LOW` is
`timeout--` evaluated, which is false exactly when `timeout` was 0. -/
def i2c_scl_high_loop (bus : Bus) (s : SoftWire_CH32) : Nat → Trace → Trace
  | timeout, t =>
    let r := digitalRead bus s._scl_pin t
    if r.1 = LOW then
      match timeout with
      | 0 => r.2
      | timeout + 1 => i2c_scl_high_loop bus s timeout (delayMicroseconds 1 r.2)
    else r.2

/-- Method `i2c_scl_high`: release SCL and wait for clock stretching. -/
def i2c_scl_high (bus : Bus) (s : SoftWire_CH32) (t : Trace) : Trace :=
  let t := pinMode s._scl_pin PinMode.INPUT_PULLUP t
  let t := i2c_delay s t
  i2c_scl_high_loop bus s 1000 t

/-- Method `i2c_scl_low`. -/
def i2c_scl_low (s : SoftWire_CH32) (t : Trace) : Trace :=
  let t := pinMode s._scl_pin PinMode.OUTPUT t
  let t := digitalWrite s._scl_pin LOW t
  i2c_delay s t

/-- Method `i2c_read_sda`. -/
def i2c_read_sda (bus : Bus) (s : SoftWire_CH32) (t : Trace) : Bool × Trace :=
  digitalRead bus s._sda_pin t

/-- Method `i2c_read_scl`. -/
def i2c_read_scl (bus : Bus) (s : SoftWire_CH32) (t : Trace) : Bool × Trace :=
  digitalRead bus s._scl_pin t

/-! ## Start, stop, bits and bytes -/

/-- Method `i2c_start`. -/
def i2c_start (bus : Bus) (s : SoftWire_CH32) (t : Trace) : Trace :=
  let t := i2c_sda_high s t
  let t := i2c_scl_high bus s t
  let t := i2c_delay s t
  let t := i2c_sda_low s t
  let t := i2c_delay s t
  i2c_scl_low s t

/-- Method `i2c_stop`. -/
def i2c_stop (bus : Bus) (s : SoftWire_CH32) (t : Trace) : Trace :=
  let t := i2c_sda_low s t
  let t := i2c_delay s t
  let t := i2c_scl_high bus s t
  let t := i2c_delay s t
  let t := i2c_sda_high s t
  i2c_delay s t

/-- Method `i2c_write_bit`. -/
def i2c_write_bit (bus : Bus) (s : SoftWire_CH32) (bit : Bool) (t : Trace) : Bool × Trace :=
  let t := if bit then i2c_sda_high s t else i2c_sda_low s t
  let t := i2c_delay s t
  let t := i2c_scl_high bus s t
  let t := i2c_scl_low s t
  (true, t)

/-- Method `i2c_read_bit`. -/
def i2c_read_bit (bus : Bus) (s : SoftWire_CH32) (t : Trace) : Bool × Trace :=
  let t := i2c_sda_high s t
  let t := i2c_delay s t
  let t := i2c_scl_high bus s t
  let r := i2c_read_sda bus s t
  let t := i2c_scl_low s r.2
  (r.1, t)

/-- The `for` loop of `i2c_write_byte`; the first argument is the number of
iterations still to run (`8 - i`). `byte` is a `uint8_t`, so `byte <<= 1`
wraps modulo 256. -/
def i2c_write_byte_loop (bus : Bus) (s : SoftWire_CH32) : Nat → Nat → Trace → Trace
  | 0, _, t => t
  | n + 1, byte, t =>
    let t := (i2c_write_bit bus s ((byte &&& 0x80) != 0) t).2
    i2c_write_byte_loop bus s n ((byte <<< 1) % 256) t

/-- Method `i2c_write_byte`. -/
def i2c_write_byte (bus : Bus) (s : SoftWire_CH32) (byte : Nat) (t : Trace) : Bool × Trace :=
  let t := i2c_write_byte_loop bus s 8 byte t
  let nack := i2c_read_bit bus s t
  (!nack.1, nack.2)

/-- The `for` loop of `i2c_read_byte`; the first argument is the number of
iterations still to run. `byte` is a `uint8_t`. -/
def i2c_read_byte_loop (bus : Bus) (s : SoftWire_CH32) : Nat → Nat → Trace → Nat × Trace
  | 0, byte, t => (byte, t)
  | n + 1, byte, t =>
    let byte := (byte <<< 1) % 256
    let r := i2c_read_bit bus s t
    let byte := byte ||| (if r.1 then 1 else 0)
    i2c_read_byte_loop bus s n byte r.2

/-- Method `i2c_read_byte`. -/
def i2c_read_byte (bus : Bus) (s : SoftWire_CH32) (ack : Bool) (t : Trace) : Nat × Trace :=
  let r := i2c_read_byte_loop bus s 8 0 t
  let t := (i2c_write_bit bus s (!ack) r.2).2
  (r.1, t)

/-! ## Transaction API -/

/-- Method `beginTransmission(address)`. -/
def beginTransmission (s : SoftWire_CH32) (address : Nat) : SoftWire_CH32 :=
  { s with _tx_address := address, _tx_buffer_index := 0, _tx_buffer_length := 0 }

/-- The data loop of `endTransmission`: `n` iterations still to run, at index
`i` (so `n = _tx_buffer_length - i`). The result is `some 3` with the trace when
the loop returned early on a NACK, and `none` when it ran to its end. -/
def endTransmission_loop (bus : Bus) (s : SoftWire_CH32) (sendStop : Bool) :
    Nat → Nat → Trace → Option Nat × Trace
  | 0, _, t => (none, t)
  | n + 1, i, t =>
    let r := i2c_write_byte bus s (s._tx_buffer.getD i 0) t
    if !r.1 then
      let t := if sendStop then i2c_stop bus s r.2 else r.2
      (some 3, t)
    else endTransmission_loop bus s sendStop n (i + 1) r.2

/-- Method `endTransmission(sendStop)`. The address expression is an `int`
that is converted to the `uint8_t` parameter of `i2c_write_byte`. The method
assigns no member. -/
def endTransmission (bus : Bus) (s : SoftWire_CH32) (sendStop : Bool) (t : Trace) :
    Nat × Trace :=
  let t := i2c_start bus s t
  let r := i2c_write_byte bus s (((s._tx_address <<< 1) ||| 0) % 256) t
  if !r.1 then
    let t := if sendStop then i2c_stop bus s r.2 else r.2
    (2, t)
  else
    match endTransmission_loop bus s sendStop s._tx_buffer_length 0 r.2 with
    | (some status, t) => (status, t)
    | (none, t) =>
      let t := if sendStop then i2c_stop bus s t else t
      (0, t)

/-- The read loop of `requestFrom`: `n` iterations still to run, at index `i`,
with the current `_rx_buffer` and `_rx_buffer_length`. The comparison
`i < quantity - 1` is made on `int`. The bus methods read only the pin and
delay members, which the loop does not assign, so they run on `s`. -/
def requestFrom_loop (bus : Bus) (s : SoftWire_CH32) (quantity : Nat) :
    Nat → Nat → List Nat → Nat → Trace → List Nat × Nat × Trace
  | 0, _, rx_buffer, rx_buffer_length, t => (rx_buffer, rx_buffer_length, t)
  | n + 1, i, rx_buffer, rx_buffer_length, t =>
    let r := i2c_read_byte bus s (decide ((i : Int) < (quantity : Int) - 1)) t
    requestFrom_loop bus s quantity n (i + 1) (rx_buffer.set i r.1)
      (rx_buffer_length + 1) r.2

/-- Method `requestFrom(address, quantity, sendStop)`: the value returned,
the object afterwards and the trace. -/
def requestFrom (bus : Bus) (s : SoftWire_CH32) (address quantity : Nat) (sendStop : Bool)
    (t : Trace) : Nat × SoftWire_CH32 × Trace :=
  let quantity :=
    if quantity > SOFTWIRE_CH32_BUFFER_LENGTH then SOFTWIRE_CH32_BUFFER_LENGTH else quantity
  let t := i2c_start bus s t
  let r := i2c_write_byte bus s (((address <<< 1) ||| 1) % 256) t
  if !r.1 then
    let t := if sendStop then i2c_stop bus s r.2 else r.2
    (0, s, t)
  else
    let l := requestFrom_loop bus s quantity quantity 0 s._rx_buffer 0 r.2
    let t := if sendStop then i2c_stop bus s l.2.2 else l.2.2
    let s := { s with _rx_buffer := l.1, _rx_buffer_length := l.2.1, _rx_buffer_index := 0 }
    (s._rx_buffer_length, s, t)

/-- Method `write(data)`: the count returned and the object afterwards. The
guard keeps `_tx_buffer_length` below 32, so the increment does not wrap. -/
def write (s : SoftWire_CH32) (data : Nat) : Nat × SoftWire_CH32 :=
  if s._tx_buffer_length ≥ SOFTWIRE_CH32_BUFFER_LENGTH then (0, s)
  else
    (1, { s with _tx_buffer := s._tx_buffer.set s._tx_buffer_length data
                 _tx_buffer_length := s._tx_buffer_length + 1 })

/-- The loop of `write(data, length)` over the remaining input bytes, with the
current value of the local `written`. -/
def write_array_loop : SoftWire_CH32 → List Nat → Nat → Nat × SoftWire_CH32
  | s, [], written => (written, s)
  | s, d :: data, written =>
    let r := write s d
    if r.1 ≠ 0 then write_array_loop r.2 data (written + 1)
    else (written, r.2)

/-- Method `write(data, length)`; the array and its length are the list
`data`. -/
def write_array (s : SoftWire_CH32) (data : List Nat) : Nat × SoftWire_CH32 :=
  write_array_loop s data 0

/-- Method `available()`; the subtraction is made on `int`. -/
def available (s : SoftWire_CH32) : Int :=
  (s._rx_buffer_length : Int) - (s._rx_buffer_index : Int)

/-- Method `read()`: the `int` returned and the object afterwards. The guard
keeps the cursor below the length, so the increment does not wrap. -/
def read (s : SoftWire_CH32) : Int × SoftWire_CH32 :=
  if s._rx_buffer_index < s._rx_buffer_length then
    ((s._rx_buffer.getD s._rx_buffer_index 0 : Nat),
      { s with _rx_buffer_index := s._rx_buffer_index + 1 })
  else (-1, s)

/-- Method `peek()`. -/
def peek (s : SoftWire_CH32) : Int :=
  if s._rx_buffer_index < s._rx_buffer_length then
    (s._rx_buffer.getD s._rx_buffer_index 0 : Nat)
  else -1

/-- Method `exists(address)`. -/
def «exists» (bus : Bus) (s : SoftWire_CH32) (address : Nat) (t : Trace) : Bool × Trace :=
  let t := i2c_start bus s t
  let ack := i2c_write_byte bus s (((address <<< 1) ||| 0) % 256) t
  let t := i2c_stop bus s ack.2
  (ack.1, t)

/-! ## Vocabulary of the specification -/

/-- A bus-level operation of the engine: a start condition, the write of one
byte (followed by the acknowledge clock), the read of one byte (followed by
the master's acknowledge or not-acknowledge), a stop condition. -/
inductive BusOp where
  | start
  | writeByte (byte : Nat)
  | readByte (ack : Bool)
  | stop
  deriving DecidableEq

/-- The trace after the engine has performed the given bus-level operations,
in order, and nothing else. -/
def runOps (bus : Bus) (s : SoftWire_CH32) : List BusOp → Trace → Trace
  | [], t => t
  | BusOp.start :: ops, t => runOps bus s ops (i2c_start bus s t)
  | BusOp.writeByte byte :: ops, t => runOps bus s ops (i2c_write_byte bus s byte t).2
  | BusOp.readByte ack :: ops, t => runOps bus s ops (i2c_read_byte bus s ack t).2
  | BusOp.stop :: ops, t => runOps bus s ops (i2c_stop bus s t)

/-- The stop condition, present exactly when `sendStop` is true. -/
def stopIf (sendStop : Bool) : List BusOp :=
  if sendStop then [BusOp.stop] else []

/-- The trace after calling `i2c_write_bit` on each of the bits, in order. -/
def writeBits (bus : Bus) (s : SoftWire_CH32) : List Bool → Trace → Trace
  | [], t => t
  | bit :: bits, t => writeBits bus s bits (i2c_write_bit bus s bit t).2

/-- The eight bits of a byte, most-significant bit (bit 7) first. -/
def bitsMSB (byte : Nat) : List Bool :=
  [byte.testBit 7, byte.testBit 6, byte.testBit 5, byte.testBit 4,
   byte.testBit 3, byte.testBit 2, byte.testBit 1, byte.testBit 0]

/-- The SDA level that the bus presents when the master samples the
acknowledge bit of `byte`, written from trace `t`: the eight data bits have
been clocked out, SDA is released and SCL has been raised. The slave
acknowledges when this level is `LOW`. -/
def ackLevel (bus : Bus) (s : SoftWire_CH32) (byte : Nat) (t : Trace) : Bool :=
  bus (i2c_scl_high bus s (i2c_delay s (i2c_sda_high s
    (i2c_write_byte_loop bus s 8 byte t)))) s._sda_pin

/-- The slave acknowledges every one of the bytes when they are written one
after the other from trace `t`. -/
def acksAll (bus : Bus) (s : SoftWire_CH32) : List Nat → Trace → Bool
  | [], _ => true
  | byte :: bytes, t =>
    (ackLevel bus s byte t == LOW) && acksAll bus s bytes (i2c_write_byte bus s byte t).2

/-- The bytes returned by successive calls of `i2c_read_byte`, one call per
acknowledge flag, from trace `t`. -/
def readBytes (bus : Bus) (s : SoftWire_CH32) : List Bool → Trace → List Nat
  | [], _ => []
  | ack :: acks, t =>
    (i2c_read_byte bus s ack t).1 :: readBytes bus s acks (i2c_read_byte bus s ack t).2

/-- The acknowledge flags of a read of `m` bytes: acknowledge the first
`m - 1`, do not acknowledge the last. -/
def ackFlags (m : Nat) : List Bool :=
  List.replicate (m - 1) true ++ (if m = 0 then [] else [false])

/-- The bytes queued for transmission: the first `_tx_buffer_length` slots of
the transmit buffer. -/
def queued (s : SoftWire_CH32) : List Nat :=
  s._tx_buffer.take s._tx_buffer_length

/-- The object after queueing the bytes one by one with `write(data)`. -/
def queue (s : SoftWire_CH32) (data : List Nat) : SoftWire_CH32 :=
  data.foldl (fun s d => (write s d).2) s

/-- The object after `k` successive calls of `read()`. -/
def reads : Nat → SoftWire_CH32 → SoftWire_CH32
  | 0, s => s
  | k + 1, s => reads k (read s).2

/-- The number of times SDA is sampled in a trace. A byte-write samples SDA
exactly once (its acknowledge bit); start and stop conditions never do. -/
def sdaSamples (s : SoftWire_CH32) (t : Trace) : Nat :=
  t.countP (fun e => match e with
    | Ev.digitalRead pin _ => pin == s._sda_pin
    | _ => false)

/-- The number of times a bus-level operation samples SDA: a byte-write
samples it once (the acknowledge bit), a byte-read eight times (the data bits),
start and stop conditions never. -/
def BusOp.samples : BusOp → Nat
  | BusOp.start => 0
  | BusOp.writeByte _ => 1
  | BusOp.readByte _ => 8
  | BusOp.stop => 0

/-- A bus on which SCL always reads high (no clock stretching) and SDA always
reads low (a slave that acknowledges everything and sends zeros), for pins
SDA = 0 and SCL = 1. -/
def ackBus : Bus := fun _ pin => pin == 1

/-- A bus for pins SDA = 0 and SCL = 1 on which SCL always reads high and SDA
reads low for the first `n` samples and high from then on: a slave that
acknowledges `n` bytes and then stops acknowledging. -/
def nackAfterBus (n : Nat) : Bus := fun t pin =>
  pin == 1 || decide (n ≤ t.countP (fun e => match e with
    | Ev.digitalRead p _ => p == 0
    | _ => false))

/-- A bus on which every line always reads high: nobody answers. -/
def idleBus : Bus := fun _ _ => HIGH

/-- A freshly constructed engine configured on pins SDA = 0 and SCL = 1. -/
def engine01 : SoftWire_CH32 :=
  (begin (SoftWire_CH32.new 0 (List.replicate 32 0) (List.replicate 32 0)) 0 1 []).1

/-- The conversion of an `int` argument to a `uint32_t` parameter: reduction
modulo `2^32`. -/
def toUint32 (f : Int) : Nat :=
  (f % 4294967296).toNat

/-- A call of a public method, with its arguments. -/
inductive Call where
  | begin (sda_pin scl_pin : Nat)
  | «end»
  | setClock (frequency : Nat)
  | beginTransmission (address : Nat)
  | write (data : Nat)
  | write_array (data : List Nat)
  | endTransmission (sendStop : Bool)
  | requestFrom (address quantity : Nat) (sendStop : Bool)
  | available
  | read
  | peek
  | «exists» (address : Nat)

/-- The object and the trace after a call of a public method. The methods
`end`, `endTransmission`, `available`, `peek` and `exists` assign no member, so
the object after them is the object before. -/
def Call.run (bus : Bus) : Call → SoftWire_CH32 × Trace → SoftWire_CH32 × Trace
  | Call.begin sda_pin scl_pin, (s, t) => SoftWire.begin s sda_pin scl_pin t
  | Call.«end», (s, t) => (s, SoftWire.«end» s t)
  | Call.setClock frequency, (s, t) => (SoftWire.setClock s frequency, t)
  | Call.beginTransmission address, (s, t) => (SoftWire.beginTransmission s address, t)
  | Call.write data, (s, t) => ((SoftWire.write s data).2, t)
  | Call.write_array data, (s, t) => ((SoftWire.write_array s data).2, t)
  | Call.endTransmission sendStop, (s, t) => (s, (SoftWire.endTransmission bus s sendStop t).2)
  | Call.requestFrom address quantity sendStop, (s, t) =>
    (SoftWire.requestFrom bus s address quantity sendStop t).2
  | Call.available, (s, t) => (s, t)
  | Call.read, (s, t) => ((SoftWire.read s).2, t)
  | Call.peek, (s, t) => (s, t)
  | Call.«exists» address, (s, t) => (s, (SoftWire.«exists» bus s address t).2)

/-- The object and the trace after a sequence of calls, first call first. -/
def runCalls (bus : Bus) : List Call → SoftWire_CH32 × Trace → SoftWire_CH32 × Trace
  | [], st => st
  | c :: calls, st => runCalls bus calls (Call.run bus c st)

/-- The buffer invariant: the transmit length is within capacity, and the
read cursor is within the receive length, which is within capacity. -/
def Inv (s : SoftWire_CH32) : Prop :=
  s._tx_buffer_length ≤ SOFTWIRE_CH32_BUFFER_LENGTH ∧
  s._rx_buffer_index ≤ s._rx_buffer_length ∧
  s._rx_buffer_length ≤ SOFTWIRE_CH32_BUFFER_LENGTH

/-- Both arrays have the 32 slots the header declares. -/
def Sized (s : SoftWire_CH32) : Prop :=
  s._tx_buffer.length = SOFTWIRE_CH32_BUFFER_LENGTH ∧
  s._rx_buffer.length = SOFTWIRE_CH32_BUFFER_LENGTH

instance (s : SoftWire_CH32) : Decidable (Inv s) := by
  unfold Inv
  infer_instance

instance (s : SoftWire_CH32) : Decidable (Sized s) := by
  unfold Sized
  infer_instance

/-- A level write is a write of `LOW`; every other event passes. -/
def lowWrite : Ev → Bool
  | Ev.digitalWrite _ level => level == LOW
  | _ => true

/-- The event `e` is admissible right after the events of `t` (most recent
first): when the last event of `t` configured a pin as output, `e` must be the
write of `LOW` to that pin. -/
def followsOutput (e : Ev) : Trace → Bool
  | Ev.pinMode pin PinMode.OUTPUT :: _ => e == Ev.digitalWrite pin LOW
  | _ => true

/-- The open-drain discipline on a trace: every level write is a write of
`LOW`, and every configuration of a pin as output is immediately followed by
the write of `LOW` to that pin. -/
def openDrain : Trace → Bool
  | [] => true
  | e :: t => lowWrite e && followsOutput e t && openDrain t

/-- The most recent event is not the configuration of a pin as output, which
would still be waiting for its write of `LOW`. -/
def settled : Trace → Bool
  | Ev.pinMode _ PinMode.OUTPUT :: _ => false
  | _ => true

/-- The open-drain discipline holds on the whole trace, its last event
included. -/
def openDrainOk (t : Trace) : Bool :=
  openDrain t && settled t

/-- The number of one-microsecond delays in a trace. -/
def pollDelays (t : Trace) : Nat :=
  t.countP (fun e => match e with
    | Ev.delayMicroseconds us => us == 1
    | _ => false)

/-- The number of times SCL is sampled in a trace. -/
def sclSamples (s : SoftWire_CH32) (t : Trace) : Nat :=
  t.countP (fun e => match e with
    | Ev.digitalRead pin _ => pin == s._scl_pin
    | _ => false)

/-- A bus on which every line always reads low: SCL is held low forever. -/
def stuckLowBus : Bus := fun _ _ => LOW

/-- What the master does to a line, as far as the trace tells: it has
released the pin (configured it as an input), it drives the pin low or high (an
output on which that level was written), it has configured the pin as an
output and not yet written a level, or nothing is known (no configuration of
the pin in the trace). -/
inductive Line where
  | released
  | drivenLow
  | drivenHigh
  | outputPending
  | unknown
  deriving DecidableEq

/-- The state of the line on pin `pin` after the events of a trace. -/
def line (pin : Nat) : Trace → Line
  | [] => Line.unknown
  | Ev.pinMode p mode :: t =>
    if p = pin then
      match mode with
      | PinMode.OUTPUT => Line.outputPending
      | _ => Line.released
    else line pin t
  | Ev.digitalWrite p level :: t =>
    if p = pin then
      match line pin t with
      | Line.released => Line.released
      | Line.unknown => Line.unknown
      | _ => if level then Line.drivenHigh else Line.drivenLow
    else line pin t
  | Ev.digitalRead _ _ :: t => line pin t
  | Ev.delayMicroseconds _ :: t => line pin t

/-- The line state that presents a bit on SDA: released for 1, driven low
for 0. -/
def levelOf (bit : Bool) : Line :=
  if bit then Line.released else Line.drivenLow

/-- The states of the master's SDA line at the clocks of a trace, in the order
of time: one entry for every release of SCL (`pinMode(_scl_pin,
INPUT_PULLUP)`), holding the state of SDA at that moment. -/
def sdaAtClocks (s : SoftWire_CH32) : Trace → List Line
  | [] => []
  | Ev.pinMode p mode :: t =>
    if p = s._scl_pin ∧ mode = PinMode.INPUT_PULLUP then
      sdaAtClocks s t ++ [line s._sda_pin t]
    else sdaAtClocks s t
  | Ev.digitalWrite _ _ :: t => sdaAtClocks s t
  | Ev.digitalRead _ _ :: t => sdaAtClocks s t
  | Ev.delayMicroseconds _ :: t => sdaAtClocks s t

/-- The levels sampled on SDA in a trace, in the order of time. -/
def sdaReads (s : SoftWire_CH32) : Trace → List Bool
  | [] => []
  | Ev.pinMode _ _ :: t => sdaReads s t
  | Ev.digitalWrite _ _ :: t => sdaReads s t
  | Ev.digitalRead p level :: t =>
    if p = s._sda_pin then sdaReads s t ++ [level] else sdaReads s t
  | Ev.delayMicroseconds _ :: t => sdaReads s t

/-- The byte that the loop of `i2c_read_byte` accumulates from the samples,
first sample first, starting from `acc`. -/
def assembleFrom (acc : Nat) (samples : List Bool) : Nat :=
  samples.foldl (fun a bit => ((a <<< 1) % 256) ||| (if bit then 1 else 0)) acc

/-- A loopback bus for the engine `engine01`: SCL always reads high, and the
`j`-th sample of SDA after the first reads the level that the master presented
on SDA at the `j`-th clock of the trace (high when released). -/
def loopbackBus : Bus := fun t pin =>
  pin == 1 ||
    ((sdaAtClocks engine01 t).getD ((sdaReads engine01 t).length - 1) Line.released
      == Line.released)

/-- Two objects are wired alike: same pins, same delay. The bus methods read
no other member. -/
def SameWiring (s1 s2 : SoftWire_CH32) : Prop :=
  s1._sda_pin = s2._sda_pin ∧ s1._scl_pin = s2._scl_pin ∧ s1._delay_us = s2._delay_us

/-- No event of the trace configures a pin as a plain input
(`pinMode(pin, INPUT)`, without pull-up). -/
def noPlainInput (t : Trace) : Bool :=
  t.all (fun e => match e with
    | Ev.pinMode _ PinMode.INPUT => false
    | _ => true)

/-- A property of traces that survives the four things the bus methods do to
a trace: release a pin with pull-up, drive a pin low (configure as output, then
write `LOW`), sample a pin, and wait. -/
def BusClosed (bus : Bus) (Q : Trace → Prop) : Prop :=
  (∀ (pin : Nat) (t : Trace), Q t → Q (pinMode pin PinMode.INPUT_PULLUP t)) ∧
  (∀ (pin : Nat) (t : Trace), Q t → Q (digitalWrite pin LOW (pinMode pin PinMode.OUTPUT t))) ∧
  (∀ (pin : Nat) (t : Trace), Q t → Q (digitalRead bus pin t).2) ∧
  (∀ (us : Nat) (t : Trace), Q t → Q (delayMicroseconds us t))

/-- The levels returned by `n` successive calls of `i2c_read_bit`, first call
first. -/
def readBits (bus : Bus) (s : SoftWire_CH32) : Nat → Trace → List Bool
  | 0, _ => []
  | n + 1, t => (i2c_read_bit bus s t).1 :: readBits bus s n (i2c_read_bit bus s t).2

/-! ## Basic facts -/

set_option maxRecDepth 100000

theorem i2c_write_byte_fst (bus : Bus) (s : SoftWire_CH32) (byte : Nat) (t : Trace) :
    (i2c_write_byte bus s byte t).1 = !(ackLevel bus s byte t) := rfl

theorem addr_write_byte (a : Nat) : ((a <<< 1) ||| 0) % 256 = (2 * a) % 256 := by
  simp [Nat.shiftLeft_eq, Nat.mul_comm]

theorem addr_read_byte (a : Nat) : ((a <<< 1) ||| 1) % 256 = (2 * a + 1) % 256 := by
  have h := Nat.mul_add_lt_is_or (i := 1) (b := 1) (by decide) a
  simp only [Nat.pow_one] at h
  rw [Nat.shiftLeft_eq, Nat.pow_one, Nat.mul_comm, ← h]

theorem addr_write_byte_of_lt (a : Nat) (h : a < 128) : ((a <<< 1) ||| 0) % 256 = 2 * a := by
  rw [addr_write_byte]; omega

theorem runOps_append (bus : Bus) (s : SoftWire_CH32) (xs ys : List BusOp) (t : Trace) :
    runOps bus s (xs ++ ys) t = runOps bus s ys (runOps bus s xs t) := by
  induction xs generalizing t with
  | nil => rfl
  | cons x xs ih => cases x <;> simp [runOps, ih]

theorem runOps_stopIf (bus : Bus) (s : SoftWire_CH32) (sendStop : Bool) (t : Trace) :
    runOps bus s (stopIf sendStop) t = if sendStop then i2c_stop bus s t else t := by
  cases sendStop <;> rfl

/-! ## Clock configuration -/

/-- C10: for every frequency `f` with `1 ≤ f < 2^32`, after `setClock(f)` the
half-period delay equals `max 1 (500000 / f)` (truncating division), hence it is
at least 1, and it is 1 for every `f > 500000`. -/
theorem setClock_delay (s : SoftWire_CH32) (f : Nat) (h1 : 1 ≤ f) (h2 : f < 2 ^ 32) :
    (setClock s f)._delay_us = max 1 (500000 / f) ∧
    1 ≤ (setClock s f)._delay_us ∧
    (500000 < f → (setClock s f)._delay_us = 1) := by
  have hf : ¬ f ≤ 0 := by omega
  have key : (setClock s f)._delay_us = max 1 (500000 / f) := by
    unfold setClock
    simp only [hf, if_false]
    by_cases hd : 500000 / f < 1
    · simp only [hd, if_true]
      omega
    · simp only [hd, if_false]
      omega
  refine ⟨key, ?_, ?_⟩
  · rw [key]; exact le_max_left _ _
  · intro hbig
    rw [key, Nat.div_eq_of_lt hbig]
    rfl

/-- Witness of C10 at 1 MHz on the engine `engine01`. -/
theorem setClock_delay_witness :
    (1 ≤ 1000000 ∧ 1000000 < 2 ^ 32) ∧ (setClock engine01 1000000)._delay_us = 1 :=
  ⟨by decide, (setClock_delay engine01 1000000 (by decide) (by decide)).2.2 (by decide)⟩

/-! ## Address not acknowledged -/

/-- C4: for every object (hence every transmit-buffer content) and either
value of `sendStop`: if the slave does not acknowledge the address byte,
`endTransmission(sendStop)` returns 2, and the bus activity is exactly a start
condition, the write of the address byte (address shifted left, write bit 0)
and a stop condition if and only if `sendStop` is true: no queued data byte
causes any signaling. -/
theorem endTransmission_nack_address (bus : Bus) (s : SoftWire_CH32) (sendStop : Bool)
    (t : Trace)
    (hnack : ackLevel bus s ((2 * s._tx_address) % 256) (i2c_start bus s t) = HIGH) :
    endTransmission bus s sendStop t =
      (2, runOps bus s
        ([BusOp.start, BusOp.writeByte ((2 * s._tx_address) % 256)] ++ stopIf sendStop) t) := by
  have h1 : (i2c_write_byte bus s ((2 * s._tx_address) % 256) (i2c_start bus s t)).1 = false := by
    rw [i2c_write_byte_fst, hnack]; rfl
  unfold endTransmission
  simp only [addr_write_byte, h1, Bool.not_false, if_true]
  cases sendStop <;> rfl

/-- Witness of C4: three bytes queued for address 0x50 on a bus where nobody
answers. -/
theorem endTransmission_nack_address_witness :
    ackLevel idleBus (queue (beginTransmission engine01 0x50) [1, 2, 3])
        ((2 * (queue (beginTransmission engine01 0x50) [1, 2, 3])._tx_address) % 256)
        (i2c_start idleBus (queue (beginTransmission engine01 0x50) [1, 2, 3]) []) = HIGH ∧
    endTransmission idleBus (queue (beginTransmission engine01 0x50) [1, 2, 3]) true [] =
      (2, runOps idleBus (queue (beginTransmission engine01 0x50) [1, 2, 3])
        ([BusOp.start, BusOp.writeByte ((2 * 0x50) % 256)] ++ stopIf true) []) :=
  ⟨rfl, endTransmission_nack_address idleBus
    (queue (beginTransmission engine01 0x50) [1, 2, 3]) true [] rfl⟩

/-- C5: for every prior object, address, quantity and `sendStop`: if the slave
does not acknowledge the address byte, `requestFrom` returns 0, leaves the
object (receive buffer, receive length, read cursor and all else) exactly as
it was, so `available()`, `read()` and `peek()` answer as before, and the bus
activity is exactly a start condition, the write of the address byte with read
bit 1 and a stop condition if and only if `sendStop` is true: no byte is
read. -/
theorem requestFrom_nack_address (bus : Bus) (s : SoftWire_CH32) (address quantity : Nat)
    (sendStop : Bool) (t : Trace)
    (hnack : ackLevel bus s ((2 * address + 1) % 256) (i2c_start bus s t) = HIGH) :
    (requestFrom bus s address quantity sendStop t).1 = 0 ∧
    (requestFrom bus s address quantity sendStop t).2.1 = s ∧
    available (requestFrom bus s address quantity sendStop t).2.1 = available s ∧
    read (requestFrom bus s address quantity sendStop t).2.1 = read s ∧
    peek (requestFrom bus s address quantity sendStop t).2.1 = peek s ∧
    (requestFrom bus s address quantity sendStop t).2.2 =
      runOps bus s
        ([BusOp.start, BusOp.writeByte ((2 * address + 1) % 256)] ++ stopIf sendStop) t := by
  have h1 : (i2c_write_byte bus s ((2 * address + 1) % 256) (i2c_start bus s t)).1
      = false := by
    rw [i2c_write_byte_fst, hnack]; rfl
  have h2 : requestFrom bus s address quantity sendStop t =
      (0, s, runOps bus s
        ([BusOp.start, BusOp.writeByte ((2 * address + 1) % 256)] ++ stopIf sendStop) t) := by
    unfold requestFrom
    simp only [addr_read_byte, h1, Bool.not_false, if_true]
    cases sendStop <;> rfl
  rw [h2]
  exact ⟨rfl, rfl, rfl, rfl, rfl, rfl⟩

/-- Witness of C5: a request of 4 bytes from address 0x50 on a bus where
nobody answers. -/
theorem requestFrom_nack_address_witness :
    ackLevel idleBus engine01 ((2 * 0x50 + 1) % 256) (i2c_start idleBus engine01 []) = HIGH ∧
    (requestFrom idleBus engine01 0x50 4 true []).1 = 0 ∧
    (requestFrom idleBus engine01 0x50 4 true []).2.1 = engine01 :=
  ⟨rfl, (requestFrom_nack_address idleBus engine01 0x50 4 true [] rfl).1,
    (requestFrom_nack_address idleBus engine01 0x50 4 true [] rfl).2.1⟩

/-! ## Probing an address -/

/-- C8: for every address and every bus, `exists(address)` returns true if and
only if the SDA level sampled at the acknowledge clock of the address byte is
low, and its bus activity is exactly one start condition, one write of the
address byte (address shifted left, write bit 0) and one stop condition. -/
theorem exists_iff_ack (bus : Bus) (s : SoftWire_CH32) (address : Nat) (t : Trace) :
    ((«exists» bus s address t).1 = true ↔
      ackLevel bus s ((2 * address) % 256) (i2c_start bus s t) = LOW) ∧
    («exists» bus s address t).2 =
      runOps bus s [BusOp.start, BusOp.writeByte ((2 * address) % 256), BusOp.stop] t := by
  unfold «exists»
  simp only [addr_write_byte, i2c_write_byte_fst]
  refine ⟨?_, rfl⟩
  cases ackLevel bus s ((2 * address) % 256) (i2c_start bus s t) <;> simp

/-! ## Queueing bytes -/

theorem take_succ_set (l : List Nat) (n a : Nat) (h : n < l.length) :
    (l.set n a).take (n + 1) = l.take n ++ [a] := by
  rw [List.take_succ, List.getElem?_set_self h]
  congr 1
  apply List.ext_getElem?
  intro i
  simp only [List.getElem?_take]
  split
  · rw [List.getElem?_set_ne (by omega)]
  · rfl

theorem write_of_room (s : SoftWire_CH32) (d : Nat)
    (h : s._tx_buffer_length < SOFTWIRE_CH32_BUFFER_LENGTH) :
    write s d = (1, { s with _tx_buffer := s._tx_buffer.set s._tx_buffer_length d
                             _tx_buffer_length := s._tx_buffer_length + 1 }) := by
  unfold write
  rw [if_neg (by omega)]

theorem write_of_full (s : SoftWire_CH32) (d : Nat)
    (h : SOFTWIRE_CH32_BUFFER_LENGTH ≤ s._tx_buffer_length) : write s d = (0, s) := by
  unfold write
  rw [if_pos h]

/-- What the loop of `write(data, length)` computes on an object whose
transmit length is within capacity. -/
theorem write_array_loop_eq (data : List Nat) :
    ∀ (s : SoftWire_CH32) (written : Nat),
      s._tx_buffer_length ≤ SOFTWIRE_CH32_BUFFER_LENGTH →
      s._tx_buffer.length = SOFTWIRE_CH32_BUFFER_LENGTH →
      write_array_loop s data written =
        (written + min data.length (SOFTWIRE_CH32_BUFFER_LENGTH - s._tx_buffer_length),
         { s with
           _tx_buffer :=
             s._tx_buffer.take s._tx_buffer_length ++
             data.take (min data.length (SOFTWIRE_CH32_BUFFER_LENGTH - s._tx_buffer_length)) ++
             s._tx_buffer.drop (s._tx_buffer_length +
               min data.length (SOFTWIRE_CH32_BUFFER_LENGTH - s._tx_buffer_length))
           _tx_buffer_length := s._tx_buffer_length +
             min data.length (SOFTWIRE_CH32_BUFFER_LENGTH - s._tx_buffer_length) }) := by
  induction data with
  | nil =>
    intro s written _ _
    simp [write_array_loop]
  | cons d ds ih =>
    intro s written hL hlen
    by_cases hfull : SOFTWIRE_CH32_BUFFER_LENGTH ≤ s._tx_buffer_length
    · have hm : SOFTWIRE_CH32_BUFFER_LENGTH - s._tx_buffer_length = 0 := by omega
      simp [write_array_loop, write_of_full s d hfull, hm]
    · have hroom : s._tx_buffer_length < SOFTWIRE_CH32_BUFFER_LENGTH := by omega
      have hidx : s._tx_buffer_length < s._tx_buffer.length := by omega
      have hmin : min (d :: ds).length (SOFTWIRE_CH32_BUFFER_LENGTH - s._tx_buffer_length) =
          min ds.length (SOFTWIRE_CH32_BUFFER_LENGTH - (s._tx_buffer_length + 1)) + 1 := by
        simp only [List.length_cons]; omega
      rw [write_array_loop, write_of_room s d hroom]
      simp only [ne_eq, one_ne_zero, not_false_eq_true, if_true]
      rw [ih _ _ (by simpa using hroom) (by simpa using hlen), hmin]
      simp only [List.take_succ_cons]
      rw [take_succ_set _ _ _ hidx, List.drop_set_of_lt _ _ (by omega)]
      simp [Nat.add_assoc, Nat.add_comm 1]

theorem queue_full (data : List Nat) :
    ∀ s : SoftWire_CH32, SOFTWIRE_CH32_BUFFER_LENGTH ≤ s._tx_buffer_length → queue s data = s := by
  induction data with
  | nil => intro s _; rfl
  | cons d ds ih =>
    intro s h
    show queue (write s d).2 ds = s
    rw [write_of_full s d h]
    exact ih s h

/-- Queueing byte by byte leaves the same object as one call of
`write(data, length)`. -/
theorem queue_eq_write_array_loop (data : List Nat) :
    ∀ (s : SoftWire_CH32) (written : Nat), queue s data = (write_array_loop s data written).2 := by
  induction data with
  | nil => intro s written; rfl
  | cons d ds ih =>
    intro s written
    show queue (write s d).2 ds = _
    rw [write_array_loop]
    by_cases hfull : SOFTWIRE_CH32_BUFFER_LENGTH ≤ s._tx_buffer_length
    · rw [write_of_full s d hfull]
      simpa using queue_full ds s hfull
    · rw [write_of_room s d (by omega)]
      simpa using ih _ (written + 1)

/-- C7: for every object whose transmit length `L` is at most 32 and every
input array `data` of length `n`, `write(data, n)` returns `min n (32 - L)`;
the transmit buffer afterwards is the old contents followed by exactly the
first `min n (32 - L)` input bytes in order; the slots beyond them and every
other member are unchanged, so the bytes beyond capacity are stored nowhere;
the count returned and the new transmit length do not exceed 32. -/
theorem write_array_capacity (s : SoftWire_CH32) (data : List Nat)
    (hL : s._tx_buffer_length ≤ SOFTWIRE_CH32_BUFFER_LENGTH)
    (hlen : s._tx_buffer.length = SOFTWIRE_CH32_BUFFER_LENGTH) :
    (write_array s data).1 = min data.length (32 - s._tx_buffer_length) ∧
    (write_array s data).2._tx_buffer_length =
      s._tx_buffer_length + min data.length (32 - s._tx_buffer_length) ∧
    (write_array s data).2._tx_buffer.take (write_array s data).2._tx_buffer_length =
      s._tx_buffer.take s._tx_buffer_length ++
        data.take (min data.length (32 - s._tx_buffer_length)) ∧
    (write_array s data).2._tx_buffer.drop (write_array s data).2._tx_buffer_length =
      s._tx_buffer.drop (write_array s data).2._tx_buffer_length ∧
    (write_array s data).2 =
      { s with _tx_buffer := (write_array s data).2._tx_buffer
               _tx_buffer_length := (write_array s data).2._tx_buffer_length } ∧
    (write_array s data).1 ≤ 32 ∧
    (write_array s data).2._tx_buffer_length ≤ 32 := by
  have hB : SOFTWIRE_CH32_BUFFER_LENGTH = 32 := rfl
  have h := write_array_loop_eq data s 0 hL hlen
  rw [hB] at h hL hlen
  have hlt : (List.take s._tx_buffer_length s._tx_buffer ++
      List.take (min data.length (32 - s._tx_buffer_length)) data).length =
      s._tx_buffer_length + min data.length (32 - s._tx_buffer_length) := by
    simp only [List.length_append, List.length_take]; omega
  unfold write_array
  rw [h]
  refine ⟨by simp, rfl, ?_, ?_, rfl, ?_, ?_⟩
  · exact List.take_left' hlt
  · exact List.drop_left' hlt
  · simp only [Nat.zero_add]; omega
  · show s._tx_buffer_length + min data.length (32 - s._tx_buffer_length) ≤ 32
    omega

/-- Witness of C7: five bytes offered to a buffer that already holds 30; two
are accepted. -/
theorem write_array_capacity_witness :
    ((queue engine01 (List.replicate 30 7))._tx_buffer_length ≤ SOFTWIRE_CH32_BUFFER_LENGTH ∧
     (queue engine01 (List.replicate 30 7))._tx_buffer.length = SOFTWIRE_CH32_BUFFER_LENGTH) ∧
    (write_array (queue engine01 (List.replicate 30 7)) [1, 2, 3, 4, 5]).1 = 2 :=
  ⟨by decide,
   (write_array_capacity (queue engine01 (List.replicate 30 7)) [1, 2, 3, 4, 5]
      (by decide) (by decide)).1⟩

/-! ## Bit order of a byte write -/

theorem and_0x80 (x : Nat) : ((x &&& 0x80) != 0) = x.testBit 7 := by
  have h : (0x80 : Nat) = 2 ^ 7 := rfl
  rw [h, Nat.and_two_pow]
  cases x.testBit 7 <;> simp

theorem shl_testBit (x j : Nat) (h : j < 7) :
    ((x <<< 1) % 256).testBit (j + 1) = x.testBit j := by
  have h256 : (256 : Nat) = 2 ^ 8 := rfl
  rw [h256, Nat.testBit_mod_two_pow, Nat.testBit_shiftLeft]
  simp
  omega

/-- The loop of `i2c_write_byte` writes bit 7 first and bit 0 last. -/
theorem i2c_write_byte_loop_msb (bus : Bus) (s : SoftWire_CH32) (byte : Nat) (t : Trace) :
    i2c_write_byte_loop bus s 8 byte t = writeBits bus s (bitsMSB byte) t := by
  simp only [i2c_write_byte_loop, writeBits, bitsMSB, and_0x80]
  rw [shl_testBit _ 6 (by omega), shl_testBit _ 5 (by omega), shl_testBit _ 4 (by omega), shl_testBit _ 3 (by omega), shl_testBit _ 2 (by omega), shl_testBit _ 1 (by omega), shl_testBit _ 0 (by omega)]
  rw [shl_testBit _ 6 (by omega), shl_testBit _ 5 (by omega), shl_testBit _ 4 (by omega), shl_testBit _ 3 (by omega), shl_testBit _ 2 (by omega), shl_testBit _ 1 (by omega)]
  rw [shl_testBit _ 6 (by omega), shl_testBit _ 5 (by omega), shl_testBit _ 4 (by omega), shl_testBit _ 3 (by omega), shl_testBit _ 2 (by omega)]
  rw [shl_testBit _ 6 (by omega), shl_testBit _ 5 (by omega), shl_testBit _ 4 (by omega), shl_testBit _ 3 (by omega)]
  rw [shl_testBit _ 6 (by omega), shl_testBit _ 5 (by omega), shl_testBit _ 4 (by omega)]
  rw [shl_testBit _ 6 (by omega), shl_testBit _ 5 (by omega)]
  rw [shl_testBit _ 6 (by omega)]

theorem i2c_write_byte_msb (bus : Bus) (s : SoftWire_CH32) (byte : Nat) (t : Trace) :
    i2c_write_byte bus s byte t =
      (!(i2c_read_bit bus s (writeBits bus s (bitsMSB byte) t)).1,
        (i2c_read_bit bus s (writeBits bus s (bitsMSB byte) t)).2) := by
  unfold i2c_write_byte
  rw [i2c_write_byte_loop_msb]

/-! ## Closing a transmission -/

theorem take_succ_drop (l : List Nat) (i j : Nat) (h : i < l.length) :
    (l.drop i).take (j + 1) = l.getD i 0 :: (l.drop (i + 1)).take j := by
  rw [List.drop_eq_getElem_cons h, List.take_succ_cons, List.getD_eq_getElem l 0 h]

/-- The data loop when every byte is acknowledged: it runs to its end and has
written the bytes of the slots `i .. i + n - 1`, in order. -/
theorem endTransmission_loop_acked (bus : Bus) (s : SoftWire_CH32) (sendStop : Bool) :
    ∀ (n i : Nat) (t : Trace), i + n ≤ s._tx_buffer.length →
      acksAll bus s ((s._tx_buffer.drop i).take n) t = true →
      endTransmission_loop bus s sendStop n i t =
        (none, runOps bus s (((s._tx_buffer.drop i).take n).map BusOp.writeByte) t) := by
  intro n
  induction n with
  | zero => intro i t _ _; simp [endTransmission_loop, runOps]
  | succ n ih =>
    intro i t hi hack
    rw [take_succ_drop _ _ _ (by omega)] at hack ⊢
    simp only [acksAll, Bool.and_eq_true, beq_iff_eq] at hack
    have h1 : (i2c_write_byte bus s (s._tx_buffer.getD i 0) t).1 = true := by
      rw [i2c_write_byte_fst, hack.1]; rfl
    rw [endTransmission_loop]
    simp only [h1, Bool.not_true, Bool.false_eq_true, if_false, List.map_cons, runOps]
    exact ih (i + 1) _ (by omega) hack.2

/-- The data loop when the bytes of slots `i .. i + j - 1` are acknowledged and
the byte of slot `i + j` is not: it returns 3 after writing exactly the bytes of
slots `i .. i + j`, followed by the stop condition when requested. -/
theorem endTransmission_loop_nack (bus : Bus) (s : SoftWire_CH32) (sendStop : Bool) :
    ∀ (j n i : Nat) (t : Trace), i + n ≤ s._tx_buffer.length → j < n →
      acksAll bus s ((s._tx_buffer.drop i).take j) t = true →
      ackLevel bus s (s._tx_buffer.getD (i + j) 0)
        (runOps bus s (((s._tx_buffer.drop i).take j).map BusOp.writeByte) t) = HIGH →
      endTransmission_loop bus s sendStop n i t =
        (some 3, runOps bus s (stopIf sendStop)
          (runOps bus s (((s._tx_buffer.drop i).take (j + 1)).map BusOp.writeByte) t)) := by
  intro j
  induction j with
  | zero =>
    intro n i t hi hj _ hnack
    obtain ⟨n, rfl⟩ : ∃ m, n = m + 1 := ⟨n - 1, by omega⟩
    simp only [List.take_zero, List.map_nil, runOps, Nat.add_zero] at hnack
    have h1 : (i2c_write_byte bus s (s._tx_buffer.getD i 0) t).1 = false := by
      rw [i2c_write_byte_fst, hnack]; rfl
    rw [endTransmission_loop, take_succ_drop _ _ _ (by omega)]
    simp only [h1, Bool.not_false, if_true, List.take_zero, List.map_cons, List.map_nil, runOps,
      runOps_stopIf]
  | succ j ih =>
    intro n i t hi hj hack hnack
    obtain ⟨n, rfl⟩ : ∃ m, n = m + 1 := ⟨n - 1, by omega⟩
    rw [take_succ_drop _ _ _ (by omega)] at hack hnack
    simp only [acksAll, Bool.and_eq_true, beq_iff_eq] at hack
    simp only [List.map_cons, runOps] at hnack
    have h1 : (i2c_write_byte bus s (s._tx_buffer.getD i 0) t).1 = true := by
      rw [i2c_write_byte_fst, hack.1]; rfl
    have hidx : i + (j + 1) = i + 1 + j := by omega
    rw [hidx] at hnack
    rw [endTransmission_loop, take_succ_drop _ _ (j + 1) (by omega)]
    simp only [h1, Bool.not_true, Bool.false_eq_true, if_false, List.map_cons, runOps]
    exact ih n (i + 1) _ (by omega) (by omega) hack.2 hnack

/-- The object after `beginTransmission(a)` and the queueing of at most 32
bytes: the address is `a`, the transmit length is the number of bytes and the
buffer starts with the bytes. -/
theorem queue_beginTransmission (s : SoftWire_CH32) (a : Nat) (data : List Nat)
    (hlen : s._tx_buffer.length = SOFTWIRE_CH32_BUFFER_LENGTH)
    (hn : data.length ≤ SOFTWIRE_CH32_BUFFER_LENGTH) :
    (queue (beginTransmission s a) data)._tx_address = a ∧
    (queue (beginTransmission s a) data)._tx_buffer_length = data.length ∧
    (queue (beginTransmission s a) data)._tx_buffer.length = SOFTWIRE_CH32_BUFFER_LENGTH ∧
    (queue (beginTransmission s a) data)._tx_buffer.take data.length = data := by
  have hB : SOFTWIRE_CH32_BUFFER_LENGTH = 32 := rfl
  have h := write_array_loop_eq data (beginTransmission s a) 0 (Nat.zero_le _) hlen
  rw [queue_eq_write_array_loop data _ 0, h]
  have hmin : min data.length (SOFTWIRE_CH32_BUFFER_LENGTH -
      (beginTransmission s a)._tx_buffer_length) = data.length := by
    show min data.length (SOFTWIRE_CH32_BUFFER_LENGTH - 0) = data.length
    omega
  rw [hmin]
  have hz : (beginTransmission s a)._tx_buffer_length = 0 := rfl
  have hbuf : (beginTransmission s a)._tx_buffer = s._tx_buffer := rfl
  simp only [hz, hbuf, List.take_zero, List.nil_append, Nat.zero_add, List.take_length]
  refine ⟨rfl, trivial, ?_, ?_⟩
  · simp only [List.length_append, List.length_drop]
    omega
  · exact List.take_left _ _

/-- C1: for every 7-bit address `a`, every sequence `data` of at most 32 bytes
queued with `write` after `beginTransmission(a)`, and either value of
`sendStop`: if the slave acknowledges the address byte and every data byte,
`endTransmission(sendStop)` returns 0 and the bus activity is exactly one start
condition, the byte-write of `2 * a`, the byte-writes of the queued bytes in
queueing order, and a stop condition if and only if `sendStop` is true; every
byte-write clocks out bit 7 first and bit 0 last, then samples the
acknowledge bit. -/
theorem endTransmission_acked (bus : Bus) (s : SoftWire_CH32) (a : Nat) (data : List Nat)
    (sendStop : Bool) (t : Trace)
    (hlen : s._tx_buffer.length = SOFTWIRE_CH32_BUFFER_LENGTH)
    (ha : a < 128) (hn : data.length ≤ 32)
    (hack : acksAll bus (queue (beginTransmission s a) data) (2 * a :: data)
      (i2c_start bus (queue (beginTransmission s a) data) t) = true) :
    endTransmission bus (queue (beginTransmission s a) data) sendStop t =
      (0, runOps bus (queue (beginTransmission s a) data)
        ([BusOp.start, BusOp.writeByte (2 * a)] ++ data.map BusOp.writeByte ++ stopIf sendStop)
        t) ∧
    ∀ (byte : Nat) (u : Trace),
      i2c_write_byte bus (queue (beginTransmission s a) data) byte u =
        (!(i2c_read_bit bus (queue (beginTransmission s a) data)
            (writeBits bus (queue (beginTransmission s a) data) (bitsMSB byte) u)).1,
          (i2c_read_bit bus (queue (beginTransmission s a) data)
            (writeBits bus (queue (beginTransmission s a) data) (bitsMSB byte) u)).2) := by
  obtain ⟨hq1, hq2, hq3, hq4⟩ := queue_beginTransmission s a data hlen hn
  refine ⟨?_, fun byte u => i2c_write_byte_msb bus _ byte u⟩
  generalize queue (beginTransmission s a) data = s1 at hq1 hq2 hq3 hq4 hack ⊢
  simp only [acksAll, Bool.and_eq_true, beq_iff_eq] at hack
  have h1 : (i2c_write_byte bus s1 (2 * a) (i2c_start bus s1 t)).1 = true := by
    rw [i2c_write_byte_fst, hack.1]; rfl
  have hdata : (s1._tx_buffer.drop 0).take data.length = data := by
    rw [List.drop_zero]; exact hq4
  have hloop := endTransmission_loop_acked bus s1 sendStop data.length 0
    (i2c_write_byte bus s1 (2 * a) (i2c_start bus s1 t)).2
    (by rw [hq3]; simpa using hn) (by rw [hdata]; exact hack.2)
  rw [hdata] at hloop
  unfold endTransmission
  simp only [hq1, addr_write_byte_of_lt a ha, h1, Bool.not_true, Bool.false_eq_true, if_false,
    hq2, hloop]
  simp only [runOps_append, runOps_stopIf]
  simp only [runOps]

/-- Witness of C1: address 0x50, bytes 0xA5 and 0x3C, with a stop condition, on
a bus whose slave acknowledges everything. -/
theorem endTransmission_acked_witness :
    (engine01._tx_buffer.length = SOFTWIRE_CH32_BUFFER_LENGTH ∧ 0x50 < 128 ∧
      [0xA5, 0x3C].length ≤ 32 ∧
      acksAll ackBus (queue (beginTransmission engine01 0x50) [0xA5, 0x3C])
        (2 * 0x50 :: [0xA5, 0x3C])
        (i2c_start ackBus (queue (beginTransmission engine01 0x50) [0xA5, 0x3C]) []) = true) ∧
    endTransmission ackBus (queue (beginTransmission engine01 0x50) [0xA5, 0x3C]) true [] =
      (0, runOps ackBus (queue (beginTransmission engine01 0x50) [0xA5, 0x3C])
        ([BusOp.start, BusOp.writeByte (2 * 0x50)] ++ [0xA5, 0x3C].map BusOp.writeByte ++
          stopIf true) []) :=
  ⟨⟨by decide, by decide, by decide, by decide⟩,
   (endTransmission_acked ackBus engine01 0x50 [0xA5, 0x3C] true []
      (by decide) (by decide) (by decide) (by decide)).1⟩

theorem queued_take (s : SoftWire_CH32) (j : Nat) (h : j ≤ s._tx_buffer_length) :
    (queued s).take j = s._tx_buffer.take j := by
  unfold queued
  rw [List.take_take, Nat.min_eq_left h]

theorem queued_getD (s : SoftWire_CH32) (j : Nat) (h : j < s._tx_buffer_length) :
    (queued s).getD j 0 = s._tx_buffer.getD j 0 := by
  unfold queued
  simp only [List.getD_eq_getElem?_getD, List.getElem?_take, h, if_true]

/-- What `endTransmission` does when the address byte and the first `j` queued
bytes are acknowledged and the next queued byte is not. -/
theorem endTransmission_nack_at (bus : Bus) (s : SoftWire_CH32) (j : Nat) (sendStop : Bool)
    (t : Trace)
    (hlen : s._tx_buffer.length = SOFTWIRE_CH32_BUFFER_LENGTH)
    (hn : s._tx_buffer_length ≤ SOFTWIRE_CH32_BUFFER_LENGTH)
    (hj : j < s._tx_buffer_length)
    (hack : acksAll bus s ((2 * s._tx_address) % 256 :: (queued s).take j)
      (i2c_start bus s t) = true)
    (hnack : ackLevel bus s ((queued s).getD j 0)
      (runOps bus s ([BusOp.start, BusOp.writeByte ((2 * s._tx_address) % 256)] ++
        ((queued s).take j).map BusOp.writeByte) t) = HIGH) :
    endTransmission bus s sendStop t =
      (3, runOps bus s
        ([BusOp.start, BusOp.writeByte ((2 * s._tx_address) % 256)] ++
          ((queued s).take (j + 1)).map BusOp.writeByte ++ stopIf sendStop) t) := by
  rw [queued_take s j (by omega)] at hack hnack
  rw [queued_getD s j hj] at hnack
  rw [queued_take s (j + 1) (by omega)]
  simp only [acksAll, Bool.and_eq_true, beq_iff_eq] at hack
  simp only [runOps_append] at hnack
  simp only [runOps] at hnack
  have h1 : (i2c_write_byte bus s ((2 * s._tx_address) % 256) (i2c_start bus s t)).1 = true := by
    rw [i2c_write_byte_fst, hack.1]; rfl
  have hloop := endTransmission_loop_nack bus s sendStop j s._tx_buffer_length 0
    (i2c_write_byte bus s ((2 * s._tx_address) % 256) (i2c_start bus s t)).2
    (by rw [hlen]; omega) hj (by simpa using hack.2) (by simpa using hnack)
  unfold endTransmission
  simp only [addr_write_byte, h1, Bool.not_true, Bool.false_eq_true, if_false, hloop]
  simp only [runOps_append, List.drop_zero]
  simp only [runOps]

/-- C3: for every object with `n ≤ 32` queued bytes, every `k` with
`1 ≤ k ≤ n` and either value of `sendStop`: if the slave acknowledges the
address byte and the first `k - 1` queued bytes but not the `k`-th,
`endTransmission(sendStop)` returns 3 and the bus activity is exactly a start
condition, the write of the address byte, the writes of the first `k` queued
bytes in order, and a stop condition if and only if `sendStop` is true: none
of the queued bytes `k + 1 .. n` is written. -/
theorem endTransmission_nack_data (bus : Bus) (s : SoftWire_CH32) (k : Nat) (sendStop : Bool)
    (t : Trace)
    (hlen : s._tx_buffer.length = SOFTWIRE_CH32_BUFFER_LENGTH)
    (hn : s._tx_buffer_length ≤ SOFTWIRE_CH32_BUFFER_LENGTH)
    (hk1 : 1 ≤ k) (hk : k ≤ s._tx_buffer_length)
    (hack : acksAll bus s ((2 * s._tx_address) % 256 :: (queued s).take (k - 1))
      (i2c_start bus s t) = true)
    (hnack : ackLevel bus s ((queued s).getD (k - 1) 0)
      (runOps bus s ([BusOp.start, BusOp.writeByte ((2 * s._tx_address) % 256)] ++
        ((queued s).take (k - 1)).map BusOp.writeByte) t) = HIGH) :
    endTransmission bus s sendStop t =
      (3, runOps bus s
        ([BusOp.start, BusOp.writeByte ((2 * s._tx_address) % 256)] ++
          ((queued s).take k).map BusOp.writeByte ++ stopIf sendStop) t) := by
  obtain ⟨j, rfl⟩ : ∃ j, k = j + 1 := ⟨k - 1, by omega⟩
  exact endTransmission_nack_at bus s j sendStop t hlen hn (by omega) hack hnack

/-- Witness of C3: five bytes queued for address 0x50, the slave stops
acknowledging at the fourth of them (`k = 4`); no stop condition requested. -/
theorem endTransmission_nack_data_witness :
    ((queue (beginTransmission engine01 0x50) [1, 2, 3, 4, 5])._tx_buffer.length =
        SOFTWIRE_CH32_BUFFER_LENGTH ∧
      (queue (beginTransmission engine01 0x50) [1, 2, 3, 4, 5])._tx_buffer_length ≤
        SOFTWIRE_CH32_BUFFER_LENGTH ∧
      1 ≤ 4 ∧ 4 ≤ (queue (beginTransmission engine01 0x50) [1, 2, 3, 4, 5])._tx_buffer_length) ∧
    endTransmission (nackAfterBus 4) (queue (beginTransmission engine01 0x50) [1, 2, 3, 4, 5])
        false [] =
      (3, runOps (nackAfterBus 4) (queue (beginTransmission engine01 0x50) [1, 2, 3, 4, 5])
        [BusOp.start, BusOp.writeByte 0xA0, BusOp.writeByte 1, BusOp.writeByte 2,
          BusOp.writeByte 3, BusOp.writeByte 4] []) :=
  ⟨by decide,
   endTransmission_nack_data (nackAfterBus 4)
     (queue (beginTransmission engine01 0x50) [1, 2, 3, 4, 5]) 4 false []
     (by decide) (by decide) (by decide) (by decide) (by decide) (by decide)⟩

/-! ## Counting acknowledge samples -/

theorem sdaSamples_pinMode (s : SoftWire_CH32) (pin : Nat) (mode : PinMode) (t : Trace) :
    sdaSamples s (pinMode pin mode t) = sdaSamples s t := by
  simp [sdaSamples, pinMode]

theorem sdaSamples_digitalWrite (s : SoftWire_CH32) (pin : Nat) (level : Bool) (t : Trace) :
    sdaSamples s (digitalWrite pin level t) = sdaSamples s t := by
  simp [sdaSamples, digitalWrite]

theorem sdaSamples_delayMicroseconds (s : SoftWire_CH32) (us : Nat) (t : Trace) :
    sdaSamples s (delayMicroseconds us t) = sdaSamples s t := by
  simp [sdaSamples, delayMicroseconds]

theorem sdaSamples_digitalRead_scl (bus : Bus) (s : SoftWire_CH32) (t : Trace)
    (hpins : s._sda_pin ≠ s._scl_pin) :
    sdaSamples s (digitalRead bus s._scl_pin t).2 = sdaSamples s t := by
  have h : (s._scl_pin == s._sda_pin) = false := by
    simpa using fun h => hpins h.symm
  simp [sdaSamples, digitalRead, h]

theorem sdaSamples_digitalRead_sda (bus : Bus) (s : SoftWire_CH32) (t : Trace) :
    sdaSamples s (digitalRead bus s._sda_pin t).2 = sdaSamples s t + 1 := by
  simp [sdaSamples, digitalRead]

theorem sdaSamples_i2c_scl_high_loop (bus : Bus) (s : SoftWire_CH32)
    (hpins : s._sda_pin ≠ s._scl_pin) :
    ∀ (timeout : Nat) (t : Trace),
      sdaSamples s (i2c_scl_high_loop bus s timeout t) = sdaSamples s t := by
  intro timeout
  induction timeout with
  | zero =>
    intro t
    rw [i2c_scl_high_loop]
    split <;> exact sdaSamples_digitalRead_scl bus s t hpins
  | succ n ih =>
    intro t
    rw [i2c_scl_high_loop]
    split
    · show sdaSamples s (i2c_scl_high_loop bus s n _) = _
      rw [ih, sdaSamples_delayMicroseconds, sdaSamples_digitalRead_scl bus s t hpins]
    · exact sdaSamples_digitalRead_scl bus s t hpins

theorem sdaSamples_i2c_scl_high (bus : Bus) (s : SoftWire_CH32)
    (hpins : s._sda_pin ≠ s._scl_pin) (t : Trace) :
    sdaSamples s (i2c_scl_high bus s t) = sdaSamples s t := by
  unfold i2c_scl_high i2c_delay
  rw [sdaSamples_i2c_scl_high_loop bus s hpins, sdaSamples_delayMicroseconds, sdaSamples_pinMode]

theorem sdaSamples_i2c_scl_low (s : SoftWire_CH32) (t : Trace) :
    sdaSamples s (i2c_scl_low s t) = sdaSamples s t := by
  unfold i2c_scl_low i2c_delay
  rw [sdaSamples_delayMicroseconds, sdaSamples_digitalWrite, sdaSamples_pinMode]

theorem sdaSamples_i2c_start (bus : Bus) (s : SoftWire_CH32)
    (hpins : s._sda_pin ≠ s._scl_pin) (t : Trace) :
    sdaSamples s (i2c_start bus s t) = sdaSamples s t := by
  unfold i2c_start i2c_sda_low i2c_sda_high i2c_delay
  simp only [sdaSamples_i2c_scl_low, sdaSamples_delayMicroseconds, sdaSamples_digitalWrite,
    sdaSamples_pinMode, sdaSamples_i2c_scl_high bus s hpins]

theorem sdaSamples_i2c_stop (bus : Bus) (s : SoftWire_CH32)
    (hpins : s._sda_pin ≠ s._scl_pin) (t : Trace) :
    sdaSamples s (i2c_stop bus s t) = sdaSamples s t := by
  unfold i2c_stop i2c_sda_low i2c_sda_high i2c_delay
  simp only [sdaSamples_delayMicroseconds, sdaSamples_digitalWrite,
    sdaSamples_pinMode, sdaSamples_i2c_scl_high bus s hpins]

theorem sdaSamples_i2c_write_bit (bus : Bus) (s : SoftWire_CH32)
    (hpins : s._sda_pin ≠ s._scl_pin) (bit : Bool) (t : Trace) :
    sdaSamples s (i2c_write_bit bus s bit t).2 = sdaSamples s t := by
  unfold i2c_write_bit i2c_sda_low i2c_sda_high i2c_delay
  cases bit <;>
    simp only [sdaSamples_i2c_scl_low, sdaSamples_delayMicroseconds, sdaSamples_digitalWrite,
      sdaSamples_pinMode, sdaSamples_i2c_scl_high bus s hpins, if_true, if_false,
      Bool.false_eq_true]

theorem sdaSamples_i2c_read_bit (bus : Bus) (s : SoftWire_CH32)
    (hpins : s._sda_pin ≠ s._scl_pin) (t : Trace) :
    sdaSamples s (i2c_read_bit bus s t).2 = sdaSamples s t + 1 := by
  unfold i2c_read_bit i2c_read_sda i2c_sda_high i2c_delay
  simp only [sdaSamples_i2c_scl_low, sdaSamples_digitalRead_sda, sdaSamples_delayMicroseconds,
    sdaSamples_pinMode, sdaSamples_i2c_scl_high bus s hpins]

theorem sdaSamples_i2c_write_byte_loop (bus : Bus) (s : SoftWire_CH32)
    (hpins : s._sda_pin ≠ s._scl_pin) :
    ∀ (n byte : Nat) (t : Trace),
      sdaSamples s (i2c_write_byte_loop bus s n byte t) = sdaSamples s t := by
  intro n
  induction n with
  | zero => intro byte t; rfl
  | succ n ih =>
    intro byte t
    rw [i2c_write_byte_loop]
    simp only [ih, sdaSamples_i2c_write_bit bus s hpins]

theorem sdaSamples_i2c_write_byte (bus : Bus) (s : SoftWire_CH32)
    (hpins : s._sda_pin ≠ s._scl_pin) (byte : Nat) (t : Trace) :
    sdaSamples s (i2c_write_byte bus s byte t).2 = sdaSamples s t + 1 := by
  unfold i2c_write_byte
  simp only [sdaSamples_i2c_read_bit bus s hpins, sdaSamples_i2c_write_byte_loop bus s hpins]

theorem sdaSamples_i2c_read_byte_loop (bus : Bus) (s : SoftWire_CH32)
    (hpins : s._sda_pin ≠ s._scl_pin) :
    ∀ (n byte : Nat) (t : Trace),
      sdaSamples s (i2c_read_byte_loop bus s n byte t).2 = sdaSamples s t + n := by
  intro n
  induction n with
  | zero => intro byte t; rfl
  | succ n ih =>
    intro byte t
    rw [i2c_read_byte_loop]
    simp only [ih, sdaSamples_i2c_read_bit bus s hpins]
    omega

theorem sdaSamples_i2c_read_byte (bus : Bus) (s : SoftWire_CH32)
    (hpins : s._sda_pin ≠ s._scl_pin) (ack : Bool) (t : Trace) :
    sdaSamples s (i2c_read_byte bus s ack t).2 = sdaSamples s t + 8 := by
  unfold i2c_read_byte
  simp only [sdaSamples_i2c_write_bit bus s hpins, sdaSamples_i2c_read_byte_loop bus s hpins]

/-- On distinct pins, the SDA samples of a sequence of bus-level operations
are one per byte-write and eight per byte-read. -/
theorem sdaSamples_runOps (bus : Bus) (s : SoftWire_CH32) (hpins : s._sda_pin ≠ s._scl_pin) :
    ∀ (ops : List BusOp) (t : Trace),
      sdaSamples s (runOps bus s ops t) = sdaSamples s t + (ops.map BusOp.samples).sum := by
  intro ops
  induction ops with
  | nil => intro t; rfl
  | cons op ops ih =>
    intro t
    cases op <;>
      simp only [runOps, ih, List.map_cons, List.sum_cons, BusOp.samples,
        sdaSamples_i2c_start bus s hpins, sdaSamples_i2c_stop bus s hpins,
        sdaSamples_i2c_write_byte bus s hpins, sdaSamples_i2c_read_byte bus s hpins] <;>
      omega

/-! ## The third of five bytes is not acknowledged -/

theorem take_two_of_five (l : List Nat) (h : l.length = 5) :
    l.take 2 = [l.getD 0 0, l.getD 1 0] ∧
    l.take 3 = [l.getD 0 0, l.getD 1 0, l.getD 2 0] := by
  match l, h with
  | [_, _, _, _, _], _ => exact ⟨rfl, rfl⟩

/-- C9, amended: for `endTransmission` with five queued bytes against a slave
that acknowledges the address byte and the first two data bytes and does not
acknowledge the third data byte, the return value is 3 and exactly 4
byte-writes occur on the bus: the address byte, the two acknowledged data
bytes and the third data byte. When SDA and SCL are distinct pins this shows in
the trace as 4 further samples of SDA, one per acknowledge clock. -/
theorem endTransmission_nack_third_of_five (bus : Bus) (s : SoftWire_CH32) (sendStop : Bool)
    (t : Trace)
    (hlen : s._tx_buffer.length = SOFTWIRE_CH32_BUFFER_LENGTH)
    (h5 : s._tx_buffer_length = 5)
    (hack : acksAll bus s
      [(2 * s._tx_address) % 256, (queued s).getD 0 0, (queued s).getD 1 0]
      (i2c_start bus s t) = true)
    (hnack : ackLevel bus s ((queued s).getD 2 0)
      (runOps bus s [BusOp.start, BusOp.writeByte ((2 * s._tx_address) % 256),
        BusOp.writeByte ((queued s).getD 0 0), BusOp.writeByte ((queued s).getD 1 0)] t) = HIGH) :
    (endTransmission bus s sendStop t).1 = 3 ∧
    (endTransmission bus s sendStop t).2 =
      runOps bus s
        ([BusOp.start, BusOp.writeByte ((2 * s._tx_address) % 256),
          BusOp.writeByte ((queued s).getD 0 0), BusOp.writeByte ((queued s).getD 1 0),
          BusOp.writeByte ((queued s).getD 2 0)] ++ stopIf sendStop) t ∧
    (s._sda_pin ≠ s._scl_pin →
      sdaSamples s (endTransmission bus s sendStop t).2 = sdaSamples s t + 4) := by
  have hB : SOFTWIRE_CH32_BUFFER_LENGTH = 32 := rfl
  have hql : (queued s).length = 5 := by
    unfold queued
    rw [List.length_take, hlen, h5, hB]
    rfl
  obtain ⟨h2, h3⟩ := take_two_of_five (queued s) hql
  have h := endTransmission_nack_at bus s 2 sendStop t hlen (by omega) (by omega)
    (by rw [h2]; exact hack) (by rw [h2]; exact hnack)
  rw [h3] at h
  have h' : endTransmission bus s sendStop t =
      (3, runOps bus s
        ([BusOp.start, BusOp.writeByte ((2 * s._tx_address) % 256),
          BusOp.writeByte ((queued s).getD 0 0), BusOp.writeByte ((queued s).getD 1 0),
          BusOp.writeByte ((queued s).getD 2 0)] ++ stopIf sendStop) t) := h
  rw [h']
  refine ⟨rfl, rfl, fun hpins => ?_⟩
  rw [sdaSamples_runOps bus s hpins]
  cases sendStop <;> rfl

/-- Witness of the amended C9: bytes 1 to 5 queued for address 0x50, no stop
condition requested, a slave that acknowledges three bytes and no more. -/
theorem endTransmission_nack_third_of_five_witness :
    ((queue (beginTransmission engine01 0x50) [1, 2, 3, 4, 5])._tx_buffer.length =
        SOFTWIRE_CH32_BUFFER_LENGTH ∧
      (queue (beginTransmission engine01 0x50) [1, 2, 3, 4, 5])._tx_buffer_length = 5) ∧
    (endTransmission (nackAfterBus 3) (queue (beginTransmission engine01 0x50) [1, 2, 3, 4, 5])
        false []).1 = 3 ∧
    sdaSamples (queue (beginTransmission engine01 0x50) [1, 2, 3, 4, 5])
      (endTransmission (nackAfterBus 3) (queue (beginTransmission engine01 0x50) [1, 2, 3, 4, 5])
        false []).2 = sdaSamples (queue (beginTransmission engine01 0x50) [1, 2, 3, 4, 5]) [] + 4 :=
  ⟨by decide,
   (endTransmission_nack_third_of_five (nackAfterBus 3)
      (queue (beginTransmission engine01 0x50) [1, 2, 3, 4, 5]) false []
      (by decide) (by decide) (by decide) (by decide)).1,
   (endTransmission_nack_third_of_five (nackAfterBus 3)
      (queue (beginTransmission engine01 0x50) [1, 2, 3, 4, 5]) false []
      (by decide) (by decide) (by decide) (by decide)).2.2 (by decide)⟩

/-- Counterexample to C9 as stated: bytes 1 to 5 are queued for address 0x50
on pins SDA = 0, SCL = 1 and the slave acknowledges the address byte and the
first two data bytes but not the third. `endTransmission(true)` returns 3, and
its bus activity is a start condition, the byte-writes of 0xA0, 1, 2 and 3, and
a stop condition: SDA is sampled at 4 acknowledge clocks, not 3. -/
theorem endTransmission_nack_third_of_five_counterexample :
    (acksAll (nackAfterBus 3) (queue (beginTransmission engine01 0x50) [1, 2, 3, 4, 5])
        [0xA0, 1, 2]
        (i2c_start (nackAfterBus 3) (queue (beginTransmission engine01 0x50) [1, 2, 3, 4, 5]) [])
        = true ∧
      ackLevel (nackAfterBus 3) (queue (beginTransmission engine01 0x50) [1, 2, 3, 4, 5]) 3
        (runOps (nackAfterBus 3) (queue (beginTransmission engine01 0x50) [1, 2, 3, 4, 5])
          [BusOp.start, BusOp.writeByte 0xA0, BusOp.writeByte 1, BusOp.writeByte 2] [])
        = HIGH) ∧
    endTransmission (nackAfterBus 3) (queue (beginTransmission engine01 0x50) [1, 2, 3, 4, 5])
        true [] =
      (3, runOps (nackAfterBus 3) (queue (beginTransmission engine01 0x50) [1, 2, 3, 4, 5])
        [BusOp.start, BusOp.writeByte 0xA0, BusOp.writeByte 1, BusOp.writeByte 2,
          BusOp.writeByte 3, BusOp.stop] []) ∧
    sdaSamples (queue (beginTransmission engine01 0x50) [1, 2, 3, 4, 5])
      (endTransmission (nackAfterBus 3) (queue (beginTransmission engine01 0x50) [1, 2, 3, 4, 5])
        true []).2 = 4 ∧
    ¬ ((endTransmission (nackAfterBus 3)
          (queue (beginTransmission engine01 0x50) [1, 2, 3, 4, 5]) true []).1 = 3 ∧
        sdaSamples (queue (beginTransmission engine01 0x50) [1, 2, 3, 4, 5])
          (endTransmission (nackAfterBus 3)
            (queue (beginTransmission engine01 0x50) [1, 2, 3, 4, 5]) true []).2 = 3) := by
  refine ⟨⟨by decide, by decide⟩, by decide, by decide, by decide⟩

/-! ## Requesting bytes -/

theorem ackFlags_succ (n : Nat) : ackFlags (n + 1) = decide (0 < n) :: ackFlags n := by
  cases n with
  | zero => rfl
  | succ k => simp [ackFlags, List.replicate_succ]

theorem ackFlags_length (m : Nat) : (ackFlags m).length = m := by
  unfold ackFlags
  by_cases h : m = 0
  · simp [h]
  · simp [h]; omega

theorem readBytes_length (bus : Bus) (s : SoftWire_CH32) :
    ∀ (acks : List Bool) (t : Trace), (readBytes bus s acks t).length = acks.length := by
  intro acks
  induction acks with
  | nil => intro t; rfl
  | cons a acks ih => intro t; simp [readBytes, ih]

/-- The read loop of `requestFrom`: with `n` iterations to go at index `i`
(`i + n = quantity`), it reads `n` bytes, acknowledging all but the last,
stores them in slots `i .. i + n - 1` and adds `n` to the length. -/
theorem requestFrom_loop_eq (bus : Bus) (s : SoftWire_CH32) (quantity : Nat) :
    ∀ (n i : Nat) (rx_buffer : List Nat) (rx_buffer_length : Nat) (t : Trace),
      i + n = quantity → quantity ≤ rx_buffer.length →
      requestFrom_loop bus s quantity n i rx_buffer rx_buffer_length t =
        (rx_buffer.take i ++ readBytes bus s (ackFlags n) t ++ rx_buffer.drop (i + n),
         rx_buffer_length + n,
         runOps bus s ((ackFlags n).map BusOp.readByte) t) := by
  intro n
  induction n with
  | zero =>
    intro i rx_buffer rx_buffer_length t _ _
    simp [requestFrom_loop, ackFlags, readBytes, runOps]
  | succ n ih =>
    intro i rx_buffer rx_buffer_length t hi hq
    have hflag : decide ((i : Int) < (quantity : Int) - 1) = decide (0 < n) := by
      apply decide_eq_decide.mpr
      omega
    rw [requestFrom_loop, hflag, ih (i + 1) _ _ _ (by omega) (by simpa using hq),
      ackFlags_succ, take_succ_set _ _ _ (by omega), List.drop_set_of_lt _ _ (by omega)]
    simp only [readBytes, List.map_cons, runOps, List.append_assoc, List.singleton_append,
      Prod.mk.injEq, and_true]
    refine ⟨?_, by omega⟩
    congr 3
    omega

/-- What `requestFrom` does when the address byte is acknowledged. -/
theorem requestFrom_eq_of_ack (bus : Bus) (s : SoftWire_CH32) (address quantity : Nat)
    (sendStop : Bool) (t : Trace)
    (hlen : s._rx_buffer.length = SOFTWIRE_CH32_BUFFER_LENGTH)
    (hack : ackLevel bus s ((2 * address + 1) % 256) (i2c_start bus s t) = LOW) :
    requestFrom bus s address quantity sendStop t =
      (min quantity 32,
       { s with
         _rx_buffer :=
           readBytes bus s (ackFlags (min quantity 32))
             (runOps bus s [BusOp.start, BusOp.writeByte ((2 * address + 1) % 256)] t) ++
           s._rx_buffer.drop (min quantity 32)
         _rx_buffer_length := min quantity 32
         _rx_buffer_index := 0 },
       runOps bus s
        ([BusOp.start, BusOp.writeByte ((2 * address + 1) % 256)] ++
          (ackFlags (min quantity 32)).map BusOp.readByte ++ stopIf sendStop) t) := by
  have hB : SOFTWIRE_CH32_BUFFER_LENGTH = 32 := rfl
  have h1 : (i2c_write_byte bus s ((2 * address + 1) % 256) (i2c_start bus s t)).1 = true := by
    rw [i2c_write_byte_fst, hack]; rfl
  have hq : (if quantity > SOFTWIRE_CH32_BUFFER_LENGTH then SOFTWIRE_CH32_BUFFER_LENGTH
      else quantity) = min quantity 32 := by
    rw [hB]; split <;> omega
  have hloop := requestFrom_loop_eq bus s (min quantity 32) (min quantity 32) 0 s._rx_buffer 0
    (i2c_write_byte bus s ((2 * address + 1) % 256) (i2c_start bus s t)).2
    (by omega) (by rw [hlen, hB]; omega)
  unfold requestFrom
  simp only [hq, addr_read_byte, h1, Bool.not_true, Bool.false_eq_true, if_false, hloop]
  simp only [runOps_append, runOps_stopIf]
  simp only [runOps, List.take_zero, List.nil_append, Nat.zero_add]

/-- C2: for every address, every quantity `q` and either value of `sendStop`:
if the slave acknowledges the address byte, `requestFrom(address, q, sendStop)`
returns `m = min q 32`; the receive buffer then starts with exactly the `m`
bytes read from the bus, in the order read; the receive length is `m`, the
read cursor is 0 and `available()` is `m`; the bus activity is exactly a start
condition, the write of the address byte with read bit 1, `m` byte-reads of
which the first `m - 1` are acknowledged by the master and the last is not,
and a stop condition if and only if `sendStop` is true. A byte-read with flag
`ack` ends with the master writing the bit `!ack`, that is SDA driven low to
acknowledge and released to not acknowledge. -/
theorem requestFrom_acked (bus : Bus) (s : SoftWire_CH32) (address quantity : Nat)
    (sendStop : Bool) (t : Trace)
    (hlen : s._rx_buffer.length = SOFTWIRE_CH32_BUFFER_LENGTH)
    (hack : ackLevel bus s ((2 * address + 1) % 256) (i2c_start bus s t) = LOW) :
    (requestFrom bus s address quantity sendStop t).1 = min quantity 32 ∧
    (requestFrom bus s address quantity sendStop t).2.1._rx_buffer.take (min quantity 32) =
      readBytes bus s (ackFlags (min quantity 32))
        (runOps bus s [BusOp.start, BusOp.writeByte ((2 * address + 1) % 256)] t) ∧
    (readBytes bus s (ackFlags (min quantity 32))
        (runOps bus s [BusOp.start, BusOp.writeByte ((2 * address + 1) % 256)] t)).length =
      min quantity 32 ∧
    (requestFrom bus s address quantity sendStop t).2.1._rx_buffer_length = min quantity 32 ∧
    (requestFrom bus s address quantity sendStop t).2.1._rx_buffer_index = 0 ∧
    available (requestFrom bus s address quantity sendStop t).2.1 = (min quantity 32 : Nat) ∧
    ackFlags (min quantity 32) =
      List.replicate (min quantity 32 - 1) true ++ (if min quantity 32 = 0 then [] else [false]) ∧
    (requestFrom bus s address quantity sendStop t).2.2 =
      runOps bus s
        ([BusOp.start, BusOp.writeByte ((2 * address + 1) % 256)] ++
          (ackFlags (min quantity 32)).map BusOp.readByte ++ stopIf sendStop) t ∧
    ∀ (ack : Bool) (u : Trace),
      (i2c_read_byte bus s ack u).2 =
        (i2c_write_bit bus s (!ack) (i2c_read_byte_loop bus s 8 0 u).2).2 := by
  have hr : (readBytes bus s (ackFlags (min quantity 32))
      (runOps bus s [BusOp.start, BusOp.writeByte ((2 * address + 1) % 256)] t)).length =
      min quantity 32 := by
    rw [readBytes_length, ackFlags_length]
  rw [requestFrom_eq_of_ack bus s address quantity sendStop t hlen hack]
  refine ⟨rfl, List.take_left' hr, hr, rfl, rfl, ?_, rfl, rfl, fun _ _ => rfl⟩
  simp [available]

/-- Witness of C2: `requestFrom(0x50, 10, true)` against a slave that
acknowledges returns 10 with 10 bytes available and the cursor at 0; the
master acknowledges nine bytes and does not acknowledge the tenth. -/
theorem requestFrom_acked_witness :
    (engine01._rx_buffer.length = SOFTWIRE_CH32_BUFFER_LENGTH ∧
      ackLevel ackBus engine01 ((2 * 0x50 + 1) % 256) (i2c_start ackBus engine01 []) = LOW) ∧
    (requestFrom ackBus engine01 0x50 10 true []).1 = 10 ∧
    (requestFrom ackBus engine01 0x50 10 true []).2.1._rx_buffer_index = 0 ∧
    available (requestFrom ackBus engine01 0x50 10 true []).2.1 = 10 ∧
    ackFlags 10 = [true, true, true, true, true, true, true, true, true, false] :=
  ⟨by decide,
   (requestFrom_acked ackBus engine01 0x50 10 true [] (by decide) (by decide)).1,
   (requestFrom_acked ackBus engine01 0x50 10 true [] (by decide) (by decide)).2.2.2.2.1,
   (requestFrom_acked ackBus engine01 0x50 10 true [] (by decide) (by decide)).2.2.2.2.2.1,
   (requestFrom_acked ackBus engine01 0x50 10 true [] (by decide) (by decide)).2.2.2.2.2.2.1⟩

/-! ## Reading the received bytes -/

theorem read_of_lt (s : SoftWire_CH32) (h : s._rx_buffer_index < s._rx_buffer_length) :
    read s = (((s._rx_buffer.getD s._rx_buffer_index 0 : Nat) : Int),
      { s with _rx_buffer_index := s._rx_buffer_index + 1 }) := by
  unfold read
  rw [if_pos h]

theorem read_of_ge (s : SoftWire_CH32) (h : s._rx_buffer_length ≤ s._rx_buffer_index) :
    read s = (-1, s) := by
  unfold read
  rw [if_neg (by omega)]

/-- After `k` calls of `read()` the cursor has advanced by `k`, but not past
the receive length; nothing else has changed. -/
theorem reads_eq :
    ∀ (k : Nat) (s : SoftWire_CH32), s._rx_buffer_index ≤ s._rx_buffer_length →
      reads k s =
        { s with _rx_buffer_index := min (s._rx_buffer_index + k) s._rx_buffer_length } := by
  intro k
  induction k with
  | zero =>
    intro s h
    simp [reads, Nat.min_eq_left h]
  | succ k ih =>
    intro s h
    rw [reads]
    by_cases hlt : s._rx_buffer_index < s._rx_buffer_length
    · rw [read_of_lt s hlt, ih _ (by simpa using hlt)]
      simp [Nat.add_assoc, Nat.add_comm 1 k]
    · rw [read_of_ge s (by omega), ih s h]
      congr 1
      omega

/-- C6: after a `requestFrom` whose address byte was acknowledged has stored
the `N = min quantity 32` bytes `r_0 .. r_(N-1)` read from the bus, for every
`i < N` the `(i+1)`-th call of `read()` returns `r_i` and lowers `available()`
from `N - i` to `N - i - 1`; the `(N+1)`-th call and every later call return
`-1` and leave the object unchanged, with the cursor at `N` and `available()`
equal to 0. -/
theorem read_after_requestFrom (bus : Bus) (s : SoftWire_CH32) (address quantity : Nat)
    (sendStop : Bool) (t : Trace)
    (hlen : s._rx_buffer.length = SOFTWIRE_CH32_BUFFER_LENGTH)
    (hack : ackLevel bus s ((2 * address + 1) % 256) (i2c_start bus s t) = LOW) :
    (requestFrom bus s address quantity sendStop t).1 ≤ 32 ∧
    (∀ i : Nat, i < (requestFrom bus s address quantity sendStop t).1 →
      (read (reads i (requestFrom bus s address quantity sendStop t).2.1)).1 =
        (((readBytes bus s (ackFlags (min quantity 32))
          (runOps bus s [BusOp.start, BusOp.writeByte ((2 * address + 1) % 256)] t)).getD i 0
            : Nat) : Int) ∧
      available (reads i (requestFrom bus s address quantity sendStop t).2.1) =
        ((requestFrom bus s address quantity sendStop t).1 : Int) - (i : Int) ∧
      available (read (reads i (requestFrom bus s address quantity sendStop t).2.1)).2 =
        ((requestFrom bus s address quantity sendStop t).1 : Int) - (i : Int) - 1) ∧
    (∀ k : Nat, (requestFrom bus s address quantity sendStop t).1 ≤ k →
      (read (reads k (requestFrom bus s address quantity sendStop t).2.1)).1 = -1 ∧
      (read (reads k (requestFrom bus s address quantity sendStop t).2.1)).2 =
        reads k (requestFrom bus s address quantity sendStop t).2.1 ∧
      (reads k (requestFrom bus s address quantity sendStop t).2.1)._rx_buffer_index =
        (requestFrom bus s address quantity sendStop t).1 ∧
      available (reads k (requestFrom bus s address quantity sendStop t).2.1) = 0) := by
  have hr : (readBytes bus s (ackFlags (min quantity 32))
      (runOps bus s [BusOp.start, BusOp.writeByte ((2 * address + 1) % 256)] t)).length =
      min quantity 32 := by
    rw [readBytes_length, ackFlags_length]
  rw [requestFrom_eq_of_ack bus s address quantity sendStop t hlen hack]
  generalize readBytes bus s (ackFlags (min quantity 32))
      (runOps bus s [BusOp.start, BusOp.writeByte ((2 * address + 1) % 256)] t) = r at hr
  refine ⟨Nat.min_le_right _ _, ?_, ?_⟩
  · intro i hi
    have hi' : i < min quantity 32 := hi
    rw [reads_eq i _ (Nat.zero_le _)]
    have hmin : min (0 + i) (min quantity 32) = i := by omega
    simp only [hmin]
    rw [read_of_lt _ (by simpa using hi')]
    refine ⟨?_, ?_, ?_⟩
    · simp only [List.getD_eq_getElem?_getD]
      rw [List.getElem?_append_left (by omega)]
    · simp [available]
    · simp only [available, Nat.cast_add, Nat.cast_one]
      omega
  · intro k hk
    have hk' : min quantity 32 ≤ k := hk
    rw [reads_eq k _ (Nat.zero_le _)]
    have hmin : min (0 + k) (min quantity 32) = min quantity 32 := by omega
    simp only [hmin]
    rw [read_of_ge _ (by simp)]
    refine ⟨rfl, rfl, trivial, ?_⟩
    simp [available]

/-- Witness of C6: three bytes requested from address 0x50 on a bus whose
slave acknowledges; the third call of `read()` returns the third byte and the
fourth returns -1. -/
theorem read_after_requestFrom_witness :
    (engine01._rx_buffer.length = SOFTWIRE_CH32_BUFFER_LENGTH ∧
      ackLevel ackBus engine01 ((2 * 0x50 + 1) % 256) (i2c_start ackBus engine01 []) = LOW) ∧
    available (reads 2 (requestFrom ackBus engine01 0x50 3 true []).2.1) =
      ((requestFrom ackBus engine01 0x50 3 true []).1 : Int) - ((2 : Nat) : Int) ∧
    (read (reads 3 (requestFrom ackBus engine01 0x50 3 true []).2.1)).1 = -1 :=
  ⟨by decide,
   ((read_after_requestFrom ackBus engine01 0x50 3 true [] (by decide) (by decide)).2.1 2
      (by decide)).2.1,
   ((read_after_requestFrom ackBus engine01 0x50 3 true [] (by decide) (by decide)).2.2 3
      (by decide)).1⟩

/-! ## Clock configuration, continued -/

theorem delay_of_setClock (s : SoftWire_CH32) (f : Nat) (hf : 0 < f) :
    (setClock s f)._delay_us = max 1 (500000 / f) := by
  unfold setClock
  rw [if_neg (by omega)]
  by_cases hd : 500000 / f < 1
  · simp only [hd, if_true]
    omega
  · simp only [hd, if_false]
    omega

/-- C11: the delay set by `setClock` is non-increasing in the frequency: for
all frequencies `0 < f1 ≤ f2 < 2^32` the delay after `setClock(f2)` is at most
the delay after `setClock(f1)`, whatever the two objects were before. -/
theorem setClock_antitone (s1 s2 : SoftWire_CH32) (f1 f2 : Nat)
    (h1 : 0 < f1) (h12 : f1 ≤ f2) (h2 : f2 < 2 ^ 32) :
    (setClock s2 f2)._delay_us ≤ (setClock s1 f1)._delay_us := by
  rw [delay_of_setClock s2 f2 (by omega), delay_of_setClock s1 f1 h1]
  have h : 500000 / f2 ≤ 500000 / f1 := Nat.div_le_div_left h12 h1
  omega

/-- Witness of C11: 400 kHz against 100 kHz. -/
theorem setClock_antitone_witness :
    (0 < 100000 ∧ 100000 ≤ 400000 ∧ 400000 < 2 ^ 32) ∧
    (setClock engine01 400000)._delay_us ≤ (setClock engine01 100000)._delay_us :=
  ⟨by decide,
   setClock_antitone engine01 engine01 100000 400000 (by decide) (by decide) (by decide)⟩

/-- C12: for every object, `setClock(0)` is a no-op: the object afterwards is
the object before, so the delay, the pins, the transmit address and buffer and
the receive buffer, length and cursor are all unchanged. -/
theorem setClock_zero (s : SoftWire_CH32) :
    setClock s 0 = s ∧
    (setClock s 0)._delay_us = s._delay_us ∧
    (setClock s 0)._sda_pin = s._sda_pin ∧
    (setClock s 0)._scl_pin = s._scl_pin ∧
    (setClock s 0)._tx_address = s._tx_address ∧
    (setClock s 0)._tx_buffer = s._tx_buffer ∧
    (setClock s 0)._tx_buffer_length = s._tx_buffer_length ∧
    (setClock s 0)._rx_buffer = s._rx_buffer ∧
    (setClock s 0)._rx_buffer_length = s._rx_buffer_length ∧
    (setClock s 0)._rx_buffer_index = s._rx_buffer_index := by
  have h : setClock s 0 = s := by
    unfold setClock
    rw [if_pos (Nat.le_refl 0)]
  rw [h]
  exact ⟨rfl, rfl, rfl, rfl, rfl, rfl, rfl, rfl, rfl, rfl⟩

theorem toUint32_of_neg (f : Int) (h1 : f < 0) (h2 : -4294967296 < f) :
    toUint32 f = (f + 4294967296).toNat := by
  unfold toUint32
  congr 1
  omega

/-- C13, amended: for every object and every negative integer `f`, the argument
reaches the `uint32_t` parameter of `setClock` as `u = f mod 2^32`; when `u` is
not 0 the delay is set to `max 1 (500000 / u)`, and when `u` is 0 (`f` a
multiple of `2^32`) the object is unchanged. In particular for every
`f` with `-2^31 ≤ f < 0` the delay becomes 1. -/
theorem setClock_negative (s : SoftWire_CH32) (f : Int) (hf : f < 0) :
    (toUint32 f ≠ 0 → (setClock s (toUint32 f))._delay_us = max 1 (500000 / toUint32 f)) ∧
    (toUint32 f = 0 → setClock s (toUint32 f) = s) ∧
    (-2147483648 ≤ f → (setClock s (toUint32 f))._delay_us = 1) := by
  refine ⟨fun hu => delay_of_setClock s _ (by omega), fun hu => ?_, fun hlow => ?_⟩
  · rw [hu]
    unfold setClock
    rw [if_pos (Nat.le_refl 0)]
  · have hu : toUint32 f = (f + 4294967296).toNat := toUint32_of_neg f hf (by omega)
    have hbig : 500000 < toUint32 f := by rw [hu]; omega
    rw [delay_of_setClock s _ (by omega), Nat.div_eq_of_lt hbig]
    rfl

/-- Witness of the amended C13: `setClock(-1)` on the engine `engine01`. -/
theorem setClock_negative_witness :
    (-1 : Int) < 0 ∧ (setClock engine01 (toUint32 (-1)))._delay_us = 1 :=
  ⟨by decide, (setClock_negative engine01 (-1) (by decide)).2.2 (by decide)⟩

/-- Counterexample to C13 as stated: the engine `engine01` has the default
delay 5; the argument -1 reaches `setClock` as 4294967295, which is not
rejected, and the delay becomes 1. -/
theorem setClock_negative_counterexample :
    (-1 : Int) < 0 ∧ toUint32 (-1) = 4294967295 ∧ engine01._delay_us = 5 ∧
    (setClock engine01 (toUint32 (-1)))._delay_us = 1 ∧
    ¬ ((setClock engine01 (toUint32 (-1)))._delay_us = engine01._delay_us) := by
  decide

/-! ## Peeking -/

/-- C14: for every object, `peek()` returns exactly the value that an
immediately following `read()` would return: the byte at the cursor when the
cursor is below the receive length, and -1 otherwise, in particular when the
cursor equals the receive length. The call leaves the object and the trace
unchanged, so `available()` is the same before and after, and after any number
of consecutive calls the object, and hence the value `peek()` returns, is the
same. -/
theorem peek_eq_read (bus : Bus) (s : SoftWire_CH32) (t : Trace) :
    peek s = (read s).1 ∧
    peek s = (if s._rx_buffer_index < s._rx_buffer_length
      then ((s._rx_buffer.getD s._rx_buffer_index 0 : Nat) : Int) else -1) ∧
    (s._rx_buffer_index = s._rx_buffer_length → peek s = -1) ∧
    Call.run bus Call.peek (s, t) = (s, t) ∧
    available (Call.run bus Call.peek (s, t)).1 = available s ∧
    ∀ n : Nat, runCalls bus (List.replicate n Call.peek) (s, t) = (s, t) ∧
      peek (runCalls bus (List.replicate n Call.peek) (s, t)).1 = peek s := by
  have hn : ∀ n : Nat, runCalls bus (List.replicate n Call.peek) (s, t) = (s, t) := by
    intro n
    induction n with
    | zero => rfl
    | succ n ih => rw [List.replicate_succ, runCalls]; exact ih
  refine ⟨?_, rfl, ?_, rfl, rfl, fun n => ⟨hn n, by rw [hn n]⟩⟩
  · unfold peek read
    split <;> rfl
  · intro h
    unfold peek
    rw [if_neg (by omega)]

/-- Witness of C14: on the engine `engine01`, whose receive buffer is empty,
the cursor equals the receive length and `peek()` returns -1. -/
theorem peek_eq_read_witness :
    engine01._rx_buffer_index = engine01._rx_buffer_length ∧ peek engine01 = -1 :=
  ⟨by decide, (peek_eq_read ackBus engine01 []).2.2.1 (by decide)⟩

/-! ## The buffer invariant -/

theorem Inv_write (s : SoftWire_CH32) (d : Nat) (h : Inv s) : Inv (write s d).2 := by
  by_cases hfull : SOFTWIRE_CH32_BUFFER_LENGTH ≤ s._tx_buffer_length
  · rw [write_of_full s d hfull]; exact h
  · rw [write_of_room s d (by omega)]
    exact ⟨Nat.succ_le_of_lt (Nat.lt_of_not_le hfull), h.2.1, h.2.2⟩

theorem Sized_write (s : SoftWire_CH32) (d : Nat) (h : Sized s) : Sized (write s d).2 := by
  by_cases hfull : SOFTWIRE_CH32_BUFFER_LENGTH ≤ s._tx_buffer_length
  · rw [write_of_full s d hfull]; exact h
  · rw [write_of_room s d (by omega)]
    exact ⟨(List.length_set _ _ _).trans h.1, h.2⟩

theorem Inv_write_array_loop (data : List Nat) :
    ∀ (s : SoftWire_CH32) (written : Nat), Inv s → Inv (write_array_loop s data written).2 := by
  induction data with
  | nil => intro s written h; exact h
  | cons d ds ih =>
    intro s written h
    rw [write_array_loop]
    split
    · exact ih _ _ (Inv_write s d h)
    · exact Inv_write s d h

theorem Sized_write_array_loop (data : List Nat) :
    ∀ (s : SoftWire_CH32) (written : Nat),
      Sized s → Sized (write_array_loop s data written).2 := by
  induction data with
  | nil => intro s written h; exact h
  | cons d ds ih =>
    intro s written h
    rw [write_array_loop]
    split
    · exact ih _ _ (Sized_write s d h)
    · exact Sized_write s d h

theorem requestFrom_loop_length (bus : Bus) (s : SoftWire_CH32) (quantity : Nat) :
    ∀ (n i : Nat) (rx_buffer : List Nat) (rx_buffer_length : Nat) (t : Trace),
      (requestFrom_loop bus s quantity n i rx_buffer rx_buffer_length t).2.1 =
        rx_buffer_length + n ∧
      (requestFrom_loop bus s quantity n i rx_buffer rx_buffer_length t).1.length =
        rx_buffer.length := by
  intro n
  induction n with
  | zero => intro i rx_buffer rx_buffer_length t; exact ⟨rfl, rfl⟩
  | succ n ih =>
    intro i rx_buffer rx_buffer_length t
    rw [requestFrom_loop]
    obtain ⟨h1, h2⟩ := ih (i + 1) (rx_buffer.set i
      (i2c_read_byte bus s (decide ((i : Int) < (quantity : Int) - 1)) t).1)
      (rx_buffer_length + 1)
      (i2c_read_byte bus s (decide ((i : Int) < (quantity : Int) - 1)) t).2
    refine ⟨by rw [h1]; omega, by rw [h2, List.length_set]⟩

/-- The object after `requestFrom`: either the object before, or the object
before with a new receive buffer of the same size, a receive length of at
most 32 and the cursor at 0. -/
theorem requestFrom_object (bus : Bus) (s : SoftWire_CH32) (address quantity : Nat)
    (sendStop : Bool) (t : Trace) :
    (requestFrom bus s address quantity sendStop t).2.1 = s ∨
    ∃ (buf : List Nat) (n : Nat), n ≤ 32 ∧ buf.length = s._rx_buffer.length ∧
      (requestFrom bus s address quantity sendStop t).2.1 =
        { s with _rx_buffer := buf, _rx_buffer_length := n, _rx_buffer_index := 0 } := by
  have hB : SOFTWIRE_CH32_BUFFER_LENGTH = 32 := rfl
  have hq : (if quantity > SOFTWIRE_CH32_BUFFER_LENGTH then SOFTWIRE_CH32_BUFFER_LENGTH
      else quantity) = min quantity 32 := by
    rw [hB]; split <;> omega
  cases h1 : (i2c_write_byte bus s (((address <<< 1) ||| 1) % 256) (i2c_start bus s t)).1 with
  | false =>
    left
    unfold requestFrom
    simp only [h1, Bool.not_false, if_true]
  | true =>
    right
    have hl := requestFrom_loop_length bus s (min quantity 32) (min quantity 32) 0 s._rx_buffer 0
      (i2c_write_byte bus s (((address <<< 1) ||| 1) % 256) (i2c_start bus s t)).2
    refine ⟨_, min quantity 32, Nat.min_le_right _ _, hl.2, ?_⟩
    · unfold requestFrom
      simp only [hq, h1, Bool.not_true, Bool.false_eq_true, if_false, hl.1, Nat.zero_add]

theorem Inv_requestFrom (bus : Bus) (s : SoftWire_CH32) (address quantity : Nat)
    (sendStop : Bool) (t : Trace) (h : Inv s) :
    Inv (requestFrom bus s address quantity sendStop t).2.1 := by
  rcases requestFrom_object bus s address quantity sendStop t with h1 | ⟨buf, n, hn, _, h1⟩
  · rw [h1]; exact h
  · rw [h1]; exact ⟨h.1, Nat.zero_le _, hn⟩

theorem Sized_requestFrom (bus : Bus) (s : SoftWire_CH32) (address quantity : Nat)
    (sendStop : Bool) (t : Trace) (h : Sized s) :
    Sized (requestFrom bus s address quantity sendStop t).2.1 := by
  rcases requestFrom_object bus s address quantity sendStop t with h1 | ⟨buf, n, _, hb, h1⟩
  · rw [h1]; exact h
  · rw [h1]; exact ⟨h.1, hb.trans h.2⟩

theorem Inv_read (s : SoftWire_CH32) (h : Inv s) : Inv (read s).2 := by
  by_cases hlt : s._rx_buffer_index < s._rx_buffer_length
  · rw [read_of_lt s hlt]
    exact ⟨h.1, Nat.succ_le_of_lt hlt, h.2.2⟩
  · rw [read_of_ge s (by omega)]; exact h

theorem Sized_read (s : SoftWire_CH32) (h : Sized s) : Sized (read s).2 := by
  by_cases hlt : s._rx_buffer_index < s._rx_buffer_length
  · rw [read_of_lt s hlt]; exact h
  · rw [read_of_ge s (by omega)]; exact h

theorem setClock_object (s : SoftWire_CH32) (f : Nat) :
    ∃ d : Nat, setClock s f = { s with _delay_us := d } := by
  unfold setClock
  by_cases hf : f ≤ 0
  · exact ⟨s._delay_us, by rw [if_pos hf]⟩
  · rw [if_neg hf]
    by_cases hd : 500000 / f < 1
    · exact ⟨1, by simp only [hd, if_true]⟩
    · exact ⟨500000 / f, by simp only [hd, if_false]⟩

theorem Inv_setClock (s : SoftWire_CH32) (f : Nat) (h : Inv s) : Inv (setClock s f) := by
  obtain ⟨d, hd⟩ := setClock_object s f
  rw [hd]; exact h

theorem Sized_setClock (s : SoftWire_CH32) (f : Nat) (h : Sized s) : Sized (setClock s f) := by
  obtain ⟨d, hd⟩ := setClock_object s f
  rw [hd]; exact h

theorem Inv_run (bus : Bus) (c : Call) (s : SoftWire_CH32) (t : Trace) (h : Inv s) :
    Inv (Call.run bus c (s, t)).1 := by
  cases c with
  | begin a b => exact h
  | «end» => exact h
  | setClock f => exact Inv_setClock s f h
  | beginTransmission a => exact ⟨Nat.zero_le _, h.2.1, h.2.2⟩
  | write d => exact Inv_write s d h
  | write_array data => exact Inv_write_array_loop data s 0 h
  | endTransmission sendStop => exact h
  | requestFrom a q sendStop => exact Inv_requestFrom bus s a q sendStop t h
  | available => exact h
  | read => exact Inv_read s h
  | peek => exact h
  | «exists» a => exact h

theorem Sized_run (bus : Bus) (c : Call) (s : SoftWire_CH32) (t : Trace) (h : Sized s) :
    Sized (Call.run bus c (s, t)).1 := by
  cases c with
  | begin a b => exact h
  | «end» => exact h
  | setClock f => exact Sized_setClock s f h
  | beginTransmission a => exact h
  | write d => exact Sized_write s d h
  | write_array data => exact Sized_write_array_loop data s 0 h
  | endTransmission sendStop => exact h
  | requestFrom a q sendStop => exact Sized_requestFrom bus s a q sendStop t h
  | available => exact h
  | read => exact Sized_read s h
  | peek => exact h
  | «exists» a => exact h

theorem Inv_runCalls (bus : Bus) (calls : List Call) :
    ∀ st : SoftWire_CH32 × Trace, Inv st.1 → Inv (runCalls bus calls st).1 := by
  induction calls with
  | nil => intro st h; exact h
  | cons c calls ih =>
    intro st h
    rw [runCalls]
    exact ih _ (Inv_run bus c st.1 st.2 h)

theorem Sized_runCalls (bus : Bus) (calls : List Call) :
    ∀ st : SoftWire_CH32 × Trace, Sized st.1 → Sized (runCalls bus calls st).1 := by
  induction calls with
  | nil => intro st h; exact h
  | cons c calls ih =>
    intro st h
    rw [runCalls]
    exact ih _ (Sized_run bus c st.1 st.2 h)

/-- C15: the predicate "transmit length ≤ 32 and read cursor ≤ receive
length ≤ 32" holds in the freshly constructed object and is preserved by every
public operation (`begin`, `end`, `setClock`, `beginTransmission`, `write` of
one byte, `write` of an array, `endTransmission`, `requestFrom`, `available`,
`read`, `peek`, `exists`) for every argument and every bus. Consequently, in
every object reached from a fresh one by any sequence of calls, `available()`
is not negative, and, the arrays having their 32 slots, every slot below the
transmit length and the slot at the cursor when it is below the receive length
are slots of the arrays. -/
theorem Inv_public_operations (bus : Bus) :
    (∀ (a : Nat) (tx rx : List Nat), Inv (SoftWire_CH32.new a tx rx)) ∧
    (∀ (c : Call) (s : SoftWire_CH32) (t : Trace), Inv s → Inv (Call.run bus c (s, t)).1) ∧
    (∀ (calls : List Call) (a : Nat) (tx rx : List Nat) (t : Trace),
      Inv (runCalls bus calls (SoftWire_CH32.new a tx rx, t)).1 ∧
      0 ≤ available (runCalls bus calls (SoftWire_CH32.new a tx rx, t)).1 ∧
      (tx.length = 32 → rx.length = 32 →
        Sized (runCalls bus calls (SoftWire_CH32.new a tx rx, t)).1 ∧
        (∀ i : Nat, i < (runCalls bus calls (SoftWire_CH32.new a tx rx, t)).1._tx_buffer_length →
          i < (runCalls bus calls (SoftWire_CH32.new a tx rx, t)).1._tx_buffer.length) ∧
        ((runCalls bus calls (SoftWire_CH32.new a tx rx, t)).1._rx_buffer_index <
            (runCalls bus calls (SoftWire_CH32.new a tx rx, t)).1._rx_buffer_length →
          (runCalls bus calls (SoftWire_CH32.new a tx rx, t)).1._rx_buffer_index <
            (runCalls bus calls (SoftWire_CH32.new a tx rx, t)).1._rx_buffer.length))) := by
  have hB : SOFTWIRE_CH32_BUFFER_LENGTH = 32 := rfl
  have hnew : ∀ (a : Nat) (tx rx : List Nat), Inv (SoftWire_CH32.new a tx rx) :=
    fun a tx rx => ⟨Nat.zero_le _, Nat.le_refl _, Nat.zero_le _⟩
  refine ⟨hnew, fun c s t h => Inv_run bus c s t h, fun calls a tx rx t => ?_⟩
  have hinv := Inv_runCalls bus calls (SoftWire_CH32.new a tx rx, t) (hnew a tx rx)
  refine ⟨hinv, ?_, fun htx hrx => ?_⟩
  · unfold available
    have := hinv.2.1
    omega
  · have hsz := Sized_runCalls bus calls (SoftWire_CH32.new a tx rx, t) ⟨htx, hrx⟩
    refine ⟨hsz, fun i hi => ?_, fun hi => ?_⟩
    · have h1 := hinv.1
      have h2 := hsz.1
      omega
    · have h1 := hinv.2.2
      have h2 := hsz.2
      omega

/-- Witness of C15: `write(7)` on the engine `engine01`. -/
theorem Inv_public_operations_witness :
    (Inv engine01 ∧ (List.replicate 32 0).length = 32) ∧
    Inv (Call.run ackBus (Call.write 7) (engine01, [])).1 ∧
    Sized (runCalls ackBus [Call.begin 0 1, Call.requestFrom 0x50 3 true, Call.read]
      (SoftWire_CH32.new 0 (List.replicate 32 0) (List.replicate 32 0), [])).1 :=
  ⟨by decide,
   (Inv_public_operations ackBus).2.1 (Call.write 7) engine01 [] (by decide),
   ((Inv_public_operations ackBus).2.2 [Call.begin 0 1, Call.requestFrom 0x50 3 true, Call.read]
      0 (List.replicate 32 0) (List.replicate 32 0) []).2.2 (by decide) (by decide) |>.1⟩

/-! ## Open-drain discipline -/

theorem followsOutput_of_settled (e : Ev) (t : Trace) (h : settled t = true) :
    followsOutput e t = true := by
  match t, h with
  | [], _ => rfl
  | Ev.pinMode _ PinMode.INPUT :: _, _ => rfl
  | Ev.pinMode _ PinMode.INPUT_PULLUP :: _, _ => rfl
  | Ev.digitalWrite _ _ :: _, _ => rfl
  | Ev.digitalRead _ _ :: _, _ => rfl
  | Ev.delayMicroseconds _ :: _, _ => rfl

theorem openDrainOk_pinMode_input (pin : Nat) (mode : PinMode) (hm : mode ≠ PinMode.OUTPUT)
    (t : Trace) (h : openDrainOk t = true) : openDrainOk (pinMode pin mode t) = true := by
  simp only [openDrainOk, Bool.and_eq_true] at h ⊢
  cases mode with
  | OUTPUT => exact absurd rfl hm
  | INPUT =>
    simp only [pinMode, openDrain, lowWrite, followsOutput_of_settled _ t h.2, h.1, settled,
      Bool.and_self, and_self]
  | INPUT_PULLUP =>
    simp only [pinMode, openDrain, lowWrite, followsOutput_of_settled _ t h.2, h.1, settled,
      Bool.and_self, and_self]

theorem openDrainOk_delayMicroseconds (us : Nat) (t : Trace) (h : openDrainOk t = true) :
    openDrainOk (delayMicroseconds us t) = true := by
  simp only [openDrainOk, Bool.and_eq_true] at h ⊢
  simp only [delayMicroseconds, openDrain, lowWrite, followsOutput_of_settled _ t h.2, h.1,
    settled, Bool.and_self, and_self]

theorem openDrainOk_digitalRead (bus : Bus) (pin : Nat) (t : Trace)
    (h : openDrainOk t = true) : openDrainOk (digitalRead bus pin t).2 = true := by
  simp only [openDrainOk, Bool.and_eq_true] at h ⊢
  simp only [digitalRead, openDrain, lowWrite, followsOutput_of_settled _ t h.2, h.1,
    settled, Bool.and_self, and_self]

theorem openDrainOk_output_low (pin : Nat) (t : Trace) (h : openDrainOk t = true) :
    openDrainOk (digitalWrite pin LOW (pinMode pin PinMode.OUTPUT t)) = true := by
  simp only [openDrainOk, Bool.and_eq_true] at h ⊢
  have hf := followsOutput_of_settled (Ev.pinMode pin PinMode.OUTPUT) t h.2
  have hg : followsOutput (Ev.digitalWrite pin LOW) (Ev.pinMode pin PinMode.OUTPUT :: t) =
      true := by
    simp [followsOutput]
  simp only [digitalWrite, pinMode, openDrain, lowWrite, hf, hg, h.1, settled, beq_self_eq_true,
    Bool.and_self, and_self]

theorem openDrainOk_i2c_delay (s : SoftWire_CH32) (t : Trace) (h : openDrainOk t = true) :
    openDrainOk (i2c_delay s t) = true :=
  openDrainOk_delayMicroseconds _ t h

theorem openDrainOk_i2c_sda_high (s : SoftWire_CH32) (t : Trace) (h : openDrainOk t = true) :
    openDrainOk (i2c_sda_high s t) = true :=
  openDrainOk_pinMode_input _ _ (by decide) t h

theorem openDrainOk_i2c_sda_low (s : SoftWire_CH32) (t : Trace) (h : openDrainOk t = true) :
    openDrainOk (i2c_sda_low s t) = true :=
  openDrainOk_output_low _ t h

theorem openDrainOk_i2c_scl_high_loop (bus : Bus) (s : SoftWire_CH32) :
    ∀ (timeout : Nat) (t : Trace), openDrainOk t = true →
      openDrainOk (i2c_scl_high_loop bus s timeout t) = true := by
  intro timeout
  induction timeout with
  | zero =>
    intro t h
    rw [i2c_scl_high_loop]
    split <;> exact openDrainOk_digitalRead bus _ t h
  | succ n ih =>
    intro t h
    rw [i2c_scl_high_loop]
    split
    · exact ih _ (openDrainOk_delayMicroseconds 1 _ (openDrainOk_digitalRead bus _ t h))
    · exact openDrainOk_digitalRead bus _ t h

theorem openDrainOk_i2c_scl_high (bus : Bus) (s : SoftWire_CH32) (t : Trace)
    (h : openDrainOk t = true) : openDrainOk (i2c_scl_high bus s t) = true :=
  openDrainOk_i2c_scl_high_loop bus s 1000 _
    (openDrainOk_i2c_delay s _ (openDrainOk_pinMode_input _ _ (by decide) t h))

theorem openDrainOk_i2c_scl_low (s : SoftWire_CH32) (t : Trace) (h : openDrainOk t = true) :
    openDrainOk (i2c_scl_low s t) = true :=
  openDrainOk_i2c_delay s _ (openDrainOk_output_low _ t h)

theorem openDrainOk_i2c_start (bus : Bus) (s : SoftWire_CH32) (t : Trace)
    (h : openDrainOk t = true) : openDrainOk (i2c_start bus s t) = true :=
  openDrainOk_i2c_scl_low s _ (openDrainOk_i2c_delay s _ (openDrainOk_i2c_sda_low s _
    (openDrainOk_i2c_delay s _ (openDrainOk_i2c_scl_high bus s _
      (openDrainOk_i2c_sda_high s t h)))))

theorem openDrainOk_i2c_stop (bus : Bus) (s : SoftWire_CH32) (t : Trace)
    (h : openDrainOk t = true) : openDrainOk (i2c_stop bus s t) = true :=
  openDrainOk_i2c_delay s _ (openDrainOk_i2c_sda_high s _ (openDrainOk_i2c_delay s _
    (openDrainOk_i2c_scl_high bus s _ (openDrainOk_i2c_delay s _
      (openDrainOk_i2c_sda_low s t h)))))

theorem openDrainOk_i2c_write_bit (bus : Bus) (s : SoftWire_CH32) (bit : Bool) (t : Trace)
    (h : openDrainOk t = true) : openDrainOk (i2c_write_bit bus s bit t).2 = true := by
  unfold i2c_write_bit
  refine openDrainOk_i2c_scl_low s _ (openDrainOk_i2c_scl_high bus s _
    (openDrainOk_i2c_delay s _ ?_))
  cases bit
  · exact openDrainOk_i2c_sda_low s t h
  · exact openDrainOk_i2c_sda_high s t h

theorem openDrainOk_i2c_read_bit (bus : Bus) (s : SoftWire_CH32) (t : Trace)
    (h : openDrainOk t = true) : openDrainOk (i2c_read_bit bus s t).2 = true :=
  openDrainOk_i2c_scl_low s _ (openDrainOk_digitalRead bus _ _
    (openDrainOk_i2c_scl_high bus s _ (openDrainOk_i2c_delay s _
      (openDrainOk_i2c_sda_high s t h))))

theorem openDrainOk_i2c_write_byte_loop (bus : Bus) (s : SoftWire_CH32) :
    ∀ (n byte : Nat) (t : Trace), openDrainOk t = true →
      openDrainOk (i2c_write_byte_loop bus s n byte t) = true := by
  intro n
  induction n with
  | zero => intro byte t h; exact h
  | succ n ih =>
    intro byte t h
    rw [i2c_write_byte_loop]
    exact ih _ _ (openDrainOk_i2c_write_bit bus s _ t h)

theorem openDrainOk_i2c_write_byte (bus : Bus) (s : SoftWire_CH32) (byte : Nat) (t : Trace)
    (h : openDrainOk t = true) : openDrainOk (i2c_write_byte bus s byte t).2 = true :=
  openDrainOk_i2c_read_bit bus s _ (openDrainOk_i2c_write_byte_loop bus s 8 byte t h)

theorem openDrainOk_i2c_read_byte_loop (bus : Bus) (s : SoftWire_CH32) :
    ∀ (n byte : Nat) (t : Trace), openDrainOk t = true →
      openDrainOk (i2c_read_byte_loop bus s n byte t).2 = true := by
  intro n
  induction n with
  | zero => intro byte t h; exact h
  | succ n ih =>
    intro byte t h
    rw [i2c_read_byte_loop]
    exact ih _ _ (openDrainOk_i2c_read_bit bus s t h)

theorem openDrainOk_i2c_read_byte (bus : Bus) (s : SoftWire_CH32) (ack : Bool) (t : Trace)
    (h : openDrainOk t = true) : openDrainOk (i2c_read_byte bus s ack t).2 = true :=
  openDrainOk_i2c_write_bit bus s _ _ (openDrainOk_i2c_read_byte_loop bus s 8 0 t h)

theorem openDrainOk_stop_if (bus : Bus) (s : SoftWire_CH32) (sendStop : Bool) (t : Trace)
    (h : openDrainOk t = true) :
    openDrainOk (if sendStop then i2c_stop bus s t else t) = true := by
  cases sendStop
  · exact h
  · exact openDrainOk_i2c_stop bus s t h

theorem openDrainOk_endTransmission_loop (bus : Bus) (s : SoftWire_CH32) (sendStop : Bool) :
    ∀ (n i : Nat) (t : Trace), openDrainOk t = true →
      openDrainOk (endTransmission_loop bus s sendStop n i t).2 = true := by
  intro n
  induction n with
  | zero => intro i t h; exact h
  | succ n ih =>
    intro i t h
    rw [endTransmission_loop]
    have hw := openDrainOk_i2c_write_byte bus s (s._tx_buffer.getD i 0) t h
    split
    · exact openDrainOk_stop_if bus s sendStop _ hw
    · exact ih _ _ hw

theorem openDrainOk_requestFrom_loop (bus : Bus) (s : SoftWire_CH32) (quantity : Nat) :
    ∀ (n i : Nat) (rx_buffer : List Nat) (rx_buffer_length : Nat) (t : Trace),
      openDrainOk t = true →
      openDrainOk (requestFrom_loop bus s quantity n i rx_buffer rx_buffer_length t).2.2 =
        true := by
  intro n
  induction n with
  | zero => intro i rx_buffer rx_buffer_length t h; exact h
  | succ n ih =>
    intro i rx_buffer rx_buffer_length t h
    rw [requestFrom_loop]
    exact ih _ _ _ _ (openDrainOk_i2c_read_byte bus s _ t h)

theorem openDrainOk_endTransmission (bus : Bus) (s : SoftWire_CH32) (sendStop : Bool)
    (t : Trace) (h : openDrainOk t = true) :
    openDrainOk (endTransmission bus s sendStop t).2 = true := by
  have hw := openDrainOk_i2c_write_byte bus s (((s._tx_address <<< 1) ||| 0) % 256) _
    (openDrainOk_i2c_start bus s t h)
  have hl := openDrainOk_endTransmission_loop bus s sendStop s._tx_buffer_length 0 _ hw
  cases h1 : (i2c_write_byte bus s (((s._tx_address <<< 1) ||| 0) % 256)
      (i2c_start bus s t)).1 with
  | false =>
    unfold endTransmission
    simp only [h1, Bool.not_false, if_true]
    exact openDrainOk_stop_if bus s sendStop _ hw
  | true =>
    unfold endTransmission
    simp only [h1, Bool.not_true, Bool.false_eq_true, if_false]
    cases hloop : endTransmission_loop bus s sendStop s._tx_buffer_length 0
        (i2c_write_byte bus s (((s._tx_address <<< 1) ||| 0) % 256) (i2c_start bus s t)).2 with
    | mk status u =>
      rw [hloop] at hl
      cases status with
      | none => exact openDrainOk_stop_if bus s sendStop _ hl
      | some v => exact hl

theorem openDrainOk_requestFrom (bus : Bus) (s : SoftWire_CH32) (address quantity : Nat)
    (sendStop : Bool) (t : Trace) (h : openDrainOk t = true) :
    openDrainOk (requestFrom bus s address quantity sendStop t).2.2 = true := by
  have hw := openDrainOk_i2c_write_byte bus s (((address <<< 1) ||| 1) % 256) _
    (openDrainOk_i2c_start bus s t h)
  cases h1 : (i2c_write_byte bus s (((address <<< 1) ||| 1) % 256) (i2c_start bus s t)).1 with
  | false =>
    unfold requestFrom
    simp only [h1, Bool.not_false, if_true]
    exact openDrainOk_stop_if bus s sendStop _ hw
  | true =>
    unfold requestFrom
    simp only [h1, Bool.not_true, Bool.false_eq_true, if_false]
    exact openDrainOk_stop_if bus s sendStop _
      (openDrainOk_requestFrom_loop bus s _ _ 0 _ 0 _ hw)

theorem openDrain_no_high (t : Trace) (h : openDrain t = true) (pin : Nat) :
    Ev.digitalWrite pin HIGH ∉ t := by
  induction t with
  | nil => simp
  | cons e t ih =>
    simp only [openDrain, Bool.and_eq_true] at h
    intro hmem
    rcases List.mem_cons.mp hmem with he | ht
    · rw [← he] at h
      simp [lowWrite] at h
    · exact ih h.2 ht

theorem openDrain_output_followed (pin : Nat) (pre : Trace) :
    ∀ post : Trace, post ≠ [] → openDrain (post ++ Ev.pinMode pin PinMode.OUTPUT :: pre) = true →
      ∃ later : Trace, post = later ++ [Ev.digitalWrite pin LOW] := by
  intro post
  induction post with
  | nil => intro h; exact absurd rfl h
  | cons e post ih =>
    intro _ h
    rw [List.cons_append] at h
    simp only [openDrain, Bool.and_eq_true] at h
    cases post with
    | nil =>
      have hf := h.1.2
      simp only [List.nil_append, followsOutput, beq_iff_eq] at hf
      exact ⟨[], by rw [hf]; rfl⟩
    | cons e2 post2 =>
      obtain ⟨later, hl⟩ := ih (by simp) h.2
      exact ⟨e :: later, by rw [hl]; rfl⟩

theorem openDrainOk_output_followed (u : Trace) (h : openDrainOk u = true)
    (pin : Nat) (post pre : Trace) (hu : u = post ++ Ev.pinMode pin PinMode.OUTPUT :: pre) :
    ∃ later : Trace, post = later ++ [Ev.digitalWrite pin LOW] := by
  simp only [openDrainOk, Bool.and_eq_true] at h
  subst hu
  cases post with
  | nil =>
    have hs := h.2
    simp [settled] at hs
  | cons e post => exact openDrain_output_followed pin pre (e :: post) (by simp) h.1

/-! ## Properties kept by every bus method -/

theorem closed_i2c_delay (bus : Bus) (Q : Trace → Prop) (hQ : BusClosed bus Q)
    (s : SoftWire_CH32) (t : Trace) (h : Q t) : Q (i2c_delay s t) :=
  hQ.2.2.2 _ t h

theorem closed_i2c_sda_high (bus : Bus) (Q : Trace → Prop) (hQ : BusClosed bus Q)
    (s : SoftWire_CH32) (t : Trace) (h : Q t) : Q (i2c_sda_high s t) :=
  hQ.1 _ t h

theorem closed_i2c_sda_low (bus : Bus) (Q : Trace → Prop) (hQ : BusClosed bus Q)
    (s : SoftWire_CH32) (t : Trace) (h : Q t) : Q (i2c_sda_low s t) :=
  hQ.2.1 _ t h

theorem closed_i2c_scl_high_loop (bus : Bus) (Q : Trace → Prop) (hQ : BusClosed bus Q)
    (s : SoftWire_CH32) :
    ∀ (timeout : Nat) (t : Trace), Q t → Q (i2c_scl_high_loop bus s timeout t) := by
  intro timeout
  induction timeout with
  | zero =>
    intro t h
    rw [i2c_scl_high_loop]
    split <;> exact hQ.2.2.1 _ t h
  | succ n ih =>
    intro t h
    rw [i2c_scl_high_loop]
    split
    · exact ih _ (hQ.2.2.2 1 _ (hQ.2.2.1 _ t h))
    · exact hQ.2.2.1 _ t h

theorem closed_i2c_scl_high (bus : Bus) (Q : Trace → Prop) (hQ : BusClosed bus Q)
    (s : SoftWire_CH32) (t : Trace) (h : Q t) : Q (i2c_scl_high bus s t) :=
  closed_i2c_scl_high_loop bus Q hQ s 1000 _ (closed_i2c_delay bus Q hQ s _ (hQ.1 _ t h))

theorem closed_i2c_scl_low (bus : Bus) (Q : Trace → Prop) (hQ : BusClosed bus Q)
    (s : SoftWire_CH32) (t : Trace) (h : Q t) : Q (i2c_scl_low s t) :=
  closed_i2c_delay bus Q hQ s _ (hQ.2.1 _ t h)

theorem closed_i2c_start (bus : Bus) (Q : Trace → Prop) (hQ : BusClosed bus Q)
    (s : SoftWire_CH32) (t : Trace) (h : Q t) : Q (i2c_start bus s t) :=
  closed_i2c_scl_low bus Q hQ s _ (closed_i2c_delay bus Q hQ s _ (closed_i2c_sda_low bus Q hQ s _
    (closed_i2c_delay bus Q hQ s _ (closed_i2c_scl_high bus Q hQ s _
      (closed_i2c_sda_high bus Q hQ s t h)))))

theorem closed_i2c_stop (bus : Bus) (Q : Trace → Prop) (hQ : BusClosed bus Q)
    (s : SoftWire_CH32) (t : Trace) (h : Q t) : Q (i2c_stop bus s t) :=
  closed_i2c_delay bus Q hQ s _ (closed_i2c_sda_high bus Q hQ s _ (closed_i2c_delay bus Q hQ s _
    (closed_i2c_scl_high bus Q hQ s _ (closed_i2c_delay bus Q hQ s _
      (closed_i2c_sda_low bus Q hQ s t h)))))

theorem closed_i2c_write_bit (bus : Bus) (Q : Trace → Prop) (hQ : BusClosed bus Q)
    (s : SoftWire_CH32) (bit : Bool) (t : Trace) (h : Q t) : Q (i2c_write_bit bus s bit t).2 := by
  unfold i2c_write_bit
  refine closed_i2c_scl_low bus Q hQ s _ (closed_i2c_scl_high bus Q hQ s _
    (closed_i2c_delay bus Q hQ s _ ?_))
  cases bit
  · exact closed_i2c_sda_low bus Q hQ s t h
  · exact closed_i2c_sda_high bus Q hQ s t h

theorem closed_i2c_read_bit (bus : Bus) (Q : Trace → Prop) (hQ : BusClosed bus Q)
    (s : SoftWire_CH32) (t : Trace) (h : Q t) : Q (i2c_read_bit bus s t).2 :=
  closed_i2c_scl_low bus Q hQ s _ (hQ.2.2.1 _ _
    (closed_i2c_scl_high bus Q hQ s _ (closed_i2c_delay bus Q hQ s _
      (closed_i2c_sda_high bus Q hQ s t h))))

theorem closed_i2c_write_byte_loop (bus : Bus) (Q : Trace → Prop) (hQ : BusClosed bus Q)
    (s : SoftWire_CH32) :
    ∀ (n byte : Nat) (t : Trace), Q t → Q (i2c_write_byte_loop bus s n byte t) := by
  intro n
  induction n with
  | zero => intro byte t h; exact h
  | succ n ih =>
    intro byte t h
    rw [i2c_write_byte_loop]
    exact ih _ _ (closed_i2c_write_bit bus Q hQ s _ t h)

theorem closed_i2c_write_byte (bus : Bus) (Q : Trace → Prop) (hQ : BusClosed bus Q)
    (s : SoftWire_CH32) (byte : Nat) (t : Trace) (h : Q t) :
    Q (i2c_write_byte bus s byte t).2 :=
  closed_i2c_read_bit bus Q hQ s _ (closed_i2c_write_byte_loop bus Q hQ s 8 byte t h)

theorem closed_i2c_read_byte_loop (bus : Bus) (Q : Trace → Prop) (hQ : BusClosed bus Q)
    (s : SoftWire_CH32) :
    ∀ (n byte : Nat) (t : Trace), Q t → Q (i2c_read_byte_loop bus s n byte t).2 := by
  intro n
  induction n with
  | zero => intro byte t h; exact h
  | succ n ih =>
    intro byte t h
    rw [i2c_read_byte_loop]
    exact ih _ _ (closed_i2c_read_bit bus Q hQ s t h)

theorem closed_i2c_read_byte (bus : Bus) (Q : Trace → Prop) (hQ : BusClosed bus Q)
    (s : SoftWire_CH32) (ack : Bool) (t : Trace) (h : Q t) :
    Q (i2c_read_byte bus s ack t).2 :=
  closed_i2c_write_bit bus Q hQ s _ _ (closed_i2c_read_byte_loop bus Q hQ s 8 0 t h)

theorem closed_stop_if (bus : Bus) (Q : Trace → Prop) (hQ : BusClosed bus Q)
    (s : SoftWire_CH32) (sendStop : Bool) (t : Trace) (h : Q t) :
    Q (if sendStop then i2c_stop bus s t else t) := by
  cases sendStop
  · exact h
  · exact closed_i2c_stop bus Q hQ s t h

theorem closed_endTransmission_loop (bus : Bus) (Q : Trace → Prop) (hQ : BusClosed bus Q)
    (s : SoftWire_CH32) (sendStop : Bool) :
    ∀ (n i : Nat) (t : Trace), Q t → Q (endTransmission_loop bus s sendStop n i t).2 := by
  intro n
  induction n with
  | zero => intro i t h; exact h
  | succ n ih =>
    intro i t h
    rw [endTransmission_loop]
    have hw := closed_i2c_write_byte bus Q hQ s (s._tx_buffer.getD i 0) t h
    split
    · exact closed_stop_if bus Q hQ s sendStop _ hw
    · exact ih _ _ hw

theorem closed_requestFrom_loop (bus : Bus) (Q : Trace → Prop) (hQ : BusClosed bus Q)
    (s : SoftWire_CH32) (quantity : Nat) :
    ∀ (n i : Nat) (rx_buffer : List Nat) (rx_buffer_length : Nat) (t : Trace), Q t →
      Q (requestFrom_loop bus s quantity n i rx_buffer rx_buffer_length t).2.2 := by
  intro n
  induction n with
  | zero => intro i rx_buffer rx_buffer_length t h; exact h
  | succ n ih =>
    intro i rx_buffer rx_buffer_length t h
    rw [requestFrom_loop]
    exact ih _ _ _ _ (closed_i2c_read_byte bus Q hQ s _ t h)

theorem closed_endTransmission (bus : Bus) (Q : Trace → Prop) (hQ : BusClosed bus Q)
    (s : SoftWire_CH32) (sendStop : Bool) (t : Trace) (h : Q t) :
    Q (endTransmission bus s sendStop t).2 := by
  have hw := closed_i2c_write_byte bus Q hQ s (((s._tx_address <<< 1) ||| 0) % 256) _
    (closed_i2c_start bus Q hQ s t h)
  have hl := closed_endTransmission_loop bus Q hQ s sendStop s._tx_buffer_length 0 _ hw
  cases h1 : (i2c_write_byte bus s (((s._tx_address <<< 1) ||| 0) % 256)
      (i2c_start bus s t)).1 with
  | false =>
    unfold endTransmission
    simp only [h1, Bool.not_false, if_true]
    exact closed_stop_if bus Q hQ s sendStop _ hw
  | true =>
    unfold endTransmission
    simp only [h1, Bool.not_true, Bool.false_eq_true, if_false]
    cases hloop : endTransmission_loop bus s sendStop s._tx_buffer_length 0
        (i2c_write_byte bus s (((s._tx_address <<< 1) ||| 0) % 256) (i2c_start bus s t)).2 with
    | mk status u =>
      rw [hloop] at hl
      cases status with
      | none => exact closed_stop_if bus Q hQ s sendStop _ hl
      | some v => exact hl

theorem closed_requestFrom (bus : Bus) (Q : Trace → Prop) (hQ : BusClosed bus Q)
    (s : SoftWire_CH32) (address quantity : Nat) (sendStop : Bool) (t : Trace) (h : Q t) :
    Q (requestFrom bus s address quantity sendStop t).2.2 := by
  have hw := closed_i2c_write_byte bus Q hQ s (((address <<< 1) ||| 1) % 256) _
    (closed_i2c_start bus Q hQ s t h)
  cases h1 : (i2c_write_byte bus s (((address <<< 1) ||| 1) % 256) (i2c_start bus s t)).1 with
  | false =>
    unfold requestFrom
    simp only [h1, Bool.not_false, if_true]
    exact closed_stop_if bus Q hQ s sendStop _ hw
  | true =>
    unfold requestFrom
    simp only [h1, Bool.not_true, Bool.false_eq_true, if_false]
    exact closed_stop_if bus Q hQ s sendStop _
      (closed_requestFrom_loop bus Q hQ s _ _ 0 _ 0 _ hw)

theorem closed_exists (bus : Bus) (Q : Trace → Prop) (hQ : BusClosed bus Q)
    (s : SoftWire_CH32) (address : Nat) (t : Trace) (h : Q t) :
    Q («exists» bus s address t).2 :=
  closed_i2c_stop bus Q hQ s _ (closed_i2c_write_byte bus Q hQ s _ _
    (closed_i2c_start bus Q hQ s t h))

theorem closed_begin (bus : Bus) (Q : Trace → Prop) (hQ : BusClosed bus Q)
    (s : SoftWire_CH32) (sda_pin scl_pin : Nat) (t : Trace) (h : Q t) :
    Q (begin s sda_pin scl_pin t).2 :=
  hQ.2.2.2 _ _ (hQ.1 _ _ (hQ.1 _ t h))

theorem noPlainInput_closed (bus : Bus) : BusClosed bus (fun t => noPlainInput t = true) := by
  refine ⟨fun pin t h => ?_, fun pin t h => ?_, fun pin t h => ?_, fun us t h => ?_⟩
  · simpa [noPlainInput, pinMode] using h
  · simpa [noPlainInput, pinMode, digitalWrite] using h
  · simpa [noPlainInput, digitalRead] using h
  · simpa [noPlainInput, delayMicroseconds] using h

theorem line_raised (pin : Nat) (e : Ev) (pre : Trace) (h1 : line pin pre ≠ Line.released)
    (h2 : line pin (e :: pre) = Line.released) :
    e = Ev.pinMode pin PinMode.INPUT ∨ e = Ev.pinMode pin PinMode.INPUT_PULLUP := by
  cases e with
  | pinMode p mode =>
    by_cases hp : p = pin
    · subst hp
      cases mode with
      | INPUT => exact Or.inl rfl
      | INPUT_PULLUP => exact Or.inr rfl
      | OUTPUT => simp [line] at h2
    · simp only [line, if_neg hp] at h2
      exact absurd h2 h1
  | digitalWrite p level =>
    by_cases hp : p = pin
    · simp only [line, if_pos hp] at h2
      split at h2
      · rename_i hrel
        exact absurd hrel h1
      · exact absurd h2 (by decide)
      · split at h2 <;> exact absurd h2 (by decide)
    · simp only [line, if_neg hp] at h2
      exact absurd h2 h1
  | digitalRead p level => exact absurd h2 h1
  | delayMicroseconds us => exact absurd h2 h1

theorem noPlainInput_raised (u : Trace) (h : noPlainInput u = true) (pin : Nat) (e : Ev)
    (post pre : Trace) (hu : u = post ++ e :: pre) (h1 : line pin pre ≠ Line.released)
    (h2 : line pin (e :: pre) = Line.released) : e = Ev.pinMode pin PinMode.INPUT_PULLUP := by
  rcases line_raised pin e pre h1 h2 with he | he
  · subst hu
    subst he
    simp [noPlainInput] at h
  · exact he

/-- C16, amended: in the trace of every operation of the engine (`begin`,
`end`, start, stop, bit and byte write and read, `endTransmission`,
`requestFrom`, `exists`), for every argument and every bus, no pin is ever
written high: every level write is a write of `LOW` and every configuration of
a pin as output is immediately followed by the write of `LOW` to the same pin
(the events that come later in time stand earlier in the list). A line is
raised only by configuring its pin as an input: with pull-up in every
operation except `end`, whose trace is exactly the configuration of SDA and
then SCL as plain inputs, without pull-up. Each operation keeps these
properties of the trace it extends, the empty trace in particular. -/
theorem open_drain_discipline (bus : Bus) (s : SoftWire_CH32) (t : Trace)
    (h : openDrainOk t = true) :
    ((∀ sda_pin scl_pin : Nat, openDrainOk (begin s sda_pin scl_pin t).2 = true) ∧
      openDrainOk («end» s t) = true ∧
      openDrainOk (i2c_start bus s t) = true ∧
      openDrainOk (i2c_stop bus s t) = true ∧
      (∀ bit : Bool, openDrainOk (i2c_write_bit bus s bit t).2 = true) ∧
      openDrainOk (i2c_read_bit bus s t).2 = true ∧
      (∀ byte : Nat, openDrainOk (i2c_write_byte bus s byte t).2 = true) ∧
      (∀ ack : Bool, openDrainOk (i2c_read_byte bus s ack t).2 = true) ∧
      (∀ sendStop : Bool, openDrainOk (endTransmission bus s sendStop t).2 = true) ∧
      (∀ (address quantity : Nat) (sendStop : Bool),
        openDrainOk (requestFrom bus s address quantity sendStop t).2.2 = true) ∧
      (∀ address : Nat, openDrainOk («exists» bus s address t).2 = true)) ∧
    (noPlainInput t = true →
      (∀ sda_pin scl_pin : Nat, noPlainInput (begin s sda_pin scl_pin t).2 = true) ∧
      noPlainInput (i2c_start bus s t) = true ∧
      noPlainInput (i2c_stop bus s t) = true ∧
      (∀ bit : Bool, noPlainInput (i2c_write_bit bus s bit t).2 = true) ∧
      noPlainInput (i2c_read_bit bus s t).2 = true ∧
      (∀ byte : Nat, noPlainInput (i2c_write_byte bus s byte t).2 = true) ∧
      (∀ ack : Bool, noPlainInput (i2c_read_byte bus s ack t).2 = true) ∧
      (∀ sendStop : Bool, noPlainInput (endTransmission bus s sendStop t).2 = true) ∧
      (∀ (address quantity : Nat) (sendStop : Bool),
        noPlainInput (requestFrom bus s address quantity sendStop t).2.2 = true) ∧
      (∀ address : Nat, noPlainInput («exists» bus s address t).2 = true)) ∧
    «end» s t = Ev.pinMode s._scl_pin PinMode.INPUT :: Ev.pinMode s._sda_pin PinMode.INPUT :: t ∧
    (∀ u : Trace, openDrainOk u = true →
      (∀ pin : Nat, Ev.digitalWrite pin HIGH ∉ u) ∧
      (∀ (pin : Nat) (level : Bool), Ev.digitalWrite pin level ∈ u → level = LOW) ∧
      (∀ (pin : Nat) (post pre : Trace), u = post ++ Ev.pinMode pin PinMode.OUTPUT :: pre →
        ∃ later : Trace, post = later ++ [Ev.digitalWrite pin LOW])) ∧
    (∀ (u : Trace) (pin : Nat) (e : Ev) (post pre : Trace), u = post ++ e :: pre →
      line pin pre ≠ Line.released → line pin (e :: pre) = Line.released →
      (e = Ev.pinMode pin PinMode.INPUT ∨ e = Ev.pinMode pin PinMode.INPUT_PULLUP) ∧
      (noPlainInput u = true → e = Ev.pinMode pin PinMode.INPUT_PULLUP)) := by
  have hN := noPlainInput_closed bus
  refine ⟨⟨fun a b => ?_, ?_, openDrainOk_i2c_start bus s t h, openDrainOk_i2c_stop bus s t h,
    fun bit => openDrainOk_i2c_write_bit bus s bit t h, openDrainOk_i2c_read_bit bus s t h,
    fun byte => openDrainOk_i2c_write_byte bus s byte t h,
    fun ack => openDrainOk_i2c_read_byte bus s ack t h,
    fun sendStop => openDrainOk_endTransmission bus s sendStop t h,
    fun a q sendStop => openDrainOk_requestFrom bus s a q sendStop t h,
    fun a => ?_⟩,
    fun hn => ⟨fun a b => closed_begin bus _ hN s a b t hn,
      closed_i2c_start bus _ hN s t hn, closed_i2c_stop bus _ hN s t hn,
      fun bit => closed_i2c_write_bit bus _ hN s bit t hn,
      closed_i2c_read_bit bus _ hN s t hn,
      fun byte => closed_i2c_write_byte bus _ hN s byte t hn,
      fun ack => closed_i2c_read_byte bus _ hN s ack t hn,
      fun sendStop => closed_endTransmission bus _ hN s sendStop t hn,
      fun a q sendStop => closed_requestFrom bus _ hN s a q sendStop t hn,
      fun a => closed_exists bus _ hN s a t hn⟩,
    rfl, fun u hu => ⟨?_, ?_, ?_⟩,
    fun u pin e post pre hu h1 h2 => ⟨line_raised pin e pre h1 h2,
      fun hn => noPlainInput_raised u hn pin e post pre hu h1 h2⟩⟩
  · exact openDrainOk_i2c_delay _ _ (openDrainOk_pinMode_input _ _ (by decide) _
      (openDrainOk_pinMode_input _ _ (by decide) t h))
  · exact openDrainOk_pinMode_input _ _ (by decide) _
      (openDrainOk_pinMode_input _ _ (by decide) t h)
  · exact openDrainOk_i2c_stop bus s _ (openDrainOk_i2c_write_byte bus s _ _
      (openDrainOk_i2c_start bus s t h))
  · simp only [openDrainOk, Bool.and_eq_true] at hu
    exact fun pin => openDrain_no_high u hu.1 pin
  · simp only [openDrainOk, Bool.and_eq_true] at hu
    intro pin level hmem
    cases level with
    | false => rfl
    | true => exact absurd hmem (openDrain_no_high u hu.1 pin)
  · exact fun pin post pre hpost => openDrainOk_output_followed u hu pin post pre hpost

/-- Witness of the amended C16: from the empty trace, a request of two bytes
on a bus whose slave acknowledges never writes a pin high and never configures
a plain input. -/
theorem open_drain_discipline_witness :
    (openDrainOk [] = true ∧ noPlainInput [] = true) ∧
    openDrainOk (requestFrom ackBus engine01 0x50 2 true []).2.2 = true ∧
    noPlainInput (requestFrom ackBus engine01 0x50 2 true []).2.2 = true ∧
    Ev.digitalWrite 0 HIGH ∉ (requestFrom ackBus engine01 0x50 2 true []).2.2 :=
  ⟨⟨rfl, rfl⟩,
   (open_drain_discipline ackBus engine01 [] rfl).1.2.2.2.2.2.2.2.2.2.1 0x50 2 true,
   ((open_drain_discipline ackBus engine01 [] rfl).2.1 rfl).2.2.2.2.2.2.2.2.1 0x50 2 true,
   ((open_drain_discipline ackBus engine01 [] rfl).2.2.2.1
      (requestFrom ackBus engine01 0x50 2 true []).2.2
      ((open_drain_discipline ackBus engine01 [] rfl).1.2.2.2.2.2.2.2.2.2.1 0x50 2 true)).1 0⟩

/-- Counterexample to C16 as stated: on the engine `engine01` (SDA on pin 0,
SCL on pin 1), `endTransmission(false)` for address 0x50 on a bus whose slave
acknowledges leaves SCL driven low; the `end()` that follows configures pin 0
and then pin 1 as plain inputs, and it is the event `pinMode(1, INPUT)`,
without pull-up, that releases SCL and so lets the line rise. -/
theorem open_drain_discipline_counterexample :
    line 1 (endTransmission ackBus (beginTransmission engine01 0x50) false []).2 =
      Line.drivenLow ∧
    «end» (beginTransmission engine01 0x50)
        (endTransmission ackBus (beginTransmission engine01 0x50) false []).2 =
      Ev.pinMode 1 PinMode.INPUT :: Ev.pinMode 0 PinMode.INPUT ::
        (endTransmission ackBus (beginTransmission engine01 0x50) false []).2 ∧
    line 1 (Ev.pinMode 0 PinMode.INPUT ::
      (endTransmission ackBus (beginTransmission engine01 0x50) false []).2) ≠ Line.released ∧
    line 1 (Ev.pinMode 1 PinMode.INPUT :: Ev.pinMode 0 PinMode.INPUT ::
      (endTransmission ackBus (beginTransmission engine01 0x50) false []).2) = Line.released ∧
    Ev.pinMode 1 PinMode.INPUT ≠ Ev.pinMode 1 PinMode.INPUT_PULLUP := by
  decide

/-! ## The clock-stretching wait -/

theorem counts_digitalRead_scl (bus : Bus) (s : SoftWire_CH32) (t : Trace) :
    pollDelays (digitalRead bus s._scl_pin t).2 = pollDelays t ∧
    sclSamples s (digitalRead bus s._scl_pin t).2 = sclSamples s t + 1 ∧
    (digitalRead bus s._scl_pin t).2.length = t.length + 1 := by
  simp [pollDelays, sclSamples, digitalRead]

theorem counts_delay_one (s : SoftWire_CH32) (t : Trace) :
    pollDelays (delayMicroseconds 1 t) = pollDelays t + 1 ∧
    sclSamples s (delayMicroseconds 1 t) = sclSamples s t ∧
    (delayMicroseconds 1 t).length = t.length + 1 := by
  simp [pollDelays, sclSamples, delayMicroseconds]

/-- The wait loop started with `timeout` polls left: it makes `d ≤ timeout`
one-microsecond delays and `d + 1` samples of SCL, with `d = timeout` when SCL
reads low at every sample and `d = 0` when it reads high at the first. -/
theorem i2c_scl_high_loop_counts (bus : Bus) (s : SoftWire_CH32) :
    ∀ (timeout : Nat) (t : Trace), ∃ d : Nat, d ≤ timeout ∧
      pollDelays (i2c_scl_high_loop bus s timeout t) = pollDelays t + d ∧
      sclSamples s (i2c_scl_high_loop bus s timeout t) = sclSamples s t + d + 1 ∧
      (i2c_scl_high_loop bus s timeout t).length = t.length + 2 * d + 1 ∧
      ((∀ u : Trace, bus u s._scl_pin = LOW) → d = timeout) ∧
      (bus t s._scl_pin = HIGH → d = 0) := by
  intro timeout
  induction timeout with
  | zero =>
    intro t
    obtain ⟨h1, h2, h3⟩ := counts_digitalRead_scl bus s t
    refine ⟨0, Nat.le_refl _, ?_, ?_, ?_, fun _ => rfl, fun _ => rfl⟩ <;>
      (rw [i2c_scl_high_loop]; split <;> simp only [h1, h2, h3, Nat.add_zero, Nat.mul_zero])
  | succ n ih =>
    intro t
    obtain ⟨h1, h2, h3⟩ := counts_digitalRead_scl bus s t
    by_cases hlow : (digitalRead bus s._scl_pin t).1 = LOW
    · obtain ⟨d, hd, e1, e2, e3, e4, _⟩ :=
        ih (delayMicroseconds 1 (digitalRead bus s._scl_pin t).2)
      obtain ⟨g1, g2, g3⟩ := counts_delay_one s (digitalRead bus s._scl_pin t).2
      have hstep : i2c_scl_high_loop bus s (n + 1) t =
          i2c_scl_high_loop bus s n (delayMicroseconds 1 (digitalRead bus s._scl_pin t).2) := by
        rw [i2c_scl_high_loop]
        simp only [hlow, if_true]
      refine ⟨d + 1, by omega, ?_, ?_, ?_, fun hall => ?_, fun hhigh => ?_⟩
      · rw [hstep, e1, g1, h1]; omega
      · rw [hstep, e2, g2, h2]; omega
      · rw [hstep, e3, g3, h3]; omega
      · rw [e4 hall]
      · have hl : bus t s._scl_pin = LOW := hlow
        rw [hl] at hhigh
        exact absurd hhigh (by decide)
    · have hstep : i2c_scl_high_loop bus s (n + 1) t = (digitalRead bus s._scl_pin t).2 := by
        rw [i2c_scl_high_loop]
        simp only [hlow, if_false]
      refine ⟨0, Nat.zero_le _, ?_, ?_, ?_, fun hall => ?_, fun _ => rfl⟩
      · rw [hstep, h1]; rfl
      · rw [hstep, h2]
      · rw [hstep, h3]
      · exact absurd (hall t) hlow

theorem length_i2c_delay (s : SoftWire_CH32) (t : Trace) :
    (i2c_delay s t).length = t.length + 1 := by
  simp [i2c_delay, delayMicroseconds]

theorem length_i2c_scl_high (bus : Bus) (s : SoftWire_CH32) (t : Trace) :
    (i2c_scl_high bus s t).length ≤ t.length + 2003 := by
  obtain ⟨d, hd, _, _, hl, _, _⟩ := i2c_scl_high_loop_counts bus s 1000
    (i2c_delay s (pinMode s._scl_pin PinMode.INPUT_PULLUP t))
  show (i2c_scl_high_loop bus s 1000
    (i2c_delay s (pinMode s._scl_pin PinMode.INPUT_PULLUP t))).length ≤ _
  rw [hl, length_i2c_delay]
  simp only [pinMode, List.length_cons]
  omega

theorem length_i2c_scl_low (s : SoftWire_CH32) (t : Trace) :
    (i2c_scl_low s t).length = t.length + 3 := by
  simp [i2c_scl_low, i2c_delay, delayMicroseconds, digitalWrite, pinMode]

theorem length_i2c_sda_high (s : SoftWire_CH32) (t : Trace) :
    (i2c_sda_high s t).length = t.length + 1 := by
  simp [i2c_sda_high, pinMode]

theorem length_i2c_sda_low (s : SoftWire_CH32) (t : Trace) :
    (i2c_sda_low s t).length = t.length + 2 := by
  simp [i2c_sda_low, digitalWrite, pinMode]

theorem length_i2c_start (bus : Bus) (s : SoftWire_CH32) (t : Trace) :
    (i2c_start bus s t).length ≤ t.length + 2011 := by
  unfold i2c_start
  have h := length_i2c_scl_high bus s (i2c_sda_high s t)
  simp only [length_i2c_scl_low, length_i2c_delay, length_i2c_sda_low, length_i2c_sda_high]
    at h ⊢
  omega

theorem length_i2c_stop (bus : Bus) (s : SoftWire_CH32) (t : Trace) :
    (i2c_stop bus s t).length ≤ t.length + 2009 := by
  unfold i2c_stop
  have h := length_i2c_scl_high bus s (i2c_delay s (i2c_sda_low s t))
  simp only [length_i2c_delay, length_i2c_sda_low, length_i2c_sda_high] at h ⊢
  omega

theorem length_i2c_write_bit (bus : Bus) (s : SoftWire_CH32) (bit : Bool) (t : Trace) :
    (i2c_write_bit bus s bit t).2.length ≤ t.length + 2009 := by
  unfold i2c_write_bit
  cases bit
  · have h := length_i2c_scl_high bus s (i2c_delay s (i2c_sda_low s t))
    simp only [length_i2c_scl_low, length_i2c_delay, length_i2c_sda_low, Bool.false_eq_true,
      if_false] at h ⊢
    omega
  · have h := length_i2c_scl_high bus s (i2c_delay s (i2c_sda_high s t))
    simp only [length_i2c_scl_low, length_i2c_delay, length_i2c_sda_high, if_true] at h ⊢
    omega

theorem length_i2c_read_bit (bus : Bus) (s : SoftWire_CH32) (t : Trace) :
    (i2c_read_bit bus s t).2.length ≤ t.length + 2009 := by
  unfold i2c_read_bit i2c_read_sda
  have h := length_i2c_scl_high bus s (i2c_delay s (i2c_sda_high s t))
  simp only [length_i2c_scl_low, length_i2c_delay, length_i2c_sda_high, digitalRead,
    List.length_cons] at h ⊢
  omega

theorem length_i2c_write_byte_loop (bus : Bus) (s : SoftWire_CH32) :
    ∀ (n byte : Nat) (t : Trace),
      (i2c_write_byte_loop bus s n byte t).length ≤ t.length + 2009 * n := by
  intro n
  induction n with
  | zero => intro byte t; exact Nat.le_refl _
  | succ n ih =>
    intro byte t
    rw [i2c_write_byte_loop]
    have h1 := length_i2c_write_bit bus s ((byte &&& 0x80) != 0) t
    have h2 := ih ((byte <<< 1) % 256) (i2c_write_bit bus s ((byte &&& 0x80) != 0) t).2
    omega

theorem length_i2c_write_byte (bus : Bus) (s : SoftWire_CH32) (byte : Nat) (t : Trace) :
    (i2c_write_byte bus s byte t).2.length ≤ t.length + 18081 := by
  show (i2c_read_bit bus s (i2c_write_byte_loop bus s 8 byte t)).2.length ≤ _
  have h1 := length_i2c_write_byte_loop bus s 8 byte t
  have h2 := length_i2c_read_bit bus s (i2c_write_byte_loop bus s 8 byte t)
  omega

theorem length_i2c_read_byte_loop (bus : Bus) (s : SoftWire_CH32) :
    ∀ (n byte : Nat) (t : Trace),
      (i2c_read_byte_loop bus s n byte t).2.length ≤ t.length + 2009 * n := by
  intro n
  induction n with
  | zero => intro byte t; exact Nat.le_refl _
  | succ n ih =>
    intro byte t
    rw [i2c_read_byte_loop]
    have h1 := length_i2c_read_bit bus s t
    have h2 := ih (((byte <<< 1) % 256) ||| (if (i2c_read_bit bus s t).1 then 1 else 0))
      (i2c_read_bit bus s t).2
    omega

theorem length_i2c_read_byte (bus : Bus) (s : SoftWire_CH32) (ack : Bool) (t : Trace) :
    (i2c_read_byte bus s ack t).2.length ≤ t.length + 18081 := by
  show (i2c_write_bit bus s (!ack) (i2c_read_byte_loop bus s 8 0 t).2).2.length ≤ _
  have h1 := length_i2c_read_byte_loop bus s 8 0 t
  have h2 := length_i2c_write_bit bus s (!ack) (i2c_read_byte_loop bus s 8 0 t).2
  omega

theorem length_stop_if (bus : Bus) (s : SoftWire_CH32) (sendStop : Bool) (t : Trace) :
    (if sendStop then i2c_stop bus s t else t).length ≤ t.length + 2009 := by
  cases sendStop
  · simp
  · exact length_i2c_stop bus s t

theorem length_endTransmission_loop (bus : Bus) (s : SoftWire_CH32) (sendStop : Bool) :
    ∀ (n i : Nat) (t : Trace),
      ((endTransmission_loop bus s sendStop n i t).1 = none →
        (endTransmission_loop bus s sendStop n i t).2.length ≤ t.length + 18081 * n) ∧
      (endTransmission_loop bus s sendStop n i t).2.length ≤ t.length + 18081 * n + 2009 := by
  intro n
  induction n with
  | zero => intro i t; exact ⟨fun _ => Nat.le_refl _, Nat.le_add_right _ _⟩
  | succ n ih =>
    intro i t
    rw [endTransmission_loop]
    have hw := length_i2c_write_byte bus s (s._tx_buffer.getD i 0) t
    cases h1 : (i2c_write_byte bus s (s._tx_buffer.getD i 0) t).1 with
    | false =>
      simp only [Bool.not_false, if_true]
      have hs := length_stop_if bus s sendStop (i2c_write_byte bus s (s._tx_buffer.getD i 0) t).2
      refine ⟨fun hnone => by simp at hnone, by omega⟩
    | true =>
      simp only [Bool.not_true, Bool.false_eq_true, if_false]
      obtain ⟨ha, hb⟩ := ih (i + 1) (i2c_write_byte bus s (s._tx_buffer.getD i 0) t).2
      exact ⟨fun hnone => by have := ha hnone; omega, by omega⟩

theorem length_requestFrom_loop (bus : Bus) (s : SoftWire_CH32) (quantity : Nat) :
    ∀ (n i : Nat) (rx_buffer : List Nat) (rx_buffer_length : Nat) (t : Trace),
      (requestFrom_loop bus s quantity n i rx_buffer rx_buffer_length t).2.2.length ≤
        t.length + 18081 * n := by
  intro n
  induction n with
  | zero => intro i rx_buffer rx_buffer_length t; exact Nat.le_refl _
  | succ n ih =>
    intro i rx_buffer rx_buffer_length t
    rw [requestFrom_loop]
    have h1 := length_i2c_read_byte bus s (decide ((i : Int) < (quantity : Int) - 1)) t
    have h2 := ih (i + 1)
      (rx_buffer.set i (i2c_read_byte bus s (decide ((i : Int) < (quantity : Int) - 1)) t).1)
      (rx_buffer_length + 1)
      (i2c_read_byte bus s (decide ((i : Int) < (quantity : Int) - 1)) t).2
    omega

theorem length_endTransmission (bus : Bus) (s : SoftWire_CH32) (sendStop : Bool) (t : Trace) :
    (endTransmission bus s sendStop t).2.length ≤
      t.length + 2011 + 18081 * (1 + s._tx_buffer_length) + 2009 := by
  have hs := length_i2c_start bus s t
  have hw := length_i2c_write_byte bus s (((s._tx_address <<< 1) ||| 0) % 256)
    (i2c_start bus s t)
  cases h1 : (i2c_write_byte bus s (((s._tx_address <<< 1) ||| 0) % 256)
      (i2c_start bus s t)).1 with
  | false =>
    unfold endTransmission
    simp only [h1, Bool.not_false, if_true]
    have h := length_stop_if bus s sendStop
      (i2c_write_byte bus s (((s._tx_address <<< 1) ||| 0) % 256) (i2c_start bus s t)).2
    omega
  | true =>
    unfold endTransmission
    simp only [h1, Bool.not_true, Bool.false_eq_true, if_false]
    obtain ⟨ha, hb⟩ := length_endTransmission_loop bus s sendStop s._tx_buffer_length 0
      (i2c_write_byte bus s (((s._tx_address <<< 1) ||| 0) % 256) (i2c_start bus s t)).2
    cases hloop : endTransmission_loop bus s sendStop s._tx_buffer_length 0
        (i2c_write_byte bus s (((s._tx_address <<< 1) ||| 0) % 256) (i2c_start bus s t)).2 with
    | mk status u =>
      rw [hloop] at ha hb
      cases status with
      | none =>
        have h := length_stop_if bus s sendStop u
        have := ha rfl
        simp only at this ⊢
        omega
      | some v =>
        simp only at hb ⊢
        omega

theorem length_requestFrom (bus : Bus) (s : SoftWire_CH32) (address quantity : Nat)
    (sendStop : Bool) (t : Trace) :
    (requestFrom bus s address quantity sendStop t).2.2.length ≤
      t.length + 2011 + 18081 * (1 + min quantity 32) + 2009 := by
  have hB : SOFTWIRE_CH32_BUFFER_LENGTH = 32 := rfl
  have hq : (if quantity > SOFTWIRE_CH32_BUFFER_LENGTH then SOFTWIRE_CH32_BUFFER_LENGTH
      else quantity) = min quantity 32 := by
    rw [hB]; split <;> omega
  have hs := length_i2c_start bus s t
  have hw := length_i2c_write_byte bus s (((address <<< 1) ||| 1) % 256) (i2c_start bus s t)
  cases h1 : (i2c_write_byte bus s (((address <<< 1) ||| 1) % 256) (i2c_start bus s t)).1 with
  | false =>
    unfold requestFrom
    simp only [h1, Bool.not_false, if_true]
    have h := length_stop_if bus s sendStop
      (i2c_write_byte bus s (((address <<< 1) ||| 1) % 256) (i2c_start bus s t)).2
    omega
  | true =>
    unfold requestFrom
    simp only [hq, h1, Bool.not_true, Bool.false_eq_true, if_false]
    have hl := length_requestFrom_loop bus s (min quantity 32) (min quantity 32) 0 s._rx_buffer 0
      (i2c_write_byte bus s (((address <<< 1) ||| 1) % 256) (i2c_start bus s t)).2
    have h := length_stop_if bus s sendStop
      (requestFrom_loop bus s (min quantity 32) (min quantity 32) 0 s._rx_buffer 0
        (i2c_write_byte bus s (((address <<< 1) ||| 1) % 256) (i2c_start bus s t)).2).2.2
    omega

theorem length_exists (bus : Bus) (s : SoftWire_CH32) (address : Nat) (t : Trace) :
    («exists» bus s address t).2.length ≤ t.length + 22101 := by
  show (i2c_stop bus s
    (i2c_write_byte bus s (((address <<< 1) ||| 0) % 256) (i2c_start bus s t)).2).length ≤ _
  have hs := length_i2c_start bus s t
  have hw := length_i2c_write_byte bus s (((address <<< 1) ||| 0) % 256) (i2c_start bus s t)
  have hp := length_i2c_stop bus s
    (i2c_write_byte bus s (((address <<< 1) ||| 0) % 256) (i2c_start bus s t)).2
  omega

/-- C18: the clock-stretching wait of `i2c_scl_high` (the loop entered with
`timeout = 1000` after SCL is released and one delay) ends for every bus: it
makes at most 1000 one-microsecond polling delays and one more sample of SCL
than delays, hence at most 1001 samples; exactly 1000 delays and 1001 samples
when SCL reads low at every sample, and no delay and one sample when SCL reads
high at the first sample. It yields nothing but the trace: no error is
reported. Hence `i2c_scl_high` makes at most 2003 external calls, and every
public operation makes a bounded number of external calls, whatever the bus
does. -/
theorem clock_stretch_wait_bounded (bus : Bus) (s : SoftWire_CH32) (t : Trace) :
    i2c_scl_high bus s t =
      i2c_scl_high_loop bus s 1000 (i2c_delay s (pinMode s._scl_pin PinMode.INPUT_PULLUP t)) ∧
    pollDelays (i2c_scl_high_loop bus s 1000 t) ≤ pollDelays t + 1000 ∧
    sclSamples s (i2c_scl_high_loop bus s 1000 t) =
      sclSamples s t + (pollDelays (i2c_scl_high_loop bus s 1000 t) - pollDelays t) + 1 ∧
    sclSamples s (i2c_scl_high_loop bus s 1000 t) ≤ sclSamples s t + 1001 ∧
    ((∀ u : Trace, bus u s._scl_pin = LOW) →
      pollDelays (i2c_scl_high_loop bus s 1000 t) = pollDelays t + 1000 ∧
      sclSamples s (i2c_scl_high_loop bus s 1000 t) = sclSamples s t + 1001) ∧
    (bus t s._scl_pin = HIGH →
      pollDelays (i2c_scl_high_loop bus s 1000 t) = pollDelays t ∧
      sclSamples s (i2c_scl_high_loop bus s 1000 t) = sclSamples s t + 1) ∧
    (i2c_scl_high bus s t).length ≤ t.length + 2003 ∧
    (∀ sda_pin scl_pin : Nat, (begin s sda_pin scl_pin t).2.length = t.length + 3) ∧
    («end» s t).length = t.length + 2 ∧
    (∀ sendStop : Bool, (endTransmission bus s sendStop t).2.length ≤
      t.length + 2011 + 18081 * (1 + s._tx_buffer_length) + 2009) ∧
    (∀ (address quantity : Nat) (sendStop : Bool),
      (requestFrom bus s address quantity sendStop t).2.2.length ≤
        t.length + 2011 + 18081 * (1 + min quantity 32) + 2009) ∧
    (∀ address : Nat, («exists» bus s address t).2.length ≤ t.length + 22101) := by
  obtain ⟨d, hd, e1, e2, _, e4, e5⟩ := i2c_scl_high_loop_counts bus s 1000 t
  refine ⟨rfl, by omega, by omega, by omega, fun hall => ?_, fun hhigh => ?_,
    length_i2c_scl_high bus s t, fun a b => ?_, ?_,
    fun sendStop => length_endTransmission bus s sendStop t,
    fun a q sendStop => length_requestFrom bus s a q sendStop t,
    fun a => length_exists bus s a t⟩
  · have := e4 hall
    omega
  · have := e5 hhigh
    omega
  · simp [begin, i2c_delay, delayMicroseconds, pinMode]
  · simp [«end», pinMode]

/-- Witness of C18: on a bus that holds SCL low forever the wait makes 1000
polling delays and 1001 samples of SCL, and returns. -/
theorem clock_stretch_wait_bounded_witness :
    (∀ u : Trace, stuckLowBus u engine01._scl_pin = LOW) ∧
    pollDelays (i2c_scl_high_loop stuckLowBus engine01 1000 []) = pollDelays [] + 1000 ∧
    sclSamples engine01 (i2c_scl_high_loop stuckLowBus engine01 1000 []) =
      sclSamples engine01 [] + 1001 :=
  ⟨fun _ => rfl,
   (clock_stretch_wait_bounded stuckLowBus engine01 []).2.2.2.2.1 (fun _ => rfl)⟩

/-! ## Line states: start and stop conditions -/

theorem line_i2c_delay (pin : Nat) (s : SoftWire_CH32) (t : Trace) :
    line pin (i2c_delay s t) = line pin t := rfl

theorem line_i2c_sda_high (pin : Nat) (s : SoftWire_CH32) (t : Trace) :
    line pin (i2c_sda_high s t) = if s._sda_pin = pin then Line.released else line pin t := rfl

theorem line_output_low (pin p : Nat) (t : Trace) :
    line pin (digitalWrite p LOW (pinMode p PinMode.OUTPUT t)) =
      if p = pin then Line.drivenLow else line pin t := by
  by_cases h : p = pin
  · simp [line, digitalWrite, pinMode, h]
  · simp [line, digitalWrite, pinMode, h]

theorem line_i2c_sda_low (pin : Nat) (s : SoftWire_CH32) (t : Trace) :
    line pin (i2c_sda_low s t) = if s._sda_pin = pin then Line.drivenLow else line pin t :=
  line_output_low pin s._sda_pin t

theorem line_i2c_scl_low (pin : Nat) (s : SoftWire_CH32) (t : Trace) :
    line pin (i2c_scl_low s t) = if s._scl_pin = pin then Line.drivenLow else line pin t :=
  line_output_low pin s._scl_pin t

theorem line_i2c_scl_high_loop (pin : Nat) (bus : Bus) (s : SoftWire_CH32) :
    ∀ (timeout : Nat) (t : Trace), line pin (i2c_scl_high_loop bus s timeout t) = line pin t := by
  intro timeout
  induction timeout with
  | zero =>
    intro t
    rw [i2c_scl_high_loop]
    split <;> rfl
  | succ n ih =>
    intro t
    rw [i2c_scl_high_loop]
    split
    · rw [ih]; rfl
    · rfl

theorem line_i2c_scl_high (pin : Nat) (bus : Bus) (s : SoftWire_CH32) (t : Trace) :
    line pin (i2c_scl_high bus s t) = if s._scl_pin = pin then Line.released else line pin t := by
  unfold i2c_scl_high
  rw [line_i2c_scl_high_loop, line_i2c_delay]
  rfl

/-- C19: from every prior trace, hence every prior state of the lines:
`i2c_start` first releases SDA and SCL, then pulls SDA low, then pulls SCL
low. Just before SDA is pulled low the master has both SDA and SCL released;
just after, SDA is driven low and (SDA and SCL being different pins) SCL is
still released; at the end both lines are driven low. `i2c_stop` first pulls
SDA low, then releases SCL, then releases SDA. Just before SDA is released the
master has SCL released and (on different pins) SDA driven low; just after,
both are released, and so they are at the end. -/
theorem start_stop_line_states (bus : Bus) (s : SoftWire_CH32) (t : Trace) :
    i2c_start bus s t =
      i2c_scl_low s (i2c_delay s (i2c_sda_low s
        (i2c_delay s (i2c_scl_high bus s (i2c_sda_high s t))))) ∧
    line s._sda_pin (i2c_delay s (i2c_scl_high bus s (i2c_sda_high s t))) = Line.released ∧
    line s._scl_pin (i2c_delay s (i2c_scl_high bus s (i2c_sda_high s t))) = Line.released ∧
    line s._sda_pin (i2c_sda_low s
      (i2c_delay s (i2c_scl_high bus s (i2c_sda_high s t)))) = Line.drivenLow ∧
    (s._sda_pin ≠ s._scl_pin →
      line s._scl_pin (i2c_sda_low s
        (i2c_delay s (i2c_scl_high bus s (i2c_sda_high s t)))) = Line.released) ∧
    line s._sda_pin (i2c_start bus s t) = Line.drivenLow ∧
    line s._scl_pin (i2c_start bus s t) = Line.drivenLow ∧
    i2c_stop bus s t =
      i2c_delay s (i2c_sda_high s
        (i2c_delay s (i2c_scl_high bus s (i2c_delay s (i2c_sda_low s t))))) ∧
    (s._sda_pin ≠ s._scl_pin →
      line s._sda_pin (i2c_delay s (i2c_scl_high bus s (i2c_delay s (i2c_sda_low s t)))) =
        Line.drivenLow) ∧
    line s._scl_pin (i2c_delay s (i2c_scl_high bus s (i2c_delay s (i2c_sda_low s t)))) =
      Line.released ∧
    line s._sda_pin (i2c_sda_high s
      (i2c_delay s (i2c_scl_high bus s (i2c_delay s (i2c_sda_low s t))))) = Line.released ∧
    line s._scl_pin (i2c_sda_high s
      (i2c_delay s (i2c_scl_high bus s (i2c_delay s (i2c_sda_low s t))))) = Line.released ∧
    line s._sda_pin (i2c_stop bus s t) = Line.released ∧
    line s._scl_pin (i2c_stop bus s t) = Line.released := by
  have hstop : ∀ pin : Nat, line pin (i2c_stop bus s t) = line pin (i2c_sda_high s
      (i2c_delay s (i2c_scl_high bus s (i2c_delay s (i2c_sda_low s t))))) := fun _ => rfl
  have hstart : ∀ pin : Nat, line pin (i2c_start bus s t) = line pin (i2c_scl_low s
      (i2c_delay s (i2c_sda_low s (i2c_delay s (i2c_scl_high bus s (i2c_sda_high s t)))))) :=
    fun _ => rfl
  refine ⟨rfl, ?_, ?_, ?_, fun hpins => ?_, ?_, ?_, rfl, fun hpins => ?_, ?_, ?_, ?_, ?_, ?_⟩
  · simp only [line_i2c_delay, line_i2c_scl_high, line_i2c_sda_high, if_true]
    split <;> rfl
  · simp only [line_i2c_delay, line_i2c_scl_high, if_true]
  · simp only [line_i2c_sda_low, if_true]
  · simp only [line_i2c_sda_low, line_i2c_delay, line_i2c_scl_high, if_neg hpins, if_true]
  · simp only [hstart, line_i2c_scl_low, line_i2c_delay, line_i2c_sda_low, if_true]
    split <;> rfl
  · simp only [hstart, line_i2c_scl_low, if_true]
  · simp only [line_i2c_delay, line_i2c_scl_high, line_i2c_sda_low, if_neg (Ne.symm hpins),
      if_true]
  · simp only [line_i2c_delay, line_i2c_scl_high, if_true]
  · simp only [line_i2c_sda_high, if_true]
  · simp only [line_i2c_sda_high, line_i2c_delay, line_i2c_scl_high, if_true]
    split <;> rfl
  · simp only [hstop, line_i2c_sda_high, if_true]
  · simp only [hstop, line_i2c_sda_high, line_i2c_delay, line_i2c_scl_high, if_true]
    split <;> rfl

/-- Witness of C19: the engine `engine01` (SDA on pin 0, SCL on pin 1), from
the empty trace. -/
theorem start_stop_line_states_witness :
    engine01._sda_pin ≠ engine01._scl_pin ∧
    line engine01._scl_pin (i2c_sda_low engine01
      (i2c_delay engine01 (i2c_scl_high ackBus engine01 (i2c_sda_high engine01 [])))) =
        Line.released ∧
    line engine01._sda_pin (i2c_delay engine01 (i2c_scl_high ackBus engine01
      (i2c_delay engine01 (i2c_sda_low engine01 [])))) = Line.drivenLow :=
  ⟨by decide,
   (start_stop_line_states ackBus engine01 []).2.2.2.2.1 (by decide),
   (start_stop_line_states ackBus engine01 []).2.2.2.2.2.2.2.2.1 (by decide)⟩

/-! ## Bit-level round trip -/

theorem assembleFrom_bitsMSB : ∀ b : Nat, b < 256 → assembleFrom 0 (bitsMSB b) = b := by
  decide

theorem bitsMSB_assembleFrom : ∀ b0 b1 b2 b3 b4 b5 b6 b7 : Bool,
    bitsMSB (assembleFrom 0 [b0, b1, b2, b3, b4, b5, b6, b7]) =
      [b0, b1, b2, b3, b4, b5, b6, b7] ∧
    assembleFrom 0 [b0, b1, b2, b3, b4, b5, b6, b7] < 256 := by
  decide

theorem levelOf_injective : ∀ xs ys : List Bool, xs.map levelOf = ys.map levelOf → xs = ys := by
  intro xs
  induction xs with
  | nil =>
    intro ys h
    cases ys with
    | nil => rfl
    | cons y ys => simp at h
  | cons x xs ih =>
    intro ys h
    cases ys with
    | nil => simp at h
    | cons y ys =>
      simp only [List.map_cons, List.cons.injEq] at h
      have hxy : x = y := by
        cases x <;> cases y <;> simp [levelOf] at h ⊢
      rw [hxy, ih ys h.2]

theorem sdaAtClocks_i2c_scl_high_loop (bus : Bus) (s : SoftWire_CH32) :
    ∀ (timeout : Nat) (t : Trace),
      sdaAtClocks s (i2c_scl_high_loop bus s timeout t) = sdaAtClocks s t := by
  intro timeout
  induction timeout with
  | zero =>
    intro t
    rw [i2c_scl_high_loop]
    split <;> rfl
  | succ n ih =>
    intro t
    rw [i2c_scl_high_loop]
    split
    · rw [ih]; rfl
    · rfl

theorem sdaAtClocks_i2c_scl_high (bus : Bus) (s : SoftWire_CH32) (t : Trace) :
    sdaAtClocks s (i2c_scl_high bus s t) = sdaAtClocks s t ++ [line s._sda_pin t] := by
  unfold i2c_scl_high
  rw [sdaAtClocks_i2c_scl_high_loop]
  simp [i2c_delay, delayMicroseconds, pinMode, sdaAtClocks]

theorem sdaAtClocks_i2c_scl_low (s : SoftWire_CH32) (t : Trace) :
    sdaAtClocks s (i2c_scl_low s t) = sdaAtClocks s t := by
  simp [i2c_scl_low, i2c_delay, delayMicroseconds, digitalWrite, pinMode, sdaAtClocks]

theorem sdaAtClocks_i2c_sda_high (s : SoftWire_CH32) (hpins : s._sda_pin ≠ s._scl_pin)
    (t : Trace) : sdaAtClocks s (i2c_sda_high s t) = sdaAtClocks s t := by
  simp [i2c_sda_high, pinMode, sdaAtClocks, hpins]

theorem sdaAtClocks_i2c_sda_low (s : SoftWire_CH32) (t : Trace) :
    sdaAtClocks s (i2c_sda_low s t) = sdaAtClocks s t := by
  simp [i2c_sda_low, digitalWrite, pinMode, sdaAtClocks]

theorem sdaAtClocks_i2c_write_bit (bus : Bus) (s : SoftWire_CH32)
    (hpins : s._sda_pin ≠ s._scl_pin) (bit : Bool) (t : Trace) :
    sdaAtClocks s (i2c_write_bit bus s bit t).2 = sdaAtClocks s t ++ [levelOf bit] := by
  unfold i2c_write_bit
  cases bit
  · simp only [Bool.false_eq_true, if_false, sdaAtClocks_i2c_scl_low, sdaAtClocks_i2c_scl_high,
      line_i2c_delay, line_i2c_sda_low, if_true, levelOf]
    rw [show sdaAtClocks s (i2c_delay s (i2c_sda_low s t)) = sdaAtClocks s (i2c_sda_low s t)
      from rfl, sdaAtClocks_i2c_sda_low]
  · simp only [if_true, sdaAtClocks_i2c_scl_low, sdaAtClocks_i2c_scl_high,
      line_i2c_delay, line_i2c_sda_high, levelOf]
    rw [show sdaAtClocks s (i2c_delay s (i2c_sda_high s t)) = sdaAtClocks s (i2c_sda_high s t)
      from rfl, sdaAtClocks_i2c_sda_high s hpins]

theorem sdaAtClocks_i2c_read_bit (bus : Bus) (s : SoftWire_CH32)
    (hpins : s._sda_pin ≠ s._scl_pin) (t : Trace) :
    sdaAtClocks s (i2c_read_bit bus s t).2 = sdaAtClocks s t ++ [Line.released] := by
  unfold i2c_read_bit i2c_read_sda
  simp only [sdaAtClocks_i2c_scl_low]
  rw [show sdaAtClocks s (digitalRead bus s._sda_pin
      (i2c_scl_high bus s (i2c_delay s (i2c_sda_high s t)))).2 =
      sdaAtClocks s (i2c_scl_high bus s (i2c_delay s (i2c_sda_high s t))) from rfl,
    sdaAtClocks_i2c_scl_high, line_i2c_delay, line_i2c_sda_high, if_pos rfl,
    show sdaAtClocks s (i2c_delay s (i2c_sda_high s t)) = sdaAtClocks s (i2c_sda_high s t)
      from rfl, sdaAtClocks_i2c_sda_high s hpins]

theorem sdaAtClocks_writeBits (bus : Bus) (s : SoftWire_CH32)
    (hpins : s._sda_pin ≠ s._scl_pin) :
    ∀ (bits : List Bool) (t : Trace),
      sdaAtClocks s (writeBits bus s bits t) = sdaAtClocks s t ++ bits.map levelOf := by
  intro bits
  induction bits with
  | nil => intro t; simp [writeBits]
  | cons bit bits ih =>
    intro t
    rw [writeBits, ih, sdaAtClocks_i2c_write_bit bus s hpins]
    simp

theorem sdaReads_i2c_scl_high_loop (bus : Bus) (s : SoftWire_CH32)
    (hpins : s._sda_pin ≠ s._scl_pin) :
    ∀ (timeout : Nat) (t : Trace),
      sdaReads s (i2c_scl_high_loop bus s timeout t) = sdaReads s t := by
  have hr : ∀ t : Trace, sdaReads s (digitalRead bus s._scl_pin t).2 = sdaReads s t := by
    intro t
    simp [digitalRead, sdaReads, Ne.symm hpins]
  intro timeout
  induction timeout with
  | zero =>
    intro t
    rw [i2c_scl_high_loop]
    split <;> exact hr t
  | succ n ih =>
    intro t
    rw [i2c_scl_high_loop]
    split
    · rw [ih]; exact hr t
    · exact hr t

theorem sdaReads_i2c_scl_high (bus : Bus) (s : SoftWire_CH32)
    (hpins : s._sda_pin ≠ s._scl_pin) (t : Trace) :
    sdaReads s (i2c_scl_high bus s t) = sdaReads s t := by
  unfold i2c_scl_high
  rw [sdaReads_i2c_scl_high_loop bus s hpins]
  rfl

theorem sdaReads_i2c_write_bit (bus : Bus) (s : SoftWire_CH32)
    (hpins : s._sda_pin ≠ s._scl_pin) (bit : Bool) (t : Trace) :
    sdaReads s (i2c_write_bit bus s bit t).2 = sdaReads s t := by
  unfold i2c_write_bit
  show sdaReads s (i2c_scl_high bus s _) = _
  rw [sdaReads_i2c_scl_high bus s hpins]
  cases bit <;> rfl

theorem sdaReads_i2c_read_bit (bus : Bus) (s : SoftWire_CH32)
    (hpins : s._sda_pin ≠ s._scl_pin) (t : Trace) :
    sdaReads s (i2c_read_bit bus s t).2 = sdaReads s t ++ [(i2c_read_bit bus s t).1] := by
  unfold i2c_read_bit i2c_read_sda
  show sdaReads s (digitalRead bus s._sda_pin
    (i2c_scl_high bus s (i2c_delay s (i2c_sda_high s t)))).2 = _
  simp only [digitalRead, sdaReads, if_true]
  rw [sdaReads_i2c_scl_high bus s hpins]
  rfl

/-- The loop of `i2c_read_byte` samples SDA `n` times and accumulates the
samples, first sample first. -/
theorem i2c_read_byte_loop_samples (bus : Bus) (s : SoftWire_CH32)
    (hpins : s._sda_pin ≠ s._scl_pin) :
    ∀ (n acc : Nat) (t : Trace), ∃ samples : List Bool, samples.length = n ∧
      sdaReads s (i2c_read_byte_loop bus s n acc t).2 = sdaReads s t ++ samples ∧
      ∀ a : Nat, (i2c_read_byte_loop bus s n a t).1 = assembleFrom a samples := by
  intro n
  induction n with
  | zero =>
    intro acc t
    exact ⟨[], rfl, by simp [i2c_read_byte_loop], fun a => rfl⟩
  | succ n ih =>
    intro acc t
    obtain ⟨samples, hlen, hreads, hval⟩ := ih
      (((acc <<< 1) % 256) ||| (if (i2c_read_bit bus s t).1 then 1 else 0))
      (i2c_read_bit bus s t).2
    refine ⟨(i2c_read_bit bus s t).1 :: samples, by simp [hlen], ?_, fun a => ?_⟩
    · rw [i2c_read_byte_loop, hreads, sdaReads_i2c_read_bit bus s hpins]
      simp
    · rw [i2c_read_byte_loop, hval]
      rfl

theorem length_eight (samples : List Bool) (h : samples.length = 8) :
    ∃ b0 b1 b2 b3 b4 b5 b6 b7 : Bool, samples = [b0, b1, b2, b3, b4, b5, b6, b7] := by
  match samples, h with
  | [b0, b1, b2, b3, b4, b5, b6, b7], _ => exact ⟨b0, b1, b2, b3, b4, b5, b6, b7, rfl⟩

/-- What `i2c_read_byte` samples and returns, on distinct pins: it samples SDA
eight times, and the byte returned has the first sample as bit 7 and the last
as bit 0. -/
theorem i2c_read_byte_samples (bus : Bus) (s : SoftWire_CH32)
    (hpins : s._sda_pin ≠ s._scl_pin) (ack : Bool) (t : Trace) :
    ∃ samples : List Bool, samples.length = 8 ∧
      sdaReads s (i2c_read_byte bus s ack t).2 = sdaReads s t ++ samples ∧
      bitsMSB (i2c_read_byte bus s ack t).1 = samples ∧
      (i2c_read_byte bus s ack t).1 < 256 := by
  obtain ⟨samples, hlen, hreads, hval⟩ := i2c_read_byte_loop_samples bus s hpins 8 0 t
  obtain ⟨b0, b1, b2, b3, b4, b5, b6, b7, rfl⟩ := length_eight samples hlen
  have hres : (i2c_read_byte bus s ack t).1 = assembleFrom 0 [b0, b1, b2, b3, b4, b5, b6, b7] :=
    hval 0
  have htr : sdaReads s (i2c_read_byte bus s ack t).2 =
      sdaReads s (i2c_read_byte_loop bus s 8 0 t).2 :=
    sdaReads_i2c_write_bit bus s hpins (!ack) _
  refine ⟨_, hlen, by rw [htr, hreads], ?_, ?_⟩
  · rw [hres]; exact (bitsMSB_assembleFrom b0 b1 b2 b3 b4 b5 b6 b7).1
  · rw [hres]; exact (bitsMSB_assembleFrom b0 b1 b2 b3 b4 b5 b6 b7).2

/-- What `i2c_write_byte` presents on SDA at its nine clocks, on distinct
pins: the eight bits of the byte, bit 7 first, then the released line of the
acknowledge clock. -/
theorem sdaAtClocks_i2c_write_byte (bus : Bus) (s : SoftWire_CH32)
    (hpins : s._sda_pin ≠ s._scl_pin) (byte : Nat) (t : Trace) :
    sdaAtClocks s (i2c_write_byte bus s byte t).2 =
      sdaAtClocks s t ++ (bitsMSB byte).map levelOf ++ [Line.released] := by
  rw [i2c_write_byte_msb, sdaAtClocks_i2c_read_bit bus s hpins,
    sdaAtClocks_writeBits bus s hpins]

theorem readBits_length (bus : Bus) (s : SoftWire_CH32) :
    ∀ (n : Nat) (t : Trace), (readBits bus s n t).length = n := by
  intro n
  induction n with
  | zero => intro t; rfl
  | succ n ih => intro t; simp [readBits, ih]

/-- The loop of `i2c_read_byte` accumulates the levels returned by its calls
of `i2c_read_bit`, first call first. -/
theorem i2c_read_byte_loop_readBits (bus : Bus) (s : SoftWire_CH32) :
    ∀ (n acc : Nat) (t : Trace),
      (i2c_read_byte_loop bus s n acc t).1 = assembleFrom acc (readBits bus s n t) := by
  intro n
  induction n with
  | zero => intro acc t; rfl
  | succ n ih =>
    intro acc t
    rw [i2c_read_byte_loop, ih]
    rfl

theorem i2c_read_byte_readBits (bus : Bus) (s : SoftWire_CH32) (ack : Bool) (t : Trace) :
    (i2c_read_byte bus s ack t).1 = assembleFrom 0 (readBits bus s 8 t) ∧
    bitsMSB (i2c_read_byte bus s ack t).1 = readBits bus s 8 t ∧
    (i2c_read_byte bus s ack t).1 < 256 := by
  have hres : (i2c_read_byte bus s ack t).1 = assembleFrom 0 (readBits bus s 8 t) :=
    i2c_read_byte_loop_readBits bus s 8 0 t
  obtain ⟨b0, b1, b2, b3, b4, b5, b6, b7, h8⟩ :=
    length_eight (readBits bus s 8 t) (readBits_length bus s 8 t)
  rw [hres, h8]
  exact ⟨rfl, (bitsMSB_assembleFrom b0 b1 b2 b3 b4 b5 b6 b7).1,
    (bitsMSB_assembleFrom b0 b1 b2 b3 b4 b5 b6 b7).2⟩

/-- C17: bit-level round trip. For every byte `b < 256`, `i2c_write_byte(b)`
writes the bits of `b` with bit 7 first, and `i2c_read_byte` returns the byte
whose bit 7 is the first level it samples and whose bit 0 is the last; hence,
if the eight levels sampled by `i2c_read_byte` are the eight bits written by
`i2c_write_byte(b)`, in the same order, `i2c_read_byte` returns `b`, for either
value of `ack`. In the trace, SDA and SCL being different pins:
`i2c_write_byte(b)` presents on SDA, at its eight data clocks, the bits of `b`
with bit 7 first (released for 1, driven low for 0), then a released line at
the acknowledge clock; `i2c_read_byte` samples SDA eight times; and if the
levels presented at the eight data clocks are, in the same order, the eight
samples, then `i2c_read_byte` returns `b`. -/
theorem write_read_round_trip (busW busR : Bus) (s : SoftWire_CH32) (b : Nat) (ack : Bool)
    (t u : Trace) (hb : b < 256) :
    i2c_write_byte_loop busW s 8 b t = writeBits busW s (bitsMSB b) t ∧
    (bitsMSB b).head? = some (b.testBit 7) ∧
    bitsMSB (i2c_read_byte busR s ack u).1 = readBits busR s 8 u ∧
    (readBits busR s 8 u).head? = some ((i2c_read_byte busR s ack u).1.testBit 7) ∧
    (readBits busR s 8 u = bitsMSB b → (i2c_read_byte busR s ack u).1 = b) ∧
    (s._sda_pin ≠ s._scl_pin →
      sdaAtClocks s (i2c_write_byte busW s b t).2 =
        sdaAtClocks s t ++ (bitsMSB b).map levelOf ++ [Line.released] ∧
      sdaReads s (i2c_read_byte busR s ack u).2 = sdaReads s u ++ readBits busR s 8 u ∧
      (∀ (levels : List Line) (samples : List Bool),
        sdaAtClocks s (i2c_write_byte busW s b t).2 =
          sdaAtClocks s t ++ levels ++ [Line.released] →
        sdaReads s (i2c_read_byte busR s ack u).2 = sdaReads s u ++ samples →
        samples.map levelOf = levels →
        (i2c_read_byte busR s ack u).1 = b)) := by
  obtain ⟨_, hbits, hlt⟩ := i2c_read_byte_readBits busR s ack u
  have hround : ∀ samples : List Bool, bitsMSB (i2c_read_byte busR s ack u).1 = samples →
      samples = bitsMSB b → (i2c_read_byte busR s ack u).1 = b := by
    intro samples h1 h2
    rw [← assembleFrom_bitsMSB _ hlt, h1, h2, assembleFrom_bitsMSB b hb]
  refine ⟨i2c_write_byte_loop_msb busW s b t, rfl, hbits, by rw [← hbits]; rfl,
    fun h => hround _ hbits h, fun hpins => ?_⟩
  have hW := sdaAtClocks_i2c_write_byte busW s hpins b t
  obtain ⟨samples0, _, hreads0, hbits0, _⟩ := i2c_read_byte_samples busR s hpins ack u
  have hs0 : samples0 = readBits busR s 8 u := hbits0.symm.trans hbits
  refine ⟨hW, by rw [hreads0, hs0], ?_⟩
  intro levels samples hlev hsam hecho
  rw [hW] at hlev
  have h1 : (bitsMSB b).map levelOf = levels :=
    List.append_cancel_left (List.append_cancel_right hlev)
  rw [hreads0] at hsam
  have h2 : samples0 = samples := List.append_cancel_left hsam
  have h3 : samples = bitsMSB b := levelOf_injective _ _ (hecho.trans h1.symm)
  exact hround samples0 hbits0 (h2.trans h3)

/-- Witness of C17: the byte 0xA5 on the engine `engine01`, whose pins are
distinct, written and then read back on the loopback bus. -/
theorem write_read_round_trip_witness :
    ((0xA5 : Nat) < 256 ∧ engine01._sda_pin ≠ engine01._scl_pin ∧
      readBits loopbackBus engine01 8 (i2c_write_byte loopbackBus engine01 0xA5 []).2 =
        bitsMSB 0xA5 ∧
      sdaAtClocks engine01 (i2c_write_byte loopbackBus engine01 0xA5 []).2 =
        sdaAtClocks engine01 [] ++ (bitsMSB 0xA5).map levelOf ++ [Line.released] ∧
      sdaReads engine01 (i2c_read_byte loopbackBus engine01 true
          (i2c_write_byte loopbackBus engine01 0xA5 []).2).2 =
        sdaReads engine01 (i2c_write_byte loopbackBus engine01 0xA5 []).2 ++ bitsMSB 0xA5) ∧
    (i2c_read_byte loopbackBus engine01 true
      (i2c_write_byte loopbackBus engine01 0xA5 []).2).1 = 0xA5 ∧
    (i2c_read_byte loopbackBus engine01 false
      (i2c_write_byte loopbackBus engine01 0xA5 []).2).1 = 0xA5 :=
  ⟨by decide,
   ((write_read_round_trip loopbackBus loopbackBus engine01 0xA5 true []
      (i2c_write_byte loopbackBus engine01 0xA5 []).2 (by decide)).2.2.2.2.2 (by decide)).2.2
      ((bitsMSB 0xA5).map levelOf) (bitsMSB 0xA5) (by decide) (by decide) rfl,
   (write_read_round_trip loopbackBus loopbackBus engine01 0xA5 false []
      (i2c_write_byte loopbackBus engine01 0xA5 []).2 (by decide)).2.2.2.2.1 (by decide)⟩

/-! ## The address byte -/

theorem i2c_delay_congr (s1 s2 : SoftWire_CH32) (h : SameWiring s1 s2) (t : Trace) :
    i2c_delay s1 t = i2c_delay s2 t := by
  unfold i2c_delay; rw [h.2.2]

theorem i2c_sda_high_congr (s1 s2 : SoftWire_CH32) (h : SameWiring s1 s2) (t : Trace) :
    i2c_sda_high s1 t = i2c_sda_high s2 t := by
  unfold i2c_sda_high; rw [h.1]

theorem i2c_sda_low_congr (s1 s2 : SoftWire_CH32) (h : SameWiring s1 s2) (t : Trace) :
    i2c_sda_low s1 t = i2c_sda_low s2 t := by
  unfold i2c_sda_low; rw [h.1]

theorem i2c_scl_high_loop_congr (bus : Bus) (s1 s2 : SoftWire_CH32) (h : SameWiring s1 s2) :
    ∀ (timeout : Nat) (t : Trace),
      i2c_scl_high_loop bus s1 timeout t = i2c_scl_high_loop bus s2 timeout t := by
  intro timeout
  induction timeout with
  | zero =>
    intro t
    rw [i2c_scl_high_loop, i2c_scl_high_loop, h.2.1]
  | succ n ih =>
    intro t
    rw [i2c_scl_high_loop, i2c_scl_high_loop, h.2.1]
    simp only [ih]

theorem i2c_scl_high_congr (bus : Bus) (s1 s2 : SoftWire_CH32) (h : SameWiring s1 s2)
    (t : Trace) : i2c_scl_high bus s1 t = i2c_scl_high bus s2 t := by
  unfold i2c_scl_high
  rw [i2c_scl_high_loop_congr bus s1 s2 h, i2c_delay_congr s1 s2 h, h.2.1]

theorem i2c_scl_low_congr (s1 s2 : SoftWire_CH32) (h : SameWiring s1 s2) (t : Trace) :
    i2c_scl_low s1 t = i2c_scl_low s2 t := by
  unfold i2c_scl_low
  rw [i2c_delay_congr s1 s2 h, h.2.1]

theorem i2c_start_congr (bus : Bus) (s1 s2 : SoftWire_CH32) (h : SameWiring s1 s2)
    (t : Trace) : i2c_start bus s1 t = i2c_start bus s2 t := by
  unfold i2c_start
  simp only [i2c_scl_low_congr s1 s2 h, i2c_delay_congr s1 s2 h, i2c_sda_low_congr s1 s2 h,
    i2c_scl_high_congr bus s1 s2 h, i2c_sda_high_congr s1 s2 h]

theorem i2c_stop_congr (bus : Bus) (s1 s2 : SoftWire_CH32) (h : SameWiring s1 s2)
    (t : Trace) : i2c_stop bus s1 t = i2c_stop bus s2 t := by
  unfold i2c_stop
  simp only [i2c_delay_congr s1 s2 h, i2c_sda_low_congr s1 s2 h,
    i2c_scl_high_congr bus s1 s2 h, i2c_sda_high_congr s1 s2 h]

theorem i2c_write_bit_congr (bus : Bus) (s1 s2 : SoftWire_CH32) (h : SameWiring s1 s2)
    (bit : Bool) (t : Trace) : i2c_write_bit bus s1 bit t = i2c_write_bit bus s2 bit t := by
  unfold i2c_write_bit
  simp only [i2c_scl_low_congr s1 s2 h, i2c_delay_congr s1 s2 h, i2c_sda_low_congr s1 s2 h,
    i2c_scl_high_congr bus s1 s2 h, i2c_sda_high_congr s1 s2 h]

theorem i2c_read_bit_congr (bus : Bus) (s1 s2 : SoftWire_CH32) (h : SameWiring s1 s2)
    (t : Trace) : i2c_read_bit bus s1 t = i2c_read_bit bus s2 t := by
  unfold i2c_read_bit i2c_read_sda
  simp only [i2c_scl_low_congr s1 s2 h, i2c_delay_congr s1 s2 h,
    i2c_scl_high_congr bus s1 s2 h, i2c_sda_high_congr s1 s2 h, h.1]

theorem i2c_write_byte_loop_congr (bus : Bus) (s1 s2 : SoftWire_CH32) (h : SameWiring s1 s2) :
    ∀ (n byte : Nat) (t : Trace),
      i2c_write_byte_loop bus s1 n byte t = i2c_write_byte_loop bus s2 n byte t := by
  intro n
  induction n with
  | zero => intro byte t; rfl
  | succ n ih =>
    intro byte t
    rw [i2c_write_byte_loop, i2c_write_byte_loop, i2c_write_bit_congr bus s1 s2 h, ih]

theorem i2c_write_byte_congr (bus : Bus) (s1 s2 : SoftWire_CH32) (h : SameWiring s1 s2)
    (byte : Nat) (t : Trace) : i2c_write_byte bus s1 byte t = i2c_write_byte bus s2 byte t := by
  unfold i2c_write_byte
  simp only [i2c_write_byte_loop_congr bus s1 s2 h, i2c_read_bit_congr bus s1 s2 h]

theorem endTransmission_loop_congr (bus : Bus) (s1 s2 : SoftWire_CH32) (h : SameWiring s1 s2)
    (hbuf : s1._tx_buffer = s2._tx_buffer) (sendStop : Bool) :
    ∀ (n i : Nat) (t : Trace),
      endTransmission_loop bus s1 sendStop n i t = endTransmission_loop bus s2 sendStop n i t := by
  intro n
  induction n with
  | zero => intro i t; rfl
  | succ n ih =>
    intro i t
    rw [endTransmission_loop, endTransmission_loop, hbuf]
    simp only [i2c_write_byte_congr bus s1 s2 h, i2c_stop_congr bus s1 s2 h, ih]

/-- `endTransmission` on two objects wired alike, with the same transmit
buffer and length, and whose addresses give the same address byte. -/
theorem endTransmission_congr (bus : Bus) (s1 s2 : SoftWire_CH32) (h : SameWiring s1 s2)
    (hbuf : s1._tx_buffer = s2._tx_buffer)
    (hlen : s1._tx_buffer_length = s2._tx_buffer_length)
    (haddr : (2 * s1._tx_address) % 256 = (2 * s2._tx_address) % 256)
    (sendStop : Bool) (t : Trace) :
    endTransmission bus s1 sendStop t = endTransmission bus s2 sendStop t := by
  unfold endTransmission
  simp only [addr_write_byte, haddr, hlen, i2c_start_congr bus s1 s2 h,
    i2c_write_byte_congr bus s1 s2 h, i2c_stop_congr bus s1 s2 h,
    endTransmission_loop_congr bus s1 s2 h hbuf]

theorem write_with_address (s : SoftWire_CH32) (x d : Nat) :
    write { s with _tx_address := x } d =
      ((write s d).1, { (write s d).2 with _tx_address := x }) := by
  unfold write
  split <;> rfl

theorem queue_with_address (data : List Nat) :
    ∀ (s : SoftWire_CH32) (x : Nat),
      queue { s with _tx_address := x } data = { queue s data with _tx_address := x } := by
  induction data with
  | nil => intro s x; rfl
  | cons d ds ih =>
    intro s x
    show queue (write { s with _tx_address := x } d).2 ds = _
    rw [write_with_address]
    exact ih (write s d).2 x

theorem endTransmission_loop_ops (bus : Bus) (s : SoftWire_CH32) (sendStop : Bool) :
    ∀ (n i : Nat) (t : Trace), ∃ bytes : List Nat, ∃ stop : List BusOp,
      (endTransmission_loop bus s sendStop n i t).2 =
        runOps bus s (bytes.map BusOp.writeByte ++ stop) t ∧
      ((endTransmission_loop bus s sendStop n i t).1 = none → stop = []) := by
  intro n
  induction n with
  | zero => intro i t; exact ⟨[], [], rfl, fun _ => rfl⟩
  | succ n ih =>
    intro i t
    rw [endTransmission_loop]
    cases h1 : (i2c_write_byte bus s (s._tx_buffer.getD i 0) t).1 with
    | false =>
      refine ⟨[s._tx_buffer.getD i 0], stopIf sendStop, ?_, fun hnone => ?_⟩
      · simp only [Bool.not_false, if_true, List.map_cons, List.map_nil, runOps_append,
          runOps_stopIf]
        simp only [runOps]
      · simp at hnone
    | true =>
      obtain ⟨bytes, stop, hb, hs⟩ := ih (i + 1) (i2c_write_byte bus s (s._tx_buffer.getD i 0) t).2
      refine ⟨s._tx_buffer.getD i 0 :: bytes, stop, ?_, ?_⟩
      · simp only [Bool.not_true, Bool.false_eq_true, if_false, hb, List.map_cons,
          runOps_append]
        simp only [runOps]
      · simpa only [Bool.not_true, Bool.false_eq_true, if_false] using hs

theorem requestFrom_loop_ops (bus : Bus) (s : SoftWire_CH32) (quantity : Nat) :
    ∀ (n i : Nat) (rx_buffer : List Nat) (rx_buffer_length : Nat) (t : Trace),
      ∃ acks : List Bool,
        (requestFrom_loop bus s quantity n i rx_buffer rx_buffer_length t).2.2 =
          runOps bus s (acks.map BusOp.readByte) t := by
  intro n
  induction n with
  | zero => intro i rx_buffer rx_buffer_length t; exact ⟨[], rfl⟩
  | succ n ih =>
    intro i rx_buffer rx_buffer_length t
    rw [requestFrom_loop]
    obtain ⟨acks, ha⟩ := ih (i + 1)
      (rx_buffer.set i (i2c_read_byte bus s (decide ((i : Int) < (quantity : Int) - 1)) t).1)
      (rx_buffer_length + 1)
      (i2c_read_byte bus s (decide ((i : Int) < (quantity : Int) - 1)) t).2
    exact ⟨decide ((i : Int) < (quantity : Int) - 1) :: acks, by
      rw [ha]; simp only [List.map_cons, runOps]⟩

theorem endTransmission_ops (bus : Bus) (s : SoftWire_CH32) (sendStop : Bool) (t : Trace) :
    ∃ ops : List BusOp, (endTransmission bus s sendStop t).2 =
      runOps bus s
        ([BusOp.start, BusOp.writeByte ((2 * s._tx_address) % 256)] ++ ops) t := by
  cases h1 : (i2c_write_byte bus s ((2 * s._tx_address) % 256) (i2c_start bus s t)).1 with
  | false =>
    refine ⟨stopIf sendStop, ?_⟩
    unfold endTransmission
    simp only [addr_write_byte, h1, Bool.not_false, if_true, runOps_append, runOps_stopIf]
    simp only [runOps]
  | true =>
    obtain ⟨bytes, stop, hb, hs⟩ := endTransmission_loop_ops bus s sendStop s._tx_buffer_length 0
      (i2c_write_byte bus s ((2 * s._tx_address) % 256) (i2c_start bus s t)).2
    cases hloop : endTransmission_loop bus s sendStop s._tx_buffer_length 0
        (i2c_write_byte bus s ((2 * s._tx_address) % 256) (i2c_start bus s t)).2 with
    | mk status u =>
      rw [hloop] at hb hs
      cases status with
      | none =>
        refine ⟨bytes.map BusOp.writeByte ++ stopIf sendStop, ?_⟩
        have hstop : stop = [] := hs rfl
        rw [hstop, List.append_nil] at hb
        unfold endTransmission
        simp only [addr_write_byte, h1, Bool.not_true, Bool.false_eq_true, if_false, hloop,
          runOps_append, runOps_stopIf]
        simp only [runOps]
        simp only at hb
        rw [hb]
      | some v =>
        refine ⟨bytes.map BusOp.writeByte ++ stop, ?_⟩
        unfold endTransmission
        simp only [addr_write_byte, h1, Bool.not_true, Bool.false_eq_true, if_false, hloop,
          runOps_append]
        simp only [runOps]
        simp only [runOps_append] at hb
        exact hb

theorem requestFrom_ops (bus : Bus) (s : SoftWire_CH32) (address quantity : Nat)
    (sendStop : Bool) (t : Trace) :
    ∃ ops : List BusOp, (requestFrom bus s address quantity sendStop t).2.2 =
      runOps bus s ([BusOp.start, BusOp.writeByte ((2 * address + 1) % 256)] ++ ops) t := by
  cases h1 : (i2c_write_byte bus s ((2 * address + 1) % 256) (i2c_start bus s t)).1 with
  | false =>
    refine ⟨stopIf sendStop, ?_⟩
    unfold requestFrom
    simp only [addr_read_byte, h1, Bool.not_false, if_true, runOps_append, runOps_stopIf]
    simp only [runOps]
  | true =>
    obtain ⟨acks, ha⟩ := requestFrom_loop_ops bus s
      (if quantity > SOFTWIRE_CH32_BUFFER_LENGTH then SOFTWIRE_CH32_BUFFER_LENGTH else quantity)
      (if quantity > SOFTWIRE_CH32_BUFFER_LENGTH then SOFTWIRE_CH32_BUFFER_LENGTH else quantity)
      0 s._rx_buffer 0
      (i2c_write_byte bus s ((2 * address + 1) % 256) (i2c_start bus s t)).2
    refine ⟨acks.map BusOp.readByte ++ stopIf sendStop, ?_⟩
    unfold requestFrom
    simp only [addr_read_byte, h1, Bool.not_true, Bool.false_eq_true, if_false, ha,
      runOps_append, runOps_stopIf]
    simp only [runOps]

/-- C20: for every address `a`, the address byte put on the bus is
`(2 * a) mod 256` for `endTransmission` and `exists` and `(2 * a + 1) mod 256`
for `requestFrom`; its low bit is 0 for writes and 1 for reads. The top bit of
an 8-bit address is dropped: the addresses `a` and `a + 128` give the same
address bytes, hence identical results, objects and traces against the same
bus, for `endTransmission` after `beginTransmission` and any queued bytes, for
`requestFrom` and for `exists`. -/
theorem address_byte (bus : Bus) (s : SoftWire_CH32) (a quantity : Nat) (data : List Nat)
    (sendStop : Bool) (t : Trace) :
    (∃ ops : List BusOp, (endTransmission bus (beginTransmission s a) sendStop t).2 =
      runOps bus (beginTransmission s a)
        ([BusOp.start, BusOp.writeByte ((2 * a) % 256)] ++ ops) t) ∧
    (∃ ops : List BusOp, (requestFrom bus s a quantity sendStop t).2.2 =
      runOps bus s ([BusOp.start, BusOp.writeByte ((2 * a + 1) % 256)] ++ ops) t) ∧
    («exists» bus s a t).2 =
      runOps bus s [BusOp.start, BusOp.writeByte ((2 * a) % 256), BusOp.stop] t ∧
    ((2 * a) % 256) % 2 = 0 ∧
    ((2 * a + 1) % 256) % 2 = 1 ∧
    (2 * (a + 128)) % 256 = (2 * a) % 256 ∧
    (2 * (a + 128) + 1) % 256 = (2 * a + 1) % 256 ∧
    endTransmission bus (queue (beginTransmission s (a + 128)) data) sendStop t =
      endTransmission bus (queue (beginTransmission s a) data) sendStop t ∧
    (requestFrom bus s (a + 128) quantity sendStop t).1 =
      (requestFrom bus s a quantity sendStop t).1 ∧
    (requestFrom bus s (a + 128) quantity sendStop t).2.1 =
      (requestFrom bus s a quantity sendStop t).2.1 ∧
    (requestFrom bus s (a + 128) quantity sendStop t).2.2 =
      (requestFrom bus s a quantity sendStop t).2.2 ∧
    «exists» bus s (a + 128) t = «exists» bus s a t := by
  have hw : (2 * (a + 128)) % 256 = (2 * a) % 256 := by omega
  have hr : (2 * (a + 128) + 1) % 256 = (2 * a + 1) % 256 := by omega
  have hreq : requestFrom bus s (a + 128) quantity sendStop t =
      requestFrom bus s a quantity sendStop t := by
    unfold requestFrom
    simp only [addr_read_byte, hr]
  have hex : «exists» bus s (a + 128) t = «exists» bus s a t := by
    unfold «exists»
    simp only [addr_write_byte, hw]
  have hbegin : ∀ x : Nat, beginTransmission s x =
      { ({ s with _tx_buffer_index := 0, _tx_buffer_length := 0 } : SoftWire_CH32) with
        _tx_address := x } := fun _ => rfl
  refine ⟨endTransmission_ops bus (beginTransmission s a) sendStop t,
    requestFrom_ops bus s a quantity sendStop t, ?_, by omega, by omega, hw, hr, ?_,
    by rw [hreq], by rw [hreq], by rw [hreq], hex⟩
  · unfold «exists»
    simp only [addr_write_byte]
    rfl
  · rw [hbegin (a + 128), hbegin a, queue_with_address, queue_with_address]
    exact endTransmission_congr bus
      { queue ({ s with _tx_buffer_index := 0, _tx_buffer_length := 0 } : SoftWire_CH32) data
        with _tx_address := a + 128 }
      { queue ({ s with _tx_buffer_index := 0, _tx_buffer_length := 0 } : SoftWire_CH32) data
        with _tx_address := a }
      ⟨rfl, rfl, rfl⟩ rfl rfl hw sendStop t

end SoftWire
